import Mathlib

/-!
Verification of the three self-balancing search-tree engines of this
repository: the Treap (`src/data_structures/treap.py`), the AVL tree
(`src/data_structures/avl.py`), and the Red-Black tree
(`src/data_structures/rbtree.py`).

Keys are modelled as `Int` (the source only ever compares keys with a total
order); treap priorities are modelled as `Int` (the source draws random floats
and only ever compares them); AVL values are `Option Int` (`None` or a value).
-/

set_option maxHeartbeats 1600000

namespace Spec

/-! ## Treap, from `src/data_structures/treap.py`

`TreapNode(key, priority)` has fields `key`, `priority`, `left`, `right`;
`None` children are modelled by `nil`.  The new-node priority (a random float
in the source, `random.random()`) is passed explicitly as a parameter. -/

inductive Treap where
  | nil : Treap
  | node (key : Int) (priority : Int) (left : Treap) (right : Treap) : Treap
deriving DecidableEq, Repr

namespace Treap

/-- `root.priority`; the source only reads `.priority` on real nodes. -/
def pri : Treap → Int
  | nil => 0
  | node _ p _ _ => p

def size : Treap → Nat
  | nil => 0
  | node _ _ l r => 1 + size l + size r

/-- `Treap.rotate_right(y)`: `x = y.left; y.left = x.right; x.right = y`.
The source would raise on `y.left is None`; callers guarantee a real left
child, and the fall-through branch returns the input unchanged. -/
def rotateRight : Treap → Treap
  | node yk yp (node xk xp xl xr) yr => node xk xp xl (node yk yp xr yr)
  | t => t

/-- `Treap.rotate_left(x)`: `y = x.right; x.right = y.left; y.left = x`. -/
def rotateLeft : Treap → Treap
  | node xk xp xl (node yk yp yl yr) => node yk yp (node xk xp xl yl) yr
  | t => t

/-- `Treap.insert(root, key)`; the freshly drawn priority of the new node is
the parameter `p`.  Duplicate keys are ignored. -/
def insert (t : Treap) (k p : Int) : Treap :=
  match t with
  | nil => node k p nil nil
  | node k0 p0 l r =>
    if k < k0 then
      let l2 := insert l k p
      if pri l2 > p0 then rotateRight (node k0 p0 l2 r) else node k0 p0 l2 r
    else if k0 < k then
      let r2 := insert r k p
      if pri r2 > p0 then rotateLeft (node k0 p0 l r2) else node k0 p0 l r2
    else node k0 p0 l r

/-- `Treap.search(root, key)`. -/
def search (t : Treap) (k : Int) : Bool :=
  match t with
  | nil => false
  | node k0 _ l r => if k = k0 then true else if k < k0 then search l k else search r k

/-- `Treap.delete(root, key)`.  In the two-children case the source first
rotates (`rotate_left` when `root.left.priority < root.right.priority`, else
`rotate_right`) and then recurses into the child that now contains the target;
the rotations are written out (see `delete_two_children_left` /
`delete_two_children_right` below for the identification). -/
def delete (t : Treap) (k : Int) : Treap :=
  match t with
  | nil => nil
  | node k0 p0 l r =>
    if k < k0 then node k0 p0 (delete l k) r
    else if k0 < k then node k0 p0 l (delete r k)
    else
      match l, r with
      | nil, _ => r
      | node lk lp ll lr, nil => node lk lp ll lr
      | node lk lp ll lr, node rk rp rl rr =>
        if lp < rp then
          -- root = rotate_left(root); root.left = delete(root.left, key)
          node rk rp (delete (node k0 p0 (node lk lp ll lr) rl) k) rr
        else
          -- root = rotate_right(root); root.right = delete(root.right, key)
          node lk lp ll (delete (node k0 p0 lr (node rk rp rl rr)) k)
  termination_by size t
  decreasing_by
    all_goals simp [size]
    all_goals omega

/-- The first two-children branch of `delete` is `rotate_left` at the node
followed by deletion in the new left child. -/
theorem delete_two_children_left (k0 p0 : Int) (l : Treap) (rk rp : Int) (rl rr : Treap) :
    rotateLeft (node k0 p0 l (node rk rp rl rr)) = node rk rp (node k0 p0 l rl) rr := rfl

/-- The second two-children branch of `delete` is `rotate_right` at the node
followed by deletion in the new right child. -/
theorem delete_two_children_right (k0 p0 lk lp : Int) (ll lr : Treap) (r : Treap) :
    rotateRight (node k0 p0 (node lk lp ll lr) r) = node lk lp ll (node k0 p0 lr r) := rfl

/-- In-order key list. -/
def keys : Treap → List Int
  | nil => []
  | node k _ l r => keys l ++ k :: keys r

/-- All keys of `t` satisfy `P`. -/
def All (P : Int → Prop) : Treap → Prop
  | nil => True
  | node k _ l r => P k ∧ All P l ∧ All P r

/-- BST order on keys. -/
def Ordered : Treap → Prop
  | nil => True
  | node k _ l r => All (· < k) l ∧ All (k < ·) r ∧ Ordered l ∧ Ordered r

/-- Root priority of `t` is at most `p` (trivially true for `nil`). -/
def priLe (t : Treap) (p : Int) : Prop :=
  match t with
  | nil => True
  | node _ q _ _ => q ≤ p

/-- Max-heap order on priorities: every node's priority is `≥` both
children's priorities. -/
def Heap : Treap → Prop
  | nil => True
  | node _ p l r => priLe l p ∧ priLe r p ∧ Heap l ∧ Heap r

/-- One operation of the public wrapper interface
(`insert_key` / `delete_key`), with the random priority draw of an insert
made explicit. -/
inductive TOp where
  | ins (k p : Int)
  | del (k : Int)
deriving DecidableEq, Repr

/-- `insert_key` / `delete_key`: thread `self.root`. -/
def step (t : Treap) : TOp → Treap
  | .ins k p => insert t k p
  | .del k => delete t k

/-- Run a sequence of operations on an initially empty treap. -/
def run (ops : List TOp) : Treap := ops.foldl step nil

/-- All priorities in `t` are at most `c`. -/
def AllPri (c : Int) : Treap → Prop
  | nil => True
  | node _ p l r => p ≤ c ∧ AllPri c l ∧ AllPri c r

/-- Root-children priority bound: both children of `t` have root priority
at most `c`. -/
def chLe (t : Treap) (c : Int) : Prop :=
  match t with
  | nil => True
  | node _ _ l r => priLe l c ∧ priLe r c

@[simp] theorem pri_nil : pri nil = 0 := rfl
@[simp] theorem pri_node (k p : Int) (l r : Treap) : pri (node k p l r) = p := rfl
@[simp] theorem keys_nil : keys nil = [] := rfl
@[simp] theorem keys_node (k p : Int) (l r : Treap) :
    keys (node k p l r) = keys l ++ k :: keys r := rfl
@[simp] theorem All_nil (P : Int → Prop) : All P nil := trivial
@[simp] theorem All_node (P : Int → Prop) (k p : Int) (l r : Treap) :
    All P (node k p l r) ↔ P k ∧ All P l ∧ All P r := Iff.rfl
@[simp] theorem Ordered_nil : Ordered nil := trivial
@[simp] theorem Ordered_node (k p : Int) (l r : Treap) :
    Ordered (node k p l r) ↔
      All (· < k) l ∧ All (k < ·) r ∧ Ordered l ∧ Ordered r := Iff.rfl
@[simp] theorem priLe_nil (c : Int) : priLe nil c := trivial
@[simp] theorem priLe_node (k p c : Int) (l r : Treap) :
    priLe (node k p l r) c ↔ p ≤ c := Iff.rfl
@[simp] theorem Heap_nil : Heap nil := trivial
@[simp] theorem Heap_node (k p : Int) (l r : Treap) :
    Heap (node k p l r) ↔ priLe l p ∧ priLe r p ∧ Heap l ∧ Heap r := Iff.rfl
@[simp] theorem chLe_nil (c : Int) : chLe nil c := trivial
@[simp] theorem chLe_node (k p c : Int) (l r : Treap) :
    chLe (node k p l r) c ↔ priLe l c ∧ priLe r c := Iff.rfl
@[simp] theorem AllPri_nil (c : Int) : AllPri c nil := trivial
@[simp] theorem AllPri_node (c k p : Int) (l r : Treap) :
    AllPri c (node k p l r) ↔ p ≤ c ∧ AllPri c l ∧ AllPri c r := Iff.rfl

theorem all_imp {P Q : Int → Prop} (h : ∀ x, P x → Q x) :
    ∀ t, All P t → All Q t := by
  intro t; induction t with
  | nil => simp [All]
  | node k p l r ihl ihr => simp only [All]; exact fun ⟨h1, h2, h3⟩ => ⟨h _ h1, ihl h2, ihr h3⟩

theorem allPri_mono {c d : Int} (hcd : c ≤ d) : ∀ t, AllPri c t → AllPri d t := by
  intro t; induction t with
  | nil => simp [AllPri]
  | node k p l r ihl ihr =>
    simp only [AllPri]; exact fun ⟨h1, h2, h3⟩ => ⟨le_trans h1 hcd, ihl h2, ihr h3⟩

theorem heap_allPri : ∀ t c, Heap t → priLe t c → AllPri c t := by
  intro t; induction t with
  | nil => simp [AllPri]
  | node k p l r ihl ihr =>
    intro c hh hle
    obtain ⟨h1, h2, h3, h4⟩ := hh
    exact ⟨hle, allPri_mono hle _ (ihl p h3 h1), allPri_mono hle _ (ihr p h4 h2)⟩

theorem allPri_priLe {c : Int} {t : Treap} (h : AllPri c t) : priLe t c := by
  cases t with
  | nil => trivial
  | node k p l r => exact h.1

theorem insert_lt {k k0 : Int} (p p0 : Int) (l r : Treap) (hk : k < k0) :
    insert (node k0 p0 l r) k p =
      if pri (insert l k p) > p0 then rotateRight (node k0 p0 (insert l k p) r)
      else node k0 p0 (insert l k p) r := by
  simp only [insert, if_pos hk]

theorem insert_gt {k k0 : Int} (p p0 : Int) (l r : Treap) (hk : ¬ k < k0) (hk2 : k0 < k) :
    insert (node k0 p0 l r) k p =
      if pri (insert r k p) > p0 then rotateLeft (node k0 p0 l (insert r k p))
      else node k0 p0 l (insert r k p) := by
  simp only [insert, if_neg hk, if_pos hk2]

theorem insert_found {k k0 : Int} (p p0 : Int) (l r : Treap) (hk : ¬ k < k0)
    (hk2 : ¬ k0 < k) : insert (node k0 p0 l r) k p = node k0 p0 l r := by
  simp only [insert, if_neg hk, if_neg hk2]

theorem priLe_of_le {t : Treap} {c d : Int} (h : priLe t c) (hcd : c ≤ d) : priLe t d := by
  cases t with
  | nil => trivial
  | node k p l r => exact le_trans h hcd

theorem priLe_of_not_gt {t : Treap} {c : Int} (h : ¬ pri t > c) : priLe t c := by
  cases t with
  | nil => trivial
  | node k p l r => exact not_lt.mp h

theorem insert_ne_nil (t : Treap) (k p : Int) : insert t k p ≠ nil := by
  cases t with
  | nil => simp [insert]
  | node k0 p0 l r =>
    simp only [insert]
    split
    · split
      · rcases insert l k p with _ | ⟨a, b, c, d⟩ <;> simp [rotateRight]
      · simp
    · split
      · split
        · rcases insert r k p with _ | ⟨a, b, c, d⟩ <;> simp [rotateLeft]
        · simp
      · simp

/-- Treap insertion preserves the max-heap property; moreover the new root
priority is the old one, or the new node rose to the root and both its
children stay bounded by the old root priority. -/
theorem insert_heap (t : Treap) (k p : Int) (hh : Heap t) :
    Heap (insert t k p) ∧
      (pri (insert t k p) = pri t ∨
        (pri (insert t k p) = p ∧ chLe (insert t k p) (pri t))) := by
  induction t with
  | nil => simp [insert]
  | node k0 p0 l r ihl ihr =>
    obtain ⟨hpl, hpr, hl, hr⟩ := hh
    by_cases hk : k < k0
    · rw [insert_lt p p0 l r hk]
      obtain ⟨hl2, hdisj⟩ := ihl hl
      by_cases hrot : pri (insert l k p) > p0
      · rw [if_pos hrot]
        rcases h2 : insert l k p with _ | ⟨a, ap, al, ar⟩
        · exact absurd h2 (insert_ne_nil _ k p)
        rw [h2] at hl2 hdisj hrot
        obtain ⟨ha1, ha2, ha3, ha4⟩ := hl2
        simp only [pri_node] at hrot
        have hch2 : priLe al p0 ∧ priLe ar p0 ∧ ap = p := by
          cases l with
          | nil =>
            simp [insert] at h2
            obtain ⟨-, hp2, h3, h4⟩ := h2
            exact ⟨h3 ▸ trivial, h4 ▸ trivial, hp2.symm⟩
          | node lk lp ll lr =>
            simp only [priLe_node] at hpl
            rcases hdisj with hsame | ⟨hnew, hch⟩
            · -- the left subtree root would be unchanged, contradicting the rotation test
              exfalso
              simp only [pri_node] at hsame
              omega
            · simp only [pri_node] at hnew
              simp only [chLe_node] at hch
              exact ⟨priLe_of_le hch.1 hpl, priLe_of_le hch.2 hpl, hnew⟩
        simp only [rotateRight, Heap_node, chLe_node, pri_node, priLe_node]
        exact ⟨⟨ha1, le_of_lt hrot, ha3, hch2.2.1, hpr, ha4, hr⟩,
          Or.inr ⟨hch2.2.2, hch2.1, le_refl p0⟩⟩
      · rw [if_neg hrot]
        refine ⟨?_, Or.inl (by simp)⟩
        simp only [Heap_node]
        exact ⟨priLe_of_not_gt hrot, hpr, hl2, hr⟩
    · by_cases hk2 : k0 < k
      · rw [insert_gt p p0 l r hk hk2]
        obtain ⟨hr2, hdisj⟩ := ihr hr
        by_cases hrot : pri (insert r k p) > p0
        · rw [if_pos hrot]
          rcases h2 : insert r k p with _ | ⟨a, ap, al, ar⟩
          · exact absurd h2 (insert_ne_nil _ k p)
          rw [h2] at hr2 hdisj hrot
          obtain ⟨ha1, ha2, ha3, ha4⟩ := hr2
          simp only [pri_node] at hrot
          have hch2 : priLe al p0 ∧ priLe ar p0 ∧ ap = p := by
            cases r with
            | nil =>
              simp [insert] at h2
              obtain ⟨-, hp2, h3, h4⟩ := h2
              exact ⟨h3 ▸ trivial, h4 ▸ trivial, hp2.symm⟩
            | node rk rp rl rr =>
              simp only [priLe_node] at hpr
              rcases hdisj with hsame | ⟨hnew, hch⟩
              · exfalso
                simp only [pri_node] at hsame
                omega
              · simp only [pri_node] at hnew
                simp only [chLe_node] at hch
                exact ⟨priLe_of_le hch.1 hpr, priLe_of_le hch.2 hpr, hnew⟩
          simp only [rotateLeft, Heap_node, chLe_node, pri_node, priLe_node]
          exact ⟨⟨le_of_lt hrot, ha2, ⟨hpl, hch2.1, hl, ha3⟩, ha4⟩,
            Or.inr ⟨hch2.2.2, le_refl p0, hch2.2.1⟩⟩
        · rw [if_neg hrot]
          refine ⟨?_, Or.inl (by simp)⟩
          simp only [Heap_node]
          exact ⟨hpl, priLe_of_not_gt hrot, hl, hr2⟩
      · rw [insert_found p p0 l r hk hk2]
        exact ⟨⟨hpl, hpr, hl, hr⟩, Or.inl rfl⟩

theorem delete_lt {k k0 : Int} (p0 : Int) (l r : Treap) (hk : k < k0) :
    delete (node k0 p0 l r) k = node k0 p0 (delete l k) r := by
  rw [delete.eq_def]; simp [hk]

theorem delete_gt {k k0 : Int} (p0 : Int) (l r : Treap) (hk : ¬ k < k0) (hk2 : k0 < k) :
    delete (node k0 p0 l r) k = node k0 p0 l (delete r k) := by
  rw [delete.eq_def]; simp [hk, hk2]

theorem delete_found_nl {k k0 : Int} (p0 : Int) (r : Treap) (hk : ¬ k < k0)
    (hk2 : ¬ k0 < k) : delete (node k0 p0 Treap.nil r) k = r := by
  rw [delete]; simp [hk, hk2]

theorem delete_found_nr {k k0 : Int} (p0 lk lp : Int) (ll lr : Treap) (hk : ¬ k < k0)
    (hk2 : ¬ k0 < k) :
    delete (node k0 p0 (node lk lp ll lr) Treap.nil) k = node lk lp ll lr := by
  rw [delete.eq_def]; simp [hk, hk2]

theorem delete_found_rl {k k0 : Int} (p0 lk lp rk rp : Int) (ll lr rl rr : Treap)
    (hk : ¬ k < k0) (hk2 : ¬ k0 < k) (hp : lp < rp) :
    delete (node k0 p0 (node lk lp ll lr) (node rk rp rl rr)) k =
      node rk rp (delete (node k0 p0 (node lk lp ll lr) rl) k) rr := by
  rw [delete.eq_def]; simp [hk, hk2, hp]

theorem delete_found_rr {k k0 : Int} (p0 lk lp rk rp : Int) (ll lr rl rr : Treap)
    (hk : ¬ k < k0) (hk2 : ¬ k0 < k) (hp : ¬ lp < rp) :
    delete (node k0 p0 (node lk lp ll lr) (node rk rp rl rr)) k =
      node lk lp ll (delete (node k0 p0 lr (node rk rp rl rr)) k) := by
  rw [delete.eq_def]; simp [hk, hk2, hp]

/-- Treap deletion preserves the max-heap property, never introduces new
priorities, and when invoked at the root key it stays bounded by the
children's priority bounds (the deleted root priority is gone). -/
theorem delete_heap_aux : ∀ (t : Treap) (k : Int), Heap t →
    Heap (delete t k) ∧ (∀ c, AllPri c t → AllPri c (delete t k)) ∧
      (∀ k2 p2 l2 r2, t = node k2 p2 l2 r2 → k2 = k →
        ∀ c, AllPri c l2 → AllPri c r2 → AllPri c (delete t k)) := by
  intro t k
  induction t, k using delete.induct with
  | case1 k => simp [delete]
  | case2 k k0 p0 l r hk ih =>
    intro hh
    obtain ⟨hpl, hpr, hl, hr⟩ := hh
    obtain ⟨ih1, ih2, -⟩ := ih hl
    rw [delete_lt p0 l r hk]
    refine ⟨⟨?_, hpr, ih1, hr⟩, ?_, ?_⟩
    · exact allPri_priLe (ih2 p0 (heap_allPri l p0 hl hpl))
    · intro c hc
      obtain ⟨h1, h2, h3⟩ := hc
      exact ⟨h1, ih2 c h2, h3⟩
    · intro k2 p2 l2 r2 heq hke
      injection heq with e1 e2 e3 e4
      omega
  | case3 k k0 p0 l r hk hk2 ih =>
    intro hh
    obtain ⟨hpl, hpr, hl, hr⟩ := hh
    obtain ⟨ih1, ih2, -⟩ := ih hr
    rw [delete_gt p0 l r hk hk2]
    refine ⟨⟨hpl, ?_, hl, ih1⟩, ?_, ?_⟩
    · exact allPri_priLe (ih2 p0 (heap_allPri r p0 hr hpr))
    · intro c hc
      obtain ⟨h1, h2, h3⟩ := hc
      exact ⟨h1, h2, ih2 c h3⟩
    · intro k2 p2 l2 r2 heq hke
      injection heq with e1 e2 e3 e4
      omega
  | case4 k k0 p0 hk hk2 r =>
    intro hh
    obtain ⟨hpl, hpr, hl, hr⟩ := hh
    rw [delete_found_nl p0 r hk hk2]
    refine ⟨hr, ?_, ?_⟩
    · intro c hc; exact hc.2.2
    · intro k2 p2 l2 r2 heq hke c hcl hcr
      injection heq with e1 e2 e3 e4
      subst e4; exact hcr
  | case5 k k0 p0 hk hk2 lk lp ll lr =>
    intro hh
    obtain ⟨hpl, hpr, hl, hr⟩ := hh
    rw [delete_found_nr p0 lk lp ll lr hk hk2]
    refine ⟨hl, ?_, ?_⟩
    · intro c hc; exact hc.2.1
    · intro k2 p2 l2 r2 heq hke c hcl hcr
      injection heq with e1 e2 e3 e4
      subst e3; exact hcl
  | case6 k k0 p0 hk hk2 lk lp ll lr rk rp rl rr hp ih =>
    intro hh
    obtain ⟨hpl, hpr, hl, hr⟩ := hh
    obtain ⟨hrl, hrr, hhrl, hhrr⟩ := hr
    have hk0 : k0 = k := by omega
    have hinner : Heap (node k0 p0 (node lk lp ll lr) rl) :=
      ⟨hpl, priLe_of_le hrl hpr, hl, hhrl⟩
    obtain ⟨ih1, -, ih3⟩ := ih hinner
    have ihroot := ih3 k0 p0 (node lk lp ll lr) rl rfl hk0
    rw [delete_found_rl p0 lk lp rk rp ll lr rl rr hk hk2 hp]
    refine ⟨⟨?_, hrr, ih1, hhrr⟩, ?_, ?_⟩
    · refine allPri_priLe (ihroot rp ?_ ?_)
      · exact heap_allPri _ rp hl (le_of_lt hp)
      · exact heap_allPri _ rp hhrl hrl
    · intro c hc
      obtain ⟨h1, h2, h3, h4, h5⟩ := hc
      exact ⟨h3, ihroot c h2 h4, h5⟩
    · intro k2 p2 l2 r2 heq hke c hcl hcr
      injection heq with e1 e2 e3 e4
      subst e3; subst e4
      obtain ⟨h3, h4, h5⟩ := hcr
      exact ⟨h3, ihroot c hcl h4, h5⟩
  | case7 k k0 p0 hk hk2 lk lp ll lr rk rp rl rr hp ih =>
    intro hh
    obtain ⟨hpl, hpr, hl, hr⟩ := hh
    obtain ⟨hll, hlr, hhll, hhlr⟩ := hl
    have hk0 : k0 = k := by omega
    have hinner : Heap (node k0 p0 lr (node rk rp rl rr)) :=
      ⟨priLe_of_le hlr hpl, hpr, hhlr, hr⟩
    obtain ⟨ih1, -, ih3⟩ := ih hinner
    have ihroot := ih3 k0 p0 lr (node rk rp rl rr) rfl hk0
    rw [delete_found_rr p0 lk lp rk rp ll lr rl rr hk hk2 hp]
    refine ⟨⟨hll, ?_, hhll, ih1⟩, ?_, ?_⟩
    · refine allPri_priLe (ihroot lp ?_ ?_)
      · exact heap_allPri _ lp hhlr hlr
      · exact heap_allPri _ lp hr (not_lt.mp hp)
    · intro c hc
      obtain ⟨h1, h2, h3⟩ := hc
      obtain ⟨h4, h5, h6⟩ := h2
      exact ⟨h4, h5, ihroot c h6 h3⟩
    · intro k2 p2 l2 r2 heq hke c hcl hcr
      injection heq with e1 e2 e3 e4
      subst e3; subst e4
      obtain ⟨h4, h5, h6⟩ := hcl
      exact ⟨h4, h5, ihroot c h6 hcr⟩

theorem delete_heap (t : Treap) (k : Int) (hh : Heap t) : Heap (delete t k) :=
  (delete_heap_aux t k hh).1

theorem sortedAppend {R : Int → Int → Prop} {l1 l2 : List Int} :
    List.Sorted R (l1 ++ l2) ↔
      List.Sorted R l1 ∧ List.Sorted R l2 ∧ ∀ a ∈ l1, ∀ b ∈ l2, R a b :=
  List.pairwise_append

theorem all_iff_keys {P : Int → Prop} : ∀ {t : Treap}, All P t ↔ ∀ x ∈ keys t, P x := by
  intro t
  induction t with
  | nil => simp
  | node k p l r ihl ihr =>
    simp only [All_node, keys_node, List.mem_append, List.mem_cons, ihl, ihr]
    constructor
    · rintro ⟨h1, h2, h3⟩ x (hx | hx | hx)
      · exact h2 x hx
      · exact hx ▸ h1
      · exact h3 x hx
    · intro h
      exact ⟨h k (Or.inr (Or.inl rfl)), fun x hx => h x (Or.inl hx),
        fun x hx => h x (Or.inr (Or.inr hx))⟩

theorem keys_rotateRight (t : Treap) : keys (rotateRight t) = keys t := by
  rcases t with _ | ⟨k, p, l, r⟩
  · rfl
  · rcases l with _ | ⟨lk, lp, ll, lr⟩
    · rfl
    · simp [rotateRight]

theorem keys_rotateLeft (t : Treap) : keys (rotateLeft t) = keys t := by
  rcases t with _ | ⟨k, p, l, r⟩
  · rfl
  · rcases r with _ | ⟨rk, rp, rl, rr⟩
    · rfl
    · simp [rotateLeft]

theorem mem_keys_insert (t : Treap) (k p : Int) :
    ∀ x, x ∈ keys (insert t k p) ↔ x = k ∨ x ∈ keys t := by
  induction t with
  | nil => simp [insert]
  | node k0 p0 l r ihl ihr =>
    intro x
    by_cases hk : k < k0
    · rw [insert_lt p p0 l r hk]
      by_cases hrot : pri (insert l k p) > p0
      · rw [if_pos hrot, keys_rotateRight]
        simp only [keys_node, List.mem_append, List.mem_cons, ihl]
        tauto
      · rw [if_neg hrot]
        simp only [keys_node, List.mem_append, List.mem_cons, ihl]
        tauto
    · by_cases hk2 : k0 < k
      · rw [insert_gt p p0 l r hk hk2]
        by_cases hrot : pri (insert r k p) > p0
        · rw [if_pos hrot, keys_rotateLeft]
          simp only [keys_node, List.mem_append, List.mem_cons, ihr]
          tauto
        · rw [if_neg hrot]
          simp only [keys_node, List.mem_append, List.mem_cons, ihr]
          tauto
      · rw [insert_found p p0 l r hk hk2]
        have : k = k0 := by omega
        subst this
        simp only [keys_node, List.mem_append, List.mem_cons]
        tauto

theorem ordered_rotateRight {t : Treap} (h : Ordered t) : Ordered (rotateRight t) := by
  rcases t with _ | ⟨k, p, l, r⟩
  · exact h
  · rcases l with _ | ⟨lk, lp, ll, lr⟩
    · exact h
    · simp only [rotateRight, Ordered_node, All_node] at h ⊢
      obtain ⟨⟨hlk, hll, hlr⟩, hr, ⟨hll2, hlr2, holl, holr⟩, hor⟩ := h
      exact ⟨hll2, ⟨hlk, hlr2, all_imp (fun x hx => lt_trans hlk hx) r hr⟩, holl,
        hlr, hr, holr, hor⟩

theorem ordered_rotateLeft {t : Treap} (h : Ordered t) : Ordered (rotateLeft t) := by
  rcases t with _ | ⟨k, p, l, r⟩
  · exact h
  · rcases r with _ | ⟨rk, rp, rl, rr⟩
    · exact h
    · simp only [rotateLeft, Ordered_node, All_node] at h ⊢
      obtain ⟨hl, ⟨hrk, hrl, hrr⟩, hol, ⟨hrl2, hrr2, horl, horr⟩⟩ := h
      exact ⟨⟨hrk, all_imp (fun x hx => lt_trans hx hrk) l hl, hrl2⟩, hrr2,
        ⟨hl, hrl, hol, horl⟩, horr⟩

theorem ordered_insert {t : Treap} (k p : Int) (h : Ordered t) : Ordered (insert t k p) := by
  induction t with
  | nil => simp [insert]
  | node k0 p0 l r ihl ihr =>
    obtain ⟨hl, hr, hol, hor⟩ := h
    by_cases hk : k < k0
    · rw [insert_lt p p0 l r hk]
      have hbase : Ordered (node k0 p0 (insert l k p) r) := by
        refine ⟨?_, hr, ihl hol, hor⟩
        rw [all_iff_keys]
        intro x hx
        rcases (mem_keys_insert l k p x).mp hx with h1 | h1
        · omega
        · exact all_iff_keys.mp hl x h1
      by_cases hrot : pri (insert l k p) > p0
      · rw [if_pos hrot]; exact ordered_rotateRight hbase
      · rw [if_neg hrot]; exact hbase
    · by_cases hk2 : k0 < k
      · rw [insert_gt p p0 l r hk hk2]
        have hbase : Ordered (node k0 p0 l (insert r k p)) := by
          refine ⟨hl, ?_, hol, ihr hor⟩
          rw [all_iff_keys]
          intro x hx
          rcases (mem_keys_insert r k p x).mp hx with h1 | h1
          · omega
          · exact all_iff_keys.mp hr x h1
        by_cases hrot : pri (insert r k p) > p0
        · rw [if_pos hrot]; exact ordered_rotateLeft hbase
        · rw [if_neg hrot]; exact hbase
      · rw [insert_found p p0 l r hk hk2]
        exact ⟨hl, hr, hol, hor⟩

theorem all_delete {P : Int → Prop} : ∀ (t : Treap) (k : Int), All P t → All P (delete t k) := by
  intro t k
  induction t, k using delete.induct with
  | case1 k => simp [delete]
  | case2 k k0 p0 l r hk ih =>
    intro h
    rw [delete_lt p0 l r hk]
    exact ⟨h.1, ih h.2.1, h.2.2⟩
  | case3 k k0 p0 l r hk hk2 ih =>
    intro h
    rw [delete_gt p0 l r hk hk2]
    exact ⟨h.1, h.2.1, ih h.2.2⟩
  | case4 k k0 p0 hk hk2 r =>
    intro h
    rw [delete_found_nl p0 r hk hk2]
    exact h.2.2
  | case5 k k0 p0 hk hk2 lk lp ll lr =>
    intro h
    rw [delete_found_nr p0 lk lp ll lr hk hk2]
    exact h.2.1
  | case6 k k0 p0 hk hk2 lk lp ll lr rk rp rl rr hp ih =>
    intro h
    obtain ⟨h1, h2, ⟨h3, h4, h5⟩⟩ := h
    rw [delete_found_rl p0 lk lp rk rp ll lr rl rr hk hk2 hp]
    exact ⟨h3, ih ⟨h1, h2, h4⟩, h5⟩
  | case7 k k0 p0 hk hk2 lk lp ll lr rk rp rl rr hp ih =>
    intro h
    obtain ⟨h1, ⟨h2, h3, h4⟩, h5⟩ := h
    rw [delete_found_rr p0 lk lp rk rp ll lr rl rr hk hk2 hp]
    exact ⟨h2, h3, ih ⟨h1, h4, h5⟩⟩

theorem ordered_delete : ∀ (t : Treap) (k : Int), Ordered t → Ordered (delete t k) := by
  intro t k
  induction t, k using delete.induct with
  | case1 k => simp [delete]
  | case2 k k0 p0 l r hk ih =>
    intro h
    obtain ⟨hl, hr, hol, hor⟩ := h
    rw [delete_lt p0 l r hk]
    exact ⟨all_delete l k hl, hr, ih hol, hor⟩
  | case3 k k0 p0 l r hk hk2 ih =>
    intro h
    obtain ⟨hl, hr, hol, hor⟩ := h
    rw [delete_gt p0 l r hk hk2]
    exact ⟨hl, all_delete r k hr, hol, ih hor⟩
  | case4 k k0 p0 hk hk2 r =>
    intro h
    rw [delete_found_nl p0 r hk hk2]
    exact h.2.2.2
  | case5 k k0 p0 hk hk2 lk lp ll lr =>
    intro h
    rw [delete_found_nr p0 lk lp ll lr hk hk2]
    exact h.2.2.1
  | case6 k k0 p0 hk hk2 lk lp ll lr rk rp rl rr hp ih =>
    intro h
    obtain ⟨hl, ⟨hrk, hrl, hrr⟩, hol, ⟨hrl2, hrr2, horl, horr⟩⟩ := h
    rw [delete_found_rl p0 lk lp rk rp ll lr rl rr hk hk2 hp]
    have hinner : Ordered (node k0 p0 (node lk lp ll lr) rl) := ⟨hl, hrl, hol, horl⟩
    refine ⟨?_, hrr2, ih hinner, horr⟩
    refine all_delete _ k ?_
    exact ⟨hrk, all_imp (fun x hx => lt_trans hx hrk) _ hl, hrl2⟩
  | case7 k k0 p0 hk hk2 lk lp ll lr rk rp rl rr hp ih =>
    intro h
    obtain ⟨⟨hlk, hll, hlr⟩, hr, ⟨hll2, hlr2, holl, holr⟩, hor⟩ := h
    rw [delete_found_rr p0 lk lp rk rp ll lr rl rr hk hk2 hp]
    have hinner : Ordered (node k0 p0 lr (node rk rp rl rr)) := ⟨hlr, hr, holr, hor⟩
    refine ⟨hll2, ?_, holl, ih hinner⟩
    refine all_delete _ k ?_
    exact ⟨hlk, hlr2, all_imp (fun x hx => lt_trans hlk hx) _ hr⟩

theorem filter_ne_self {k : Int} {l : List Int} (h : ∀ a ∈ l, a ≠ k) :
    List.filter (fun x => !decide (x = k)) l = l := by
  rw [List.filter_eq_self]
  intro a ha
  simpa using h a ha

theorem filter_ne_cons {k0 k : Int} (hne : k0 ≠ k) (l : List Int) :
    List.filter (fun x => !decide (x = k)) (k0 :: l) =
      k0 :: List.filter (fun x => !decide (x = k)) l := by
  rw [List.filter_cons]
  simp [hne]

theorem filter_ne_cons_dup (k : Int) (l : List Int) :
    List.filter (fun x => !decide (x = k)) (k :: l) =
      List.filter (fun x => !decide (x = k)) l := by
  rw [List.filter_cons]
  simp

/-- With the BST invariant, deletion removes exactly the key `k` from the
in-order key list. -/
theorem keys_delete : ∀ (t : Treap) (k : Int), Ordered t →
    keys (delete t k) = (keys t).filter (fun x => x ≠ k) := by
  intro t k
  induction t, k using delete.induct with
  | case1 k => simp [delete]
  | case2 k k0 p0 l r hk ih =>
    intro h
    obtain ⟨hl, hr, hol, hor⟩ := h
    rw [delete_lt p0 l r hk]
    have ihn := ih hol
    simp only [ne_eq, decide_not] at ihn ⊢
    have hne : k0 ≠ k := by omega
    have hfr : ∀ a ∈ keys r, a ≠ k := fun a ha => by
      have := all_iff_keys.mp hr a ha; omega
    simp [ihn, List.filter_append, filter_ne_cons hne, filter_ne_self hfr]
  | case3 k k0 p0 l r hk hk2 ih =>
    intro h
    obtain ⟨hl, hr, hol, hor⟩ := h
    rw [delete_gt p0 l r hk hk2]
    have ihn := ih hor
    simp only [ne_eq, decide_not] at ihn ⊢
    have hne : k0 ≠ k := by omega
    have hfl : ∀ a ∈ keys l, a ≠ k := fun a ha => by
      have := all_iff_keys.mp hl a ha; omega
    simp [ihn, List.filter_append, filter_ne_cons hne, filter_ne_self hfl]
  | case4 k k0 p0 hk hk2 r =>
    intro h
    obtain ⟨hl, hr, hol, hor⟩ := h
    have hk0 : k0 = k := by omega
    subst hk0
    rw [delete_found_nl p0 r hk hk2]
    have hfr : ∀ a ∈ keys r, a ≠ k0 := fun a ha => by
      have := all_iff_keys.mp hr a ha; omega
    simp only [ne_eq, decide_not, keys_node, keys_nil, List.nil_append]
    simp [filter_ne_cons_dup, filter_ne_self hfr]
  | case5 k k0 p0 hk hk2 lk lp ll lr =>
    intro h
    obtain ⟨hl, hr, hol, hor⟩ := h
    obtain ⟨hlk, hANll, hANlr⟩ := hl
    have hk0 : k0 = k := by omega
    subst hk0
    rw [delete_found_nr p0 lk lp ll lr hk hk2]
    have hlkne : lk ≠ k0 := by omega
    have hfll : ∀ a ∈ keys ll, a ≠ k0 := fun a ha => by
      have := all_iff_keys.mp hANll a ha; omega
    have hflr : ∀ a ∈ keys lr, a ≠ k0 := fun a ha => by
      have := all_iff_keys.mp hANlr a ha; omega
    simp only [ne_eq, decide_not, keys_node, keys_nil]
    simp [List.filter_append, filter_ne_cons hlkne, filter_ne_cons_dup,
      filter_ne_self hfll, filter_ne_self hflr]
  | case6 k k0 p0 hk hk2 lk lp ll lr rk rp rl rr hp ih =>
    intro h
    obtain ⟨hl, ⟨hrk, hrl, hrr⟩, hol, ⟨hrl2, hrr2, horl, horr⟩⟩ := h
    obtain ⟨hlk, hANll, hANlr⟩ := hl
    have hk0 : k0 = k := by omega
    subst hk0
    rw [delete_found_rl p0 lk lp rk rp ll lr rl rr hk hk2 hp]
    have hinner : Ordered (node k0 p0 (node lk lp ll lr) rl) :=
      ⟨⟨hlk, hANll, hANlr⟩, hrl, hol, horl⟩
    have ihn := ih hinner
    simp only [ne_eq, decide_not] at ihn ⊢
    have hlkne : lk ≠ k0 := by omega
    have hrkne : rk ≠ k0 := by omega
    have hfll : ∀ a ∈ keys ll, a ≠ k0 := fun a ha => by
      have := all_iff_keys.mp hANll a ha; omega
    have hflr : ∀ a ∈ keys lr, a ≠ k0 := fun a ha => by
      have := all_iff_keys.mp hANlr a ha; omega
    have hfrl : ∀ a ∈ keys rl, a ≠ k0 := fun a ha => by
      have := all_iff_keys.mp hrl a ha; omega
    have hfrr : ∀ a ∈ keys rr, a ≠ k0 := fun a ha => by
      have := all_iff_keys.mp hrr2 a ha; omega
    simp [ihn, List.filter_append, filter_ne_cons hlkne, filter_ne_cons hrkne,
      filter_ne_cons_dup, filter_ne_self hfll, filter_ne_self hflr,
      filter_ne_self hfrl, filter_ne_self hfrr]
  | case7 k k0 p0 hk hk2 lk lp ll lr rk rp rl rr hp ih =>
    intro h
    obtain ⟨⟨hlk, hll, hlr⟩, hr, ⟨hll2, hlr2, holl, holr⟩, hor⟩ := h
    obtain ⟨hrk, hANrl, hANrr⟩ := hr
    have hk0 : k0 = k := by omega
    subst hk0
    rw [delete_found_rr p0 lk lp rk rp ll lr rl rr hk hk2 hp]
    have hinner : Ordered (node k0 p0 lr (node rk rp rl rr)) :=
      ⟨hlr, ⟨hrk, hANrl, hANrr⟩, holr, hor⟩
    have ihn := ih hinner
    simp only [ne_eq, decide_not] at ihn ⊢
    have hlkne : lk ≠ k0 := by omega
    have hrkne : rk ≠ k0 := by omega
    have hfll : ∀ a ∈ keys ll, a ≠ k0 := fun a ha => by
      have := all_iff_keys.mp hll2 a ha; omega
    have hflr : ∀ a ∈ keys lr, a ≠ k0 := fun a ha => by
      have := all_iff_keys.mp hlr a ha; omega
    have hfrl : ∀ a ∈ keys rl, a ≠ k0 := fun a ha => by
      have := all_iff_keys.mp hANrl a ha; omega
    have hfrr : ∀ a ∈ keys rr, a ≠ k0 := fun a ha => by
      have := all_iff_keys.mp hANrr a ha; omega
    simp [ihn, List.filter_append, filter_ne_cons hlkne, filter_ne_cons hrkne,
      filter_ne_cons_dup, filter_ne_self hfll, filter_ne_self hflr,
      filter_ne_self hfrl, filter_ne_self hfrr]

theorem mem_keys_delete {t : Treap} {k : Int} (h : Ordered t) (x : Int) :
    x ∈ keys (delete t k) ↔ x ∈ keys t ∧ x ≠ k := by
  rw [keys_delete t k h]
  simp [List.mem_filter]

theorem search_iff {t : Treap} (k : Int) (h : Ordered t) :
    search t k = true ↔ k ∈ keys t := by
  induction t with
  | nil => simp [search]
  | node k0 p0 l r ihl ihr =>
    obtain ⟨hl, hr, hol, hor⟩ := h
    by_cases hk : k = k0
    · simp [search, hk]
    · by_cases hk2 : k < k0
      · have hnr : k ∉ keys r := fun hc => absurd (all_iff_keys.mp hr k hc) (by omega)
        simp only [search, if_neg hk, if_pos hk2, keys_node, List.mem_append, List.mem_cons,
          ihl hol]
        tauto
      · have hnl : k ∉ keys l := fun hc => absurd (all_iff_keys.mp hl k hc) (by omega)
        simp only [search, if_neg hk, if_neg hk2, keys_node, List.mem_append, List.mem_cons,
          ihr hor]
        tauto

theorem sorted_keys : ∀ {t : Treap}, Ordered t → List.Sorted (· < ·) (keys t) := by
  intro t
  induction t with
  | nil => simp
  | node k p l r ihl ihr =>
    intro h
    obtain ⟨hl, hr, hol, hor⟩ := h
    rw [keys_node, sortedAppend]
    refine ⟨ihl hol, ?_, ?_⟩
    · rw [List.sorted_cons]
      exact ⟨fun b hb => all_iff_keys.mp hr b hb, ihr hor⟩
    · intro a ha b hb
      rcases List.mem_cons.mp hb with hb2 | hb2
      · exact hb2 ▸ all_iff_keys.mp hl a ha
      · exact lt_trans (all_iff_keys.mp hl a ha) (all_iff_keys.mp hr b hb2)

theorem step_inv {t : Treap} (op : TOp) (h : Heap t ∧ Ordered t) :
    Heap (step t op) ∧ Ordered (step t op) := by
  cases op with
  | ins k p => exact ⟨(insert_heap t k p h.1).1, ordered_insert k p h.2⟩
  | del k => exact ⟨delete_heap t k h.1, ordered_delete t k h.2⟩

theorem foldl_inv : ∀ (ops : List TOp) (t : Treap), Heap t ∧ Ordered t →
    Heap (ops.foldl step t) ∧ Ordered (ops.foldl step t) := by
  intro ops
  induction ops with
  | nil => intro t h; exact h
  | cons op rest ih => intro t h; exact ih (step t op) (step_inv op h)

theorem run_inv (ops : List TOp) : Heap (run ops) ∧ Ordered (run ops) :=
  foldl_inv ops nil ⟨trivial, trivial⟩

/-- Deleting a key that is not in the treap returns the tree unchanged
(even without any structural invariant). -/
theorem delete_absent : ∀ (t : Treap) (k : Int), k ∉ keys t → delete t k = t := by
  intro t k
  induction t, k using delete.induct with
  | case1 k => intro _; simp [delete]
  | case2 k k0 p0 l r hk ih =>
    intro h
    simp only [keys_node, List.mem_append, List.mem_cons] at h
    rw [delete_lt p0 l r hk, ih (fun hc => h (Or.inl hc))]
  | case3 k k0 p0 l r hk hk2 ih =>
    intro h
    simp only [keys_node, List.mem_append, List.mem_cons] at h
    rw [delete_gt p0 l r hk hk2, ih (fun hc => h (Or.inr (Or.inr hc)))]
  | case4 k k0 p0 hk hk2 r =>
    intro h
    exfalso
    exact h (by simp; omega)
  | case5 k k0 p0 hk hk2 lk lp ll lr =>
    intro h
    exfalso
    exact h (by simp; omega)
  | case6 k k0 p0 hk hk2 lk lp ll lr rk rp rl rr hp ih =>
    intro h
    exfalso
    exact h (by simp; omega)
  | case7 k k0 p0 hk hk2 lk lp ll lr rk rp rl rr hp ih =>
    intro h
    exfalso
    exact h (by simp; omega)

/-- Inserting a key that is already present leaves the treap completely
unchanged (the descent finds the key and no rotation fires, by heap order). -/
theorem insert_mem_eq (t : Treap) (k p : Int) (hh : Heap t) (ho : Ordered t)
    (hmem : k ∈ keys t) : insert t k p = t := by
  induction t with
  | nil => simp at hmem
  | node k0 p0 l r ihl ihr =>
    obtain ⟨hpl, hpr, hhl, hhr⟩ := hh
    obtain ⟨hol, hor, hool, hoor⟩ := ho
    by_cases hk : k < k0
    · have hml : k ∈ keys l := by
        simp only [keys_node, List.mem_append, List.mem_cons] at hmem
        rcases hmem with h1 | h1 | h1
        · exact h1
        · omega
        · exact absurd (all_iff_keys.mp hor k h1) (by omega)
      rw [insert_lt p p0 l r hk, ihl hhl hool hml]
      cases l with
      | nil => simp at hml
      | node lk lp ll lr =>
        rw [if_neg (by simpa using not_lt.mpr hpl)]
    · by_cases hk2 : k0 < k
      · have hmr : k ∈ keys r := by
          simp only [keys_node, List.mem_append, List.mem_cons] at hmem
          rcases hmem with h1 | h1 | h1
          · exact absurd (all_iff_keys.mp hol k h1) (by omega)
          · omega
          · exact h1
        rw [insert_gt p p0 l r hk hk2, ihr hhr hoor hmr]
        cases r with
        | nil => simp at hmr
        | node rk rp rl rr =>
          rw [if_neg (by simpa using not_lt.mpr hpr)]
      · exact insert_found p p0 l r hk hk2

theorem size_delete_le : ∀ (t : Treap) (k : Int), size (delete t k) ≤ size t := by
  intro t k
  induction t, k using delete.induct with
  | case1 k => simp [delete]
  | case2 k k0 p0 l r hk ih =>
    rw [delete_lt p0 l r hk]; simp only [size]; omega
  | case3 k k0 p0 l r hk hk2 ih =>
    rw [delete_gt p0 l r hk hk2]; simp only [size]; omega
  | case4 k k0 p0 hk hk2 r =>
    rw [delete_found_nl p0 r hk hk2]; simp only [size]; omega
  | case5 k k0 p0 hk hk2 lk lp ll lr =>
    rw [delete_found_nr p0 lk lp ll lr hk hk2]; simp only [size]; omega
  | case6 k k0 p0 hk hk2 lk lp ll lr rk rp rl rr hp ih =>
    rw [delete_found_rl p0 lk lp rk rp ll lr rl rr hk hk2 hp]
    simp only [size] at ih ⊢; omega
  | case7 k k0 p0 hk hk2 lk lp ll lr rk rp rl rr hp ih =>
    rw [delete_found_rr p0 lk lp rk rp ll lr rl rr hk hk2 hp]
    simp only [size] at ih ⊢; omega

theorem size_insert_le (t : Treap) (k p : Int) : size (insert t k p) ≤ size t + 1 := by
  induction t with
  | nil => simp [insert, size]
  | node k0 p0 l r ihl ihr =>
    by_cases hk : k < k0
    · rw [insert_lt p p0 l r hk]
      split
      · rcases h2 : insert l k p with _ | ⟨a, ap, al, ar⟩
        · simp [rotateRight, size]
          rw [h2] at ihl
          simp [size] at ihl
          omega
        · rw [h2] at ihl
          simp only [rotateRight, size] at ihl ⊢
          omega
      · simp only [size]
        omega
    · by_cases hk2 : k0 < k
      · rw [insert_gt p p0 l r hk hk2]
        split
        · rcases h2 : insert r k p with _ | ⟨a, ap, al, ar⟩
          · simp [rotateLeft, size]
            rw [h2] at ihr
            simp [size] at ihr
            omega
          · rw [h2] at ihr
            simp only [rotateLeft, size] at ihr ⊢
            omega
        · simp only [size]
          omega
      · rw [insert_found p p0 l r hk hk2]
        simp only [size]
        omega

end Treap

/-! ## AVL tree, from `src/data_structures/avl.py`

`AVLNode(key, value)` has fields `key`, `value` (default `None`), `left`,
`right`, `height` (1 for a fresh leaf).  Values are `Option Int`
(`none` = Python `None`). -/

inductive AVL where
  | nil : AVL
  | node (left : AVL) (key : Int) (value : Option Int) (right : AVL) (height : Nat) : AVL
deriving DecidableEq, Repr

namespace AVL

/-- `AVLTree._height`: the stored height, `0` for `None`. -/
def ht : AVL → Nat
  | nil => 0
  | node _ _ _ _ h => h

/-- `AVLTree._balance_factor`: stored left height minus stored right height. -/
def bf : AVL → Int
  | nil => 0
  | node l _ _ r _ => (ht l : Int) - (ht r : Int)

def size : AVL → Nat
  | nil => 0
  | node l _ _ r _ => 1 + size l + size r

/-- `AVLTree._right_rotate(y)`: heights of the two rotated nodes are
recomputed bottom-up (`_update_height(y)` then `_update_height(x)`).
The source would raise on `y.left is None`; callers guarantee a real left
child, and the fall-through branch returns the input unchanged. -/
def rightRotate : AVL → AVL
  | node (node t1 xk xv t2 _) yk yv t3 _ =>
    node t1 xk xv (node t2 yk yv t3 (1 + max (ht t2) (ht t3)))
      (1 + max (ht t1) (1 + max (ht t2) (ht t3)))
  | t => t

/-- `AVLTree._left_rotate(x)`: heights recomputed (`_update_height(x)` then
`_update_height(y)`). -/
def leftRotate : AVL → AVL
  | node t1 xk xv (node t2 yk yv t3 _) _ =>
    node (node t1 xk xv t2 (1 + max (ht t1) (ht t2))) yk yv t3
      (1 + max (1 + max (ht t1) (ht t2)) (ht t3))
  | t => t

/-- `AVLTree._rebalance(node)`: update the height, then resolve the four
rotation cases on the balance factor. -/
def rebalance : AVL → AVL
  | nil => nil
  | node l k v r _ =>
    let h := 1 + max (ht l) (ht r)
    let b : Int := (ht l : Int) - (ht r : Int)
    if 1 < b then
      if bf l < 0 then rightRotate (node (leftRotate l) k v r h)
      else rightRotate (node l k v r h)
    else if b < -1 then
      if 0 < bf r then leftRotate (node l k v (rightRotate r) h)
      else leftRotate (node l k v r h)
    else node l k v r h

/-- `AVLTree._insert`: BST descent; a duplicate key updates the value in
place and returns without rebalancing. -/
def insert (t : AVL) (k : Int) (v : Option Int) : AVL :=
  match t with
  | nil => node nil k v nil 1
  | node l k0 v0 r h =>
    if k < k0 then rebalance (node (insert l k v) k0 v0 r h)
    else if k0 < k then rebalance (node l k0 v0 (insert r k v) h)
    else node l k0 v r h

/-- `AVLTree.search`: returns `node.value` when it is not `None`, otherwise
the key itself; `None` when absent. -/
def search (t : AVL) (k : Int) : Option Int :=
  match t with
  | nil => none
  | node l k0 v0 r _ =>
    if k = k0 then some (v0.getD k0)
    else if k < k0 then search l k
    else search r k

/-- `AVLTree._min_node`: key and value of the leftmost node; the source
would raise on an empty subtree (callers guarantee a real node). -/
def minPair : AVL → Int × Option Int
  | nil => (0, none)
  | node nil k v _ _ => (k, v)
  | node l _ _ _ _ => minPair l

/-- `AVLTree._delete`: a node with at most one child is replaced by that
child (no rebalancing at this level); a node with two children receives the
key/value of its in-order successor, which is then deleted from the right
subtree; every other frame rebalances. -/
def delete (t : AVL) (k : Int) : AVL :=
  match t with
  | nil => nil
  | node l k0 v0 r h =>
    if k < k0 then rebalance (node (delete l k) k0 v0 r h)
    else if k0 < k then rebalance (node l k0 v0 (delete r k) h)
    else
      match l, r with
      | nil, _ => r
      | node ll lk lv lr lh, nil => node ll lk lv lr lh
      | node ll lk lv lr lh, node rl rk rv rr rh =>
        let s := minPair (node rl rk rv rr rh)
        rebalance (node (node ll lk lv lr lh) s.1 s.2
          (delete (node rl rk rv rr rh) s.1) h)

/-- `AVLTree.inorder`: in-order `(key, value)` pairs. -/
def inorder : AVL → List (Int × Option Int)
  | nil => []
  | node l k v r _ => inorder l ++ (k, v) :: inorder r

/-- In-order key list. -/
def keys (t : AVL) : List Int := (inorder t).map Prod.fst

/-- The recursive checker inside `AVLTree.is_balanced`: returns whether the
subtree is height-balanced together with its (recomputed) height. -/
def check : AVL → Bool × Nat
  | nil => (true, 0)
  | node l _ _ r _ =>
    let cl := check l
    let cr := check r
    (cl.1 && cr.1 && decide (((cl.2 : Int) - (cr.2 : Int)).natAbs ≤ 1),
      1 + max cl.2 cr.2)

/-- `AVLTree.is_balanced`. -/
def isBalanced (t : AVL) : Bool := (check t).1

/-- Structural well-formedness maintained by the engine: stored heights are
correct and every balance factor is in `[-1, 1]`. -/
def WF : AVL → Prop
  | nil => True
  | node l _ _ r h =>
    WF l ∧ WF r ∧ h = 1 + max (ht l) (ht r) ∧
      (ht l : Int) - ht r ≤ 1 ∧ (ht r : Int) - ht l ≤ 1

def All (P : Int → Prop) : AVL → Prop
  | nil => True
  | node l k _ r _ => P k ∧ All P l ∧ All P r

/-- BST order on keys. -/
def Ordered : AVL → Prop
  | nil => True
  | node l k _ r _ => All (· < k) l ∧ All (k < ·) r ∧ Ordered l ∧ Ordered r

/-- One public operation (`insert(key, value=None)` / `delete(key)`). -/
inductive AOp where
  | ins (k : Int) (v : Option Int)
  | del (k : Int)
deriving DecidableEq, Repr

def step (t : AVL) : AOp → AVL
  | .ins k v => insert t k v
  | .del k => delete t k

/-- Run a sequence of operations on an initially empty AVL tree. -/
def run (ops : List AOp) : AVL := ops.foldl step nil

@[simp] theorem ht_nil : ht nil = 0 := rfl
@[simp] theorem ht_node (l : AVL) (k : Int) (v : Option Int) (r : AVL) (h : Nat) :
    ht (node l k v r h) = h := rfl
@[simp] theorem bf_nil : bf nil = 0 := rfl
@[simp] theorem bf_node (l : AVL) (k : Int) (v : Option Int) (r : AVL) (h : Nat) :
    bf (node l k v r h) = (ht l : Int) - (ht r : Int) := rfl
@[simp] theorem inorder_nil : inorder nil = [] := rfl
@[simp] theorem inorder_node (l : AVL) (k : Int) (v : Option Int) (r : AVL) (h : Nat) :
    inorder (node l k v r h) = inorder l ++ (k, v) :: inorder r := rfl
@[simp] theorem All_nil_a (P : Int → Prop) : All P nil := trivial
@[simp] theorem All_node_a (P : Int → Prop) (l : AVL) (k : Int) (v : Option Int) (r : AVL)
    (h : Nat) : All P (node l k v r h) ↔ P k ∧ All P l ∧ All P r := Iff.rfl
@[simp] theorem Ordered_nil_a : Ordered nil := trivial
@[simp] theorem Ordered_node_a (l : AVL) (k : Int) (v : Option Int) (r : AVL) (h : Nat) :
    Ordered (node l k v r h) ↔
      All (· < k) l ∧ All (k < ·) r ∧ Ordered l ∧ Ordered r := Iff.rfl
@[simp] theorem WF_nil : WF nil := trivial
@[simp] theorem WF_node (l : AVL) (k : Int) (v : Option Int) (r : AVL) (h : Nat) :
    WF (node l k v r h) ↔
      WF l ∧ WF r ∧ h = 1 + max (ht l) (ht r) ∧
        (ht l : Int) - ht r ≤ 1 ∧ (ht r : Int) - ht l ≤ 1 := Iff.rfl

theorem delete_lt_a {k k0 : Int} (l : AVL) (v0 : Option Int) (r : AVL) (h : Nat)
    (hk : k < k0) :
    delete (node l k0 v0 r h) k = rebalance (node (delete l k) k0 v0 r h) := by
  rw [delete.eq_def]; simp [hk]

theorem delete_gt_a {k k0 : Int} (l : AVL) (v0 : Option Int) (r : AVL) (h : Nat)
    (hk : ¬ k < k0) (hk2 : k0 < k) :
    delete (node l k0 v0 r h) k = rebalance (node l k0 v0 (delete r k) h) := by
  rw [delete.eq_def]; simp [hk, hk2]

theorem delete_found_nl_a {k k0 : Int} (v0 : Option Int) (r : AVL) (h : Nat)
    (hk : ¬ k < k0) (hk2 : ¬ k0 < k) :
    delete (node AVL.nil k0 v0 r h) k = r := by
  rw [delete.eq_def]; simp [hk, hk2]

theorem delete_found_nr_a {k k0 : Int} (v0 : Option Int) (h : Nat) (ll : AVL) (lk : Int)
    (lv : Option Int) (lr : AVL) (lh : Nat) (hk : ¬ k < k0) (hk2 : ¬ k0 < k) :
    delete (node (node ll lk lv lr lh) k0 v0 AVL.nil h) k = node ll lk lv lr lh := by
  rw [delete.eq_def]; simp [hk, hk2]

theorem delete_found_two {k k0 : Int} (v0 : Option Int) (h : Nat) (ll : AVL) (lk : Int)
    (lv : Option Int) (lr : AVL) (lh : Nat) (rl : AVL) (rk : Int) (rv : Option Int)
    (rr : AVL) (rh : Nat) (hk : ¬ k < k0) (hk2 : ¬ k0 < k) :
    delete (node (node ll lk lv lr lh) k0 v0 (node rl rk rv rr rh) h) k =
      rebalance (node (node ll lk lv lr lh)
        (minPair (node rl rk rv rr rh)).1 (minPair (node rl rk rv rr rh)).2
        (delete (node rl rk rv rr rh) (minPair (node rl rk rv rr rh)).1) h) := by
  rw [delete.eq_def]; simp [hk, hk2]

/-- The rebalancing step: if both subtrees are well-formed and their heights
differ by at most 2, the rebalanced node is well-formed, its height lies in
`[max, max+1]` of the children's heights, and equals `1 + max` whenever no
rotation was needed. -/
theorem rebalance_spec (l : AVL) (k : Int) (v : Option Int) (r : AVL) (h0 : Nat)
    (hwl : WF l) (hwr : WF r) (hd1 : (ht l : Int) - ht r ≤ 2)
    (hd2 : (ht r : Int) - ht l ≤ 2) :
    WF (rebalance (node l k v r h0)) ∧
      max (ht l) (ht r) ≤ ht (rebalance (node l k v r h0)) ∧
      ht (rebalance (node l k v r h0)) ≤ 1 + max (ht l) (ht r) ∧
      ((ht l : Int) - ht r ≤ 1 → (ht r : Int) - ht l ≤ 1 →
        ht (rebalance (node l k v r h0)) = 1 + max (ht l) (ht r)) := by
  simp only [rebalance]
  split_ifs with h1 h2 h3 h4
  · -- left-heavy, left child right-heavy: Left-Right double rotation
    rcases l with _ | ⟨ll, lk, lv, lr, lh⟩
    · simp at h1; omega
    rcases lr with _ | ⟨a, wk, wv, b, wh⟩
    · -- empty right grandchild contradicts a negative balance factor
      simp only [bf_node, ht_nil] at h2
      omega
    obtain ⟨hwll, hwlr, hlh, hlb1, hlb2⟩ := hwl
    obtain ⟨hwa, hwb, hwh, hab1, hab2⟩ := hwlr
    simp only [ht_node, bf_node] at h1 h2 hd1 hd2 hlh hlb1 hlb2 ⊢
    simp only [leftRotate, rightRotate, ht_node, WF_node]
    repeat' apply And.intro
    all_goals first | assumption | trivial | (intros; first | trivial | omega)
  · -- left-heavy, Left-Left single right rotation
    rcases l with _ | ⟨ll, lk, lv, lr, lh⟩
    · simp at h1; omega
    obtain ⟨hwll, hwlr, hlh, hlb1, hlb2⟩ := hwl
    simp only [ht_node, bf_node, not_lt] at h1 h2 hd1 hd2 ⊢
    simp only [rightRotate, ht_node, WF_node]
    repeat' apply And.intro
    all_goals first | assumption | trivial | (intros; first | trivial | omega)
  · -- right-heavy, right child left-heavy: Right-Left double rotation
    rcases r with _ | ⟨rl, rk, rv, rr, rh⟩
    · simp at h3; omega
    rcases rl with _ | ⟨a, wk, wv, b, wh⟩
    · simp only [bf_node, ht_nil] at h4
      omega
    obtain ⟨hwrl, hwrr, hrh, hrb1, hrb2⟩ := hwr
    obtain ⟨hwa, hwb, hwh, hab1, hab2⟩ := hwrl
    simp only [ht_node, bf_node] at h3 h4 hd1 hd2 hrh hrb1 hrb2 ⊢
    simp only [rightRotate, leftRotate, ht_node, WF_node]
    repeat' apply And.intro
    all_goals first | assumption | trivial | (intros; first | trivial | omega)
  · -- right-heavy, Right-Right single left rotation
    rcases r with _ | ⟨rl, rk, rv, rr, rh⟩
    · simp at h3; omega
    obtain ⟨hwrl, hwrr, hrh, hrb1, hrb2⟩ := hwr
    simp only [ht_node, bf_node, not_lt] at h3 h4 hd1 hd2 ⊢
    simp only [leftRotate, ht_node, WF_node]
    repeat' apply And.intro
    all_goals first | assumption | trivial | (intros; first | trivial | omega)
  · -- already balanced: only the height is updated
    simp only [ht_node, WF_node]
    repeat' apply And.intro
    all_goals first | assumption | trivial | (intros; first | trivial | omega)

/-- The refined height conclusion of `rebalance_spec` in disjunctive form. -/
theorem rebalance_ht_cases (l : AVL) (k : Int) (v : Option Int) (r : AVL) (h0 : Nat)
    (hwl : WF l) (hwr : WF r) (hd1 : (ht l : Int) - ht r ≤ 2)
    (hd2 : (ht r : Int) - ht l ≤ 2) :
    1 < (ht l : Int) - ht r ∨ 1 < (ht r : Int) - ht l ∨
      ht (rebalance (node l k v r h0)) = 1 + max (ht l) (ht r) := by
  obtain ⟨-, -, -, hs4⟩ := rebalance_spec l k v r h0 hwl hwr hd1 hd2
  by_cases hc1 : (ht l : Int) - ht r ≤ 1
  · by_cases hc2 : (ht r : Int) - ht l ≤ 1
    · exact Or.inr (Or.inr (hs4 hc1 hc2))
    · exact Or.inr (Or.inl (by omega))
  · exact Or.inl (by omega)

/-- AVL insertion preserves well-formedness; the height changes by at
most 1. -/
theorem insert_wf (t : AVL) (k : Int) (v : Option Int) (hw : WF t) :
    WF (insert t k v) ∧ ht t ≤ ht (insert t k v) + 1 ∧ ht (insert t k v) ≤ ht t + 1 := by
  induction t with
  | nil => simp [insert, WF]
  | node l k0 v0 r h ihl ihr =>
    obtain ⟨hwl, hwr, hh, hb1, hb2⟩ := hw
    by_cases hk : k < k0
    · obtain ⟨ih1, ih2, ih3⟩ := ihl hwl
      simp only [insert, if_pos hk]
      obtain ⟨hs1, hs2, hs3, -⟩ :=
        rebalance_spec (insert l k v) k0 v0 r h ih1 hwr (by omega) (by omega)
      have hs5 := rebalance_ht_cases (insert l k v) k0 v0 r h ih1 hwr (by omega) (by omega)
      refine ⟨hs1, ?_, ?_⟩ <;>
        (simp only [ht_node]; rcases hs5 with h5 | h5 | h5 <;> omega)
    · by_cases hk2 : k0 < k
      · obtain ⟨ih1, ih2, ih3⟩ := ihr hwr
        simp only [insert, if_neg hk, if_pos hk2]
        obtain ⟨hs1, hs2, hs3, -⟩ :=
          rebalance_spec l k0 v0 (insert r k v) h hwl ih1 (by omega) (by omega)
        have hs5 := rebalance_ht_cases l k0 v0 (insert r k v) h hwl ih1 (by omega) (by omega)
        refine ⟨hs1, ?_, ?_⟩ <;>
          (simp only [ht_node]; rcases hs5 with h5 | h5 | h5 <;> omega)
      · simp only [insert, if_neg hk, if_neg hk2]
        exact ⟨⟨hwl, hwr, hh, hb1, hb2⟩, by simp only [ht_node]; omega,
          by simp only [ht_node]; omega⟩

/-- AVL deletion preserves well-formedness; the height changes by at
most 1. -/
theorem delete_wf : ∀ (t : AVL) (k : Int), WF t →
    WF (delete t k) ∧ ht t ≤ ht (delete t k) + 1 ∧ ht (delete t k) ≤ ht t + 1 := by
  intro t k
  induction t, k using delete.induct with
  | case1 k => simp [delete, WF]
  | case2 k l k0 v0 r h hk ih =>
    intro hw
    obtain ⟨hwl, hwr, hh, hb1, hb2⟩ := hw
    obtain ⟨ih1, ih2, ih3⟩ := ih hwl
    rw [delete_lt_a l v0 r h hk]
    obtain ⟨hs1, hs2, hs3, -⟩ :=
      rebalance_spec (delete l k) k0 v0 r h ih1 hwr (by omega) (by omega)
    have hs5 := rebalance_ht_cases (delete l k) k0 v0 r h ih1 hwr (by omega) (by omega)
    refine ⟨hs1, ?_, ?_⟩ <;>
      (simp only [ht_node]; rcases hs5 with h5 | h5 | h5 <;> omega)
  | case3 k l k0 v0 r h hk hk2 ih =>
    intro hw
    obtain ⟨hwl, hwr, hh, hb1, hb2⟩ := hw
    obtain ⟨ih1, ih2, ih3⟩ := ih hwr
    rw [delete_gt_a l v0 r h hk hk2]
    obtain ⟨hs1, hs2, hs3, -⟩ :=
      rebalance_spec l k0 v0 (delete r k) h hwl ih1 (by omega) (by omega)
    have hs5 := rebalance_ht_cases l k0 v0 (delete r k) h hwl ih1 (by omega) (by omega)
    refine ⟨hs1, ?_, ?_⟩ <;>
      (simp only [ht_node]; rcases hs5 with h5 | h5 | h5 <;> omega)
  | case4 k k0 v0 h hk hk2 r =>
    intro hw
    obtain ⟨hwl, hwr, hh, hb1, hb2⟩ := hw
    rw [delete_found_nl_a v0 r h hk hk2]
    simp only [ht_nil, ht_node] at hh hb1 hb2 ⊢
    exact ⟨hwr, by omega, by omega⟩
  | case5 k k0 v0 h hk hk2 ll lk lv lr lh =>
    intro hw
    obtain ⟨hwl, hwr, hh, hb1, hb2⟩ := hw
    rw [delete_found_nr_a v0 h ll lk lv lr lh hk hk2]
    simp only [ht_nil, ht_node] at hh hb1 hb2 ⊢
    exact ⟨hwl, by omega, by omega⟩
  | case6 k k0 v0 h hk hk2 ll lk lv lr lh rl rk rv rr rh s ih =>
    intro hw
    obtain ⟨hwl, hwr, hh, hb1, hb2⟩ := hw
    have ihx : WF (node rl rk rv rr rh) →
        WF (delete (node rl rk rv rr rh) (minPair (node rl rk rv rr rh)).1) ∧
          ht (node rl rk rv rr rh) ≤
            ht (delete (node rl rk rv rr rh) (minPair (node rl rk rv rr rh)).1) + 1 ∧
          ht (delete (node rl rk rv rr rh) (minPair (node rl rk rv rr rh)).1) ≤
            ht (node rl rk rv rr rh) + 1 := ih
    obtain ⟨ih1, ih2, ih3⟩ := ihx hwr
    rw [delete_found_two v0 h ll lk lv lr lh rl rk rv rr rh hk hk2]
    obtain ⟨hs1, hs2, hs3, -⟩ :=
      rebalance_spec (node ll lk lv lr lh)
        (minPair (node rl rk rv rr rh)).1 (minPair (node rl rk rv rr rh)).2
        (delete (node rl rk rv rr rh) (minPair (node rl rk rv rr rh)).1) h hwl ih1
        (by simp only [ht_node] at *; omega) (by simp only [ht_node] at *; omega)
    have hs5 := rebalance_ht_cases (node ll lk lv lr lh)
      (minPair (node rl rk rv rr rh)).1 (minPair (node rl rk rv rr rh)).2
      (delete (node rl rk rv rr rh) (minPair (node rl rk rv rr rh)).1) h hwl ih1
      (by simp only [ht_node] at *; omega) (by simp only [ht_node] at *; omega)
    refine ⟨hs1, ?_, ?_⟩ <;>
      (simp only [ht_node] at *; rcases hs5 with h5 | h5 | h5 <;> omega)

theorem wf_run_step (t : AVL) (op : AOp) (h : WF t) : WF (step t op) := by
  cases op with
  | ins k v => exact (insert_wf t k v h).1
  | del k => exact (delete_wf t k h).1

/-- Specification-side helper: the stored value at key `k` along the BST
search path (`some v0` when a node with key `k` is found, `none` otherwise). -/
def assoc : AVL → Int → Option (Option Int)
  | nil, _ => none
  | node l k0 v0 r _, k =>
    if k = k0 then some v0 else if k < k0 then assoc l k else assoc r k

/-- `search` is `assoc` composed with the value-or-key fallback of the
source. -/
theorem search_eq_assoc (t : AVL) (k : Int) :
    search t k = (assoc t k).map (fun v => v.getD k) := by
  induction t with
  | nil => simp [search, assoc]
  | node l k0 v0 r h ihl ihr =>
    by_cases hk : k = k0
    · subst hk; simp [search, assoc]
    · by_cases hk2 : k < k0 <;> simp [search, assoc, hk, hk2, ihl, ihr]

theorem inorder_rightRotate (t : AVL) : inorder (rightRotate t) = inorder t := by
  rcases t with _ | ⟨l, k, v, r, h⟩
  · rfl
  · rcases l with _ | ⟨ll, lk, lv, lr, lh⟩
    · rfl
    · simp [rightRotate]

theorem inorder_leftRotate (t : AVL) : inorder (leftRotate t) = inorder t := by
  rcases t with _ | ⟨l, k, v, r, h⟩
  · rfl
  · rcases r with _ | ⟨rl, rk, rv, rr, rh⟩
    · rfl
    · simp [leftRotate]

/-- Rebalancing never changes the in-order traversal. -/
theorem inorder_rebalance (l : AVL) (k : Int) (v : Option Int) (r : AVL) (h : Nat) :
    inorder (rebalance (node l k v r h)) = inorder l ++ (k, v) :: inorder r := by
  simp only [rebalance]
  split_ifs <;>
    simp [inorder_rightRotate, inorder_leftRotate]

theorem all_iff_inorder {P : Int → Prop} :
    ∀ {t : AVL}, All P t ↔ ∀ q ∈ inorder t, P q.1 := by
  intro t
  induction t with
  | nil => simp
  | node l k v r h ihl ihr =>
    simp only [All_node_a, inorder_node, List.mem_append, List.mem_cons, ihl, ihr]
    constructor
    · rintro ⟨h1, h2, h3⟩ q (hq | hq | hq)
      · exact h2 q hq
      · rw [hq]; exact h1
      · exact h3 q hq
    · intro hh
      exact ⟨hh (k, v) (Or.inr (Or.inl rfl)), fun q hq => hh q (Or.inl hq),
        fun q hq => hh q (Or.inr (Or.inr hq))⟩

/-- The BST invariant is exactly strict sortedness of the in-order key
sequence. -/
theorem ordered_iff_sorted :
    ∀ {t : AVL}, Ordered t ↔ List.Sorted (· < ·) (keys t) := by
  intro t
  induction t with
  | nil => simp [keys]
  | node l k v r h ihl ihr =>
    simp only [Ordered_node_a, keys, inorder_node, List.map_append, List.map_cons,
      Treap.sortedAppend, List.sorted_cons]
    rw [← keys, ← keys, ← ihl, ← ihr]
    constructor
    · rintro ⟨h1, h2, h3, h4⟩
      refine ⟨h3, ⟨?_, h4⟩, ?_⟩
      · intro b hb
        simp only [keys, List.mem_map] at hb
        obtain ⟨q, hq, hqb⟩ := hb
        exact hqb ▸ all_iff_inorder.mp h2 q hq
      · intro a ha b hb
        simp only [keys, List.mem_map] at ha
        obtain ⟨q, hq, hqa⟩ := ha
        have ha2 : a < k := hqa ▸ all_iff_inorder.mp h1 q hq
        rcases List.mem_cons.mp hb with hb2 | hb2
        · omega
        · simp only [keys, List.mem_map] at hb2
          obtain ⟨q2, hq2, hqb2⟩ := hb2
          have : k < b := hqb2 ▸ all_iff_inorder.mp h2 q2 hq2
          omega
    · rintro ⟨h1, ⟨h2, h3⟩, h4⟩
      refine ⟨?_, ?_, h1, h3⟩
      · rw [all_iff_inorder]
        intro q hq
        exact h4 q.1 (by simp [keys]; exact ⟨q.2, by simpa using hq⟩) k
          (List.mem_cons.mpr (Or.inl rfl))
      · rw [all_iff_inorder]
        intro q hq
        exact h2 q.1 (by simp [keys]; exact ⟨q.2, by simpa using hq⟩)

/-- Specification-side model: insertion into a sorted association list
(prepend before a larger key, replace an equal key). -/
def ains (k : Int) (v : Option Int) : List (Int × Option Int) → List (Int × Option Int)
  | [] => [(k, v)]
  | q :: rest =>
    if k < q.1 then (k, v) :: q :: rest
    else if q.1 < k then q :: ains k v rest
    else (k, v) :: rest

/-- Specification-side model: lookup of the first entry with key `k`. -/
def lfind (k : Int) : List (Int × Option Int) → Option (Option Int)
  | [] => none
  | q :: rest => if q.1 = k then some q.2 else lfind k rest

theorem ains_append_lt {k k0 : Int} (v v0 : Option Int)
    (A B : List (Int × Option Int)) (hk : k < k0) :
    ains k v (A ++ (k0, v0) :: B) = ains k v A ++ (k0, v0) :: B := by
  induction A with
  | nil => simp [ains, hk]
  | cons q rest ih =>
    simp only [List.cons_append, ains]
    split_ifs <;> simp [ih]

theorem ains_append_gt {k k0 : Int} (v v0 : Option Int)
    (A B : List (Int × Option Int)) (hk : k0 < k) (hA : ∀ q ∈ A, q.1 < k) :
    ains k v (A ++ (k0, v0) :: B) = A ++ (k0, v0) :: ains k v B := by
  induction A with
  | nil => simp [ains, hk, show ¬ k < k0 by omega]
  | cons q rest ih =>
    have hq : q.1 < k := hA q (List.mem_cons.mpr (Or.inl rfl))
    simp only [List.cons_append, ains, if_neg (show ¬ k < q.1 by omega), if_pos hq,
      List.append_eq]
    rw [ih (fun q2 hq2 => hA q2 (List.mem_cons.mpr (Or.inr hq2)))]

theorem ains_append_eq {k : Int} (v v0 : Option Int)
    (A B : List (Int × Option Int)) (hA : ∀ q ∈ A, q.1 < k) :
    ains k v (A ++ (k, v0) :: B) = A ++ (k, v) :: B := by
  induction A with
  | nil => simp [ains]
  | cons q rest ih =>
    have hq : q.1 < k := hA q (List.mem_cons.mpr (Or.inl rfl))
    simp only [List.cons_append, ains, if_neg (show ¬ k < q.1 by omega), if_pos hq,
      List.append_eq]
    rw [ih (fun q2 hq2 => hA q2 (List.mem_cons.mpr (Or.inr hq2)))]

/-- With the BST invariant, AVL insertion acts on the in-order pair list as
sorted-association-list insertion. -/
theorem inorder_insert (t : AVL) (k : Int) (v : Option Int) (ho : Ordered t) :
    inorder (insert t k v) = ains k v (inorder t) := by
  induction t with
  | nil => simp [insert, ains]
  | node l k0 v0 r h ihl ihr =>
    obtain ⟨hol, hor, hool, hoor⟩ := ho
    by_cases hk : k < k0
    · simp only [insert, if_pos hk, inorder_rebalance, inorder_node]
      rw [ihl hool, ains_append_lt v v0 (inorder l) (inorder r) hk]
    · by_cases hk2 : k0 < k
      · simp only [insert, if_neg hk, if_pos hk2, inorder_rebalance, inorder_node]
        rw [ihr hoor, ains_append_gt v v0 (inorder l) (inorder r) hk2
          (fun q hq => lt_trans (all_iff_inorder.mp hol q hq) hk2)]
      · have hke : k = k0 := by omega
        subst hke
        simp only [insert, if_neg hk, if_neg hk2, inorder_node]
        rw [ains_append_eq v v0 (inorder l) (inorder r)
          (fun q hq => all_iff_inorder.mp hol q hq)]

theorem sorted_keys_ains (k : Int) (v : Option Int) (L : List (Int × Option Int))
    (hs : List.Sorted (· < ·) (L.map Prod.fst)) :
    List.Sorted (· < ·) ((ains k v L).map Prod.fst) := by
  induction L with
  | nil => simp [ains]
  | cons q rest ih =>
    simp only [List.map_cons, List.sorted_cons] at hs
    obtain ⟨hq, hrest⟩ := hs
    simp only [ains]
    split_ifs with h1 h2
    · simp only [List.map_cons, List.sorted_cons]
      refine ⟨?_, hq, hrest⟩
      intro b hb
      rcases List.mem_cons.mp hb with hb2 | hb2
      · omega
      · simp only [List.mem_map] at hb2
        obtain ⟨q2, hq2, hqb⟩ := hb2
        have := hq b (by rw [← hqb]; exact List.mem_map_of_mem Prod.fst hq2)
        omega
    · simp only [List.map_cons, List.sorted_cons]
      refine ⟨?_, ih hrest⟩
      intro b hb
      -- every key of `ains k v rest` is `k` or an old key of `rest`
      have hmem : ∀ (rest2 : List (Int × Option Int)) (b2 : Int),
          b2 ∈ (ains k v rest2).map Prod.fst → b2 = k ∨ b2 ∈ rest2.map Prod.fst := by
        intro rest2
        induction rest2 with
        | nil => intro b2 hb2; simp [ains] at hb2; exact Or.inl hb2
        | cons q2 rest3 ih3 =>
          intro b2 hb2
          simp only [ains] at hb2
          split_ifs at hb2 with g1 g2
          · simp at hb2
            rcases hb2 with hb2 | hb2 | hb2
            · exact Or.inl hb2
            · exact Or.inr (by simp [hb2])
            · exact Or.inr (by simp [hb2])
          · simp at hb2
            rcases hb2 with hb2 | hb2
            · exact Or.inr (by simp [hb2])
            · rcases ih3 b2 (by simpa using hb2) with h3 | h3
              · exact Or.inl h3
              · exact Or.inr (by simp [h3])
          · simp at hb2
            rcases hb2 with hb2 | hb2
            · exact Or.inl hb2
            · exact Or.inr (by simp [hb2])
      rcases hmem rest b hb with hb2 | hb2
      · omega
      · exact hq b hb2
    · simp only [List.map_cons, List.sorted_cons]
      have hke : k = q.1 := by omega
      subst hke
      exact ⟨hq, hrest⟩

theorem lfind_ains_self (k : Int) (v : Option Int) (L : List (Int × Option Int)) :
    lfind k (ains k v L) = some v := by
  induction L with
  | nil => simp [ains, lfind]
  | cons q rest ih =>
    simp only [ains]
    split_ifs with h1 h2
    · simp [lfind]
    · simp only [lfind, if_neg (by omega : ¬ q.1 = k)]
      exact ih
    · simp [lfind]

theorem lfind_ains_other (k k2 : Int) (v : Option Int) (L : List (Int × Option Int))
    (hne : k2 ≠ k) : lfind k2 (ains k v L) = lfind k2 L := by
  induction L with
  | nil => simp [ains, lfind, Ne.symm hne]
  | cons q rest ih =>
    simp only [ains]
    split_ifs with h1 h2
    · simp [lfind, Ne.symm hne]
    · by_cases hq : q.1 = k2
      · simp [lfind, hq]
      · simp only [lfind, if_neg (fun h => hq h), ih]
    · have hke : k = q.1 := by omega
      subst hke
      simp [lfind, Ne.symm hne]

/-- With the BST invariant, `assoc` agrees with linear lookup in the
in-order pair list. -/
theorem assoc_eq_lfind (t : AVL) (k : Int) (ho : Ordered t) :
    assoc t k = lfind k (inorder t) := by
  induction t with
  | nil => simp [assoc, lfind]
  | node l k0 v0 r h ihl ihr =>
    obtain ⟨hol, hor, hool, hoor⟩ := ho
    have hlf : ∀ (A : List (Int × Option Int)) (B : List (Int × Option Int)),
        (∀ q ∈ A, q.1 ≠ k) → lfind k (A ++ B) = lfind k B := by
      intro A B hA
      induction A with
      | nil => simp
      | cons q rest ih =>
        simp only [List.cons_append, lfind,
          if_neg (hA q (List.mem_cons.mpr (Or.inl rfl)))]
        exact ih (fun q2 hq2 => hA q2 (List.mem_cons.mpr (Or.inr hq2)))
    by_cases hk : k = k0
    · subst hk
      simp only [assoc, if_pos rfl, inorder_node]
      rw [hlf (inorder l) _ (fun q hq => by
        have := all_iff_inorder.mp hol q hq; omega)]
      simp [lfind]
    · by_cases hk2 : k < k0
      · simp only [assoc, if_neg hk, if_pos hk2, inorder_node, ihl hool]
        -- the lookup stops inside the left part: `k` does not occur verbatim later,
        -- so extend the list on the right
        have : ∀ (A B : List (Int × Option Int)), (∀ q ∈ B, q.1 ≠ k) →
            lfind k A = none → lfind k (A ++ B) = none := by
          intro A B hB
          induction A with
          | nil => intro _; exact (by
              induction B with
              | nil => simp [lfind]
              | cons q rest ih =>
                simp only [List.nil_append, lfind,
                  if_neg (hB q (List.mem_cons.mpr (Or.inl rfl)))]
                exact ih (fun q2 hq2 => hB q2 (List.mem_cons.mpr (Or.inr hq2))))
          | cons q rest ih =>
            simp only [lfind, List.cons_append]
            split_ifs with hq
            · intro hc; exact absurd hc (by simp)
            · intro hc; exact ih hc
        rcases hfound : lfind k (inorder l) with _ | w
        · rw [this (inorder l) ((k0, v0) :: inorder r) (fun q hq => by
            rcases List.mem_cons.mp hq with h2 | h2
            · rw [h2]; omega
            · have := all_iff_inorder.mp hor q h2; omega) hfound]
        · -- found inside the left part: appending cannot change the result
          have : ∀ (A B : List (Int × Option Int)) (w : Option Int),
              lfind k A = some w → lfind k (A ++ B) = some w := by
            intro A B w2
            induction A with
            | nil => simp [lfind]
            | cons q rest ih =>
              simp only [lfind, List.cons_append]
              split_ifs with hq
              · exact id
              · exact ih
          rw [this (inorder l) ((k0, v0) :: inorder r) w hfound]
      · have hk3 : k0 < k := by omega
        simp only [assoc, if_neg hk, if_neg (by omega : ¬ k < k0), inorder_node, ihr hoor]
        rw [hlf (inorder l) _ (fun q hq => by
          have := all_iff_inorder.mp hol q hq; omega)]
        simp only [lfind, if_neg (by omega : ¬ k0 = k)]

theorem ordered_insert_a (t : AVL) (k : Int) (v : Option Int) (ho : Ordered t) :
    Ordered (insert t k v) := by
  have hs := ordered_iff_sorted.mp ho
  rw [ordered_iff_sorted, keys, inorder_insert t k v ho]
  exact sorted_keys_ains k v (inorder t) hs

/-- The leftmost pair of a nonempty AVL tree heads its in-order list. -/
theorem inorder_min : ∀ (t : AVL), t ≠ nil → ∃ rest, inorder t = minPair t :: rest := by
  intro t
  induction t with
  | nil => intro hc; exact absurd rfl hc
  | node l k v r h ihl ihr =>
    intro _
    cases l with
    | nil => exact ⟨inorder r, by simp [minPair]⟩
    | node ll lk lv lr lh =>
      obtain ⟨restl, hrestl⟩ := ihl (by simp)
      refine ⟨restl ++ (k, v) :: inorder r, ?_⟩
      simp only [inorder_node] at hrestl ⊢
      rw [hrestl]
      simp [minPair]

theorem pfilter_ne_self {k : Int} {L : List (Int × Option Int)}
    (h : ∀ q ∈ L, q.1 ≠ k) :
    L.filter (fun q => !decide (q.1 = k)) = L := by
  rw [List.filter_eq_self]
  intro q hq
  simpa using h q hq

theorem pfilter_cons {q : Int × Option Int} {k : Int} (hne : q.1 ≠ k)
    (L : List (Int × Option Int)) :
    (q :: L).filter (fun q2 => !decide (q2.1 = k)) =
      q :: L.filter (fun q2 => !decide (q2.1 = k)) := by
  rw [List.filter_cons]
  simp [hne]

theorem pfilter_cons_dup {k : Int} (v : Option Int) (L : List (Int × Option Int)) :
    ((k, v) :: L).filter (fun q2 => !decide (q2.1 = k)) =
      L.filter (fun q2 => !decide (q2.1 = k)) := by
  rw [List.filter_cons]
  simp

/-- With the BST invariant, AVL deletion removes exactly the entry of key
`k` from the in-order pair list (the in-order successor splice included). -/
theorem inorder_delete : ∀ (t : AVL) (k : Int), Ordered t →
    inorder (delete t k) = (inorder t).filter (fun q => q.1 ≠ k) := by
  intro t k
  induction t, k using delete.induct with
  | case1 k => simp [delete]
  | case2 k l k0 v0 r h hk ih =>
    intro ho
    obtain ⟨hol, hor, hool, hoor⟩ := ho
    rw [delete_lt_a l v0 r h hk]
    have ihn := ih hool
    simp only [ne_eq, decide_not] at ihn ⊢
    have hfr : ∀ q ∈ inorder r, q.1 ≠ k := fun q hq => by
      have := all_iff_inorder.mp hor q hq; omega
    simp only [inorder_rebalance, inorder_node, List.filter_append, ihn,
      pfilter_cons (show ((k0 : Int), v0).1 ≠ k by simpa using by omega : (k0, v0).1 ≠ k),
      pfilter_ne_self hfr]
  | case3 k l k0 v0 r h hk hk2 ih =>
    intro ho
    obtain ⟨hol, hor, hool, hoor⟩ := ho
    rw [delete_gt_a l v0 r h hk hk2]
    have ihn := ih hoor
    simp only [ne_eq, decide_not] at ihn ⊢
    have hfl : ∀ q ∈ inorder l, q.1 ≠ k := fun q hq => by
      have := all_iff_inorder.mp hol q hq; omega
    simp only [inorder_rebalance, inorder_node, List.filter_append, ihn,
      pfilter_cons (show ((k0 : Int), v0).1 ≠ k by simpa using by omega : (k0, v0).1 ≠ k),
      pfilter_ne_self hfl]
  | case4 k k0 v0 h hk hk2 r =>
    intro ho
    obtain ⟨hol, hor, hool, hoor⟩ := ho
    have hk0 : k0 = k := by omega
    subst hk0
    rw [delete_found_nl_a v0 r h hk hk2]
    have hfr : ∀ q ∈ inorder r, q.1 ≠ k0 := fun q hq => by
      have := all_iff_inorder.mp hor q hq; omega
    simp only [ne_eq, decide_not, inorder_node, inorder_nil, List.nil_append]
    rw [pfilter_cons_dup, pfilter_ne_self hfr]
  | case5 k k0 v0 h hk hk2 ll lk lv lr lh =>
    intro ho
    obtain ⟨hol, hor, hool, hoor⟩ := ho
    have hk0 : k0 = k := by omega
    subst hk0
    rw [delete_found_nr_a v0 h ll lk lv lr lh hk hk2]
    have hfl : ∀ q ∈ inorder (node ll lk lv lr lh), q.1 ≠ k0 := fun q hq => by
      have := all_iff_inorder.mp hol q hq; omega
    simp only [ne_eq, decide_not, inorder_node, inorder_nil]
    rw [List.filter_append (inorder ll ++ (lk, lv) :: inorder lr),
      pfilter_cons_dup, List.filter_nil, List.append_nil]
    exact (pfilter_ne_self (fun q hq => hfl q (by simpa using hq))).symm
  | case6 k k0 v0 h hk hk2 ll lk lv lr lh rl rk rv rr rh s ih =>
    intro ho
    obtain ⟨hol, hor, hool, hoor⟩ := ho
    have hk0 : k0 = k := by omega
    subst hk0
    rw [delete_found_two v0 h ll lk lv lr lh rl rk rv rr rh hk hk2]
    have ihx : Ordered (node rl rk rv rr rh) →
        inorder (delete (node rl rk rv rr rh) (minPair (node rl rk rv rr rh)).1) =
          (inorder (node rl rk rv rr rh)).filter
            (fun q => q.1 ≠ (minPair (node rl rk rv rr rh)).1) := ih
    have ihn := ihx hoor
    obtain ⟨rest, hrest⟩ := inorder_min (node rl rk rv rr rh) (by simp)
    -- the in-order list of the right subtree is strictly sorted, so every
    -- pair after the minimum has a strictly larger key
    have hsorted := ordered_iff_sorted.mp hoor
    rw [keys, hrest] at hsorted
    simp only [List.map_cons, List.sorted_cons] at hsorted
    have hrest2 : ∀ q ∈ rest, (minPair (node rl rk rv rr rh)).1 < q.1 := by
      intro q hq
      exact hsorted.1 q.1 (List.mem_map_of_mem Prod.fst hq)
    have hfR : ∀ q ∈ inorder (node rl rk rv rr rh), q.1 ≠ k0 := fun q hq => by
      have := all_iff_inorder.mp hor q hq; omega
    simp only [ne_eq, decide_not] at ihn ⊢
    rw [inorder_rebalance, ihn, hrest]
    rw [show ((minPair (node rl rk rv rr rh) :: rest).filter
        (fun q => !decide (q.1 = (minPair (node rl rk rv rr rh)).1))) = rest by
      rw [show minPair (node rl rk rv rr rh) =
          ((minPair (node rl rk rv rr rh)).1, (minPair (node rl rk rv rr rh)).2) by rfl,
        pfilter_cons_dup]
      exact pfilter_ne_self (fun q hq => by have := hrest2 q hq; omega)]
    have hrest3 : inorder rl ++ (rk, rv) :: inorder rr =
        minPair (node rl rk rv rr rh) :: rest := by simpa using hrest
    simp only [inorder_node]
    rw [List.filter_append (inorder ll ++ (lk, lv) :: inorder lr),
      pfilter_ne_self (fun q hq => by
        have := all_iff_inorder.mp hol q (by simpa using hq); omega),
      pfilter_cons_dup,
      pfilter_ne_self (fun q hq => hfR q (by simpa using hq)), hrest3]

theorem ordered_delete_a (t : AVL) (k : Int) (ho : Ordered t) : Ordered (delete t k) := by
  have hs := ordered_iff_sorted.mp ho
  rw [ordered_iff_sorted, keys, inorder_delete t k ho]
  exact List.Pairwise.sublist (List.Sublist.map Prod.fst (List.filter_sublist _)) hs

theorem lfind_filter_self (k : Int) (L : List (Int × Option Int)) :
    lfind k (L.filter (fun q => !decide (q.1 = k))) = none := by
  induction L with
  | nil => simp [lfind]
  | cons q rest ih =>
    rw [List.filter_cons]
    split_ifs with h1
    · have h2 : q.1 ≠ k := by simpa using h1
      simp only [lfind, if_neg h2, ih]
    · exact ih

theorem lfind_filter_other (k k2 : Int) (L : List (Int × Option Int)) (hne : k2 ≠ k) :
    lfind k2 (L.filter (fun q => !decide (q.1 = k))) = lfind k2 L := by
  induction L with
  | nil => simp [lfind]
  | cons q rest ih =>
    rw [List.filter_cons]
    split_ifs with h1
    · simp only [lfind, ih]
    · have h2 : ¬ q.1 = k2 := by
        have h3 : q.1 = k := by simpa using h1
        omega
      simp only [lfind, if_neg h2]
      exact ih

/-- Value stored after an insert: the inserted key maps to the new value. -/
theorem assoc_insert_self (t : AVL) (k : Int) (v : Option Int) (ho : Ordered t) :
    assoc (insert t k v) k = some v := by
  rw [assoc_eq_lfind _ _ (ordered_insert_a t k v ho), inorder_insert t k v ho,
    lfind_ains_self]

/-- Value stored after an insert: other keys are untouched. -/
theorem assoc_insert_other (t : AVL) (k k2 : Int) (v : Option Int) (ho : Ordered t)
    (hne : k2 ≠ k) : assoc (insert t k v) k2 = assoc t k2 := by
  rw [assoc_eq_lfind _ _ (ordered_insert_a t k v ho), inorder_insert t k v ho,
    lfind_ains_other k k2 v (inorder t) hne, assoc_eq_lfind t k2 ho]

/-- Value stored after a delete: the deleted key is gone. -/
theorem assoc_delete_self (t : AVL) (k : Int) (ho : Ordered t) :
    assoc (delete t k) k = none := by
  rw [assoc_eq_lfind _ _ (ordered_delete_a t k ho), inorder_delete t k ho]
  simpa [ne_eq, decide_not] using lfind_filter_self k (inorder t)

/-- Value stored after a delete: other keys are untouched. -/
theorem assoc_delete_other (t : AVL) (k k2 : Int) (ho : Ordered t) (hne : k2 ≠ k) :
    assoc (delete t k) k2 = assoc t k2 := by
  rw [assoc_eq_lfind _ _ (ordered_delete_a t k ho), inorder_delete t k ho,
    assoc_eq_lfind t k2 ho]
  simpa [ne_eq, decide_not] using lfind_filter_other k k2 (inorder t) hne

/-- On a well-formed tree, the `is_balanced` checker recomputes exactly the
stored heights and succeeds. -/
theorem check_wf : ∀ {t : AVL}, WF t → check t = (true, ht t) := by
  intro t
  induction t with
  | nil => simp [check]
  | node l k v r h ihl ihr =>
    intro hw
    obtain ⟨hwl, hwr, hh, hb1, hb2⟩ := hw
    simp only [check, ihl hwl, ihr hwr, ht_node, Prod.mk.injEq]
    refine ⟨?_, by omega⟩
    simp only [Bool.true_and, decide_eq_true_eq]
    omega

theorem isBalanced_wf {t : AVL} (hw : WF t) : isBalanced t = true := by
  simp [isBalanced, check_wf hw]

/-- On a well-formed balanced node, `_rebalance` only rewrites the (already
correct) height: the tree is returned unchanged. -/
theorem rebalance_id (l : AVL) (k : Int) (v : Option Int) (r : AVL) (h : Nat)
    (hw : WF (node l k v r h)) : rebalance (node l k v r h) = node l k v r h := by
  obtain ⟨hwl, hwr, hh, hb1, hb2⟩ := hw
  simp only [rebalance]
  rw [if_neg (by omega), if_neg (by omega), hh]

/-- Deleting an absent key from a well-formed ordered AVL tree returns the
tree unchanged (object identity in the source). -/
theorem delete_absent_a : ∀ (t : AVL) (k : Int), WF t → Ordered t → k ∉ keys t →
    delete t k = t := by
  intro t k
  induction t, k using delete.induct with
  | case1 k => intro _ _ _; simp [delete]
  | case2 k l k0 v0 r h hk ih =>
    intro hw ho hmem
    obtain ⟨hwl, hwr, hh, hb1, hb2⟩ := hw
    obtain ⟨hol, hor, hool, hoor⟩ := ho
    rw [delete_lt_a l v0 r h hk, ih hwl hool (fun hc => hmem (by
      simp only [keys, inorder_node, List.map_append, List.mem_append]
      exact Or.inl (by simpa [keys] using hc)))]
    exact rebalance_id l k0 v0 r h ⟨hwl, hwr, hh, hb1, hb2⟩
  | case3 k l k0 v0 r h hk hk2 ih =>
    intro hw ho hmem
    obtain ⟨hwl, hwr, hh, hb1, hb2⟩ := hw
    obtain ⟨hol, hor, hool, hoor⟩ := ho
    rw [delete_gt_a l v0 r h hk hk2, ih hwr hoor (fun hc => hmem (by
      simp only [keys, inorder_node, List.map_append, List.map_cons, List.mem_append,
        List.mem_cons]
      exact Or.inr (Or.inr (by simpa [keys] using hc))))]
    exact rebalance_id l k0 v0 r h ⟨hwl, hwr, hh, hb1, hb2⟩
  | case4 k k0 v0 h hk hk2 r =>
    intro _ _ hmem
    exact absurd (by simp [keys]; omega) hmem
  | case5 k k0 v0 h hk hk2 ll lk lv lr lh =>
    intro _ _ hmem
    exact absurd (by simp [keys]; omega) hmem
  | case6 k k0 v0 h hk hk2 ll lk lv lr lh rl rk rv rr rh s ih =>
    intro _ _ hmem
    exact absurd (by simp [keys]; omega) hmem

theorem step_inv_a (t : AVL) (op : AOp) (h : WF t ∧ Ordered t) :
    WF (step t op) ∧ Ordered (step t op) := by
  cases op with
  | ins k v => exact ⟨(insert_wf t k v h.1).1, ordered_insert_a t k v h.2⟩
  | del k => exact ⟨(delete_wf t k h.1).1, ordered_delete_a t k h.2⟩

theorem foldl_inv_a : ∀ (ops : List AOp) (t : AVL), WF t ∧ Ordered t →
    WF (ops.foldl step t) ∧ Ordered (ops.foldl step t) := by
  intro ops
  induction ops with
  | nil => intro t h; exact h
  | cons op rest ih => intro t h; exact ih (step t op) (step_inv_a t op h)

theorem run_inv_a (ops : List AOp) : WF (run ops) ∧ Ordered (run ops) :=
  foldl_inv_a ops nil ⟨trivial, trivial⟩

/-- Value-erased view of an AVL tree: keys, heights and shape, with every
stored value replaced by `none`. -/
def strip : AVL → AVL
  | nil => nil
  | node l k _ r h => node (strip l) k none (strip r) h

theorem ht_strip (t : AVL) : ht (strip t) = ht t := by
  cases t <;> simp [strip]

/-- Inserting an existing key only overwrites that node's value: the
value-erased tree (keys, shape and heights) is unchanged, and no rebalancing
happens anywhere on the path. -/
theorem insert_mem_strip (t : AVL) (k : Int) (v : Option Int) (hw : WF t)
    (ho : Ordered t) (hmem : k ∈ keys t) : strip (insert t k v) = strip t := by
  induction t with
  | nil => simp [keys] at hmem
  | node l k0 v0 r h ihl ihr =>
    obtain ⟨hwl, hwr, hh, hb1, hb2⟩ := hw
    obtain ⟨hol, hor, hool, hoor⟩ := ho
    by_cases hk : k < k0
    · have hml : k ∈ keys l := by
        simp only [keys, inorder_node, List.map_append, List.map_cons, List.mem_append,
          List.mem_cons] at hmem
        rcases hmem with h1 | h1 | h1
        · exact h1
        · omega
        · exfalso
          simp only [keys, List.mem_map] at h1
          obtain ⟨q, hq, hqk⟩ := h1
          have := all_iff_inorder.mp hor q hq
          omega
      have heq := ihl hwl hool hml
      have hht : ht (insert l k v) = ht l := by
        have := congrArg ht heq
        rwa [ht_strip, ht_strip] at this
      simp only [insert, if_pos hk]
      rw [show rebalance (node (insert l k v) k0 v0 r h) = node (insert l k v) k0 v0 r h
        from rebalance_id _ k0 v0 r h
          ⟨(insert_wf l k v hwl).1, hwr, by omega, by omega, by omega⟩]
      simp only [strip, heq]
    · by_cases hk2 : k0 < k
      · have hmr : k ∈ keys r := by
          simp only [keys, inorder_node, List.map_append, List.map_cons, List.mem_append,
            List.mem_cons] at hmem
          rcases hmem with h1 | h1 | h1
          · exfalso
            simp only [keys, List.mem_map] at h1
            obtain ⟨q, hq, hqk⟩ := h1
            have := all_iff_inorder.mp hol q hq
            omega
          · omega
          · exact h1
        have heq := ihr hwr hoor hmr
        have hht : ht (insert r k v) = ht r := by
          have := congrArg ht heq
          rwa [ht_strip, ht_strip] at this
        simp only [insert, if_neg hk, if_pos hk2]
        rw [show rebalance (node l k0 v0 (insert r k v) h) = node l k0 v0 (insert r k v) h
          from rebalance_id l k0 v0 _ h
            ⟨hwl, (insert_wf r k v hwr).1, by omega, by omega, by omega⟩]
        simp only [strip, heq]
      · simp only [insert, if_neg hk, if_neg hk2, strip]

end AVL

/-! ## Red-Black tree, from `src/data_structures/rbtree.py`

The source is imperative with parent pointers and a shared black sentinel
`NIL`.  Here a tree is the inductive `RBN` (`nil` = the sentinel), and the
parent chain of the node under focus is a `RPath` (a zipper): each frame
records whether the focus hangs off its parent's left or right side,
together with the parent's color, key, and the sibling subtree.  The
`while` loops of `_fix_insert` / `_fix_delete` walk this path exactly as
the source walks `parent` pointers; rotations at the parent/grandparent
are local rearrangements of the focus and the top one or two frames.
Places where the source would raise `AttributeError` (reading `.left`,
`.right` or `.parent` of a Python `None`) are modelled by `Option.none`;
the invariant proofs below show they are unreachable from the public API. -/

inductive Col where
  | red : Col
  | black : Col
deriving DecidableEq, Repr

inductive RBN where
  | nil : RBN
  | node (c : Col) (l : RBN) (k : Int) (r : RBN) : RBN
deriving DecidableEq, Repr

namespace RBN

/-- Zipper context for the node under focus.
`left c k sib p`: the focus is the LEFT child of a parent `node c ∙ k sib`;
`right c sib k p`: the focus is the RIGHT child of a parent `node c sib k ∙`. -/
inductive RPath where
  | root : RPath
  | left (c : Col) (k : Int) (sib : RBN) (p : RPath) : RPath
  | right (c : Col) (sib : RBN) (k : Int) (p : RPath) : RPath
deriving DecidableEq, Repr

/-- Rebuild the whole tree from a focus subtree and its path. -/
def zipR (t : RBN) : RPath → RBN
  | .root => t
  | .left c k sib p => zipR (node c t k sib) p
  | .right c sib k p => zipR (node c sib k t) p

def sizeR : RBN → Nat
  | nil => 0
  | node _ l _ r => 1 + sizeR l + sizeR r

def pathLen : RPath → Nat
  | .root => 0
  | .left _ _ _ p => 1 + pathLen p
  | .right _ _ _ p => 1 + pathLen p

def pathSize : RPath → Nat
  | .root => 0
  | .left _ _ sib p => 1 + sizeR sib + pathSize p
  | .right _ sib _ p => 1 + sizeR sib + pathSize p

def headSib : RPath → Nat
  | .root => 0
  | .left _ _ sib _ => sizeR sib
  | .right _ sib _ _ => sizeR sib

/-- Color of the root of a subtree; the sentinel is black. -/
def rootCol : RBN → Col
  | nil => Col.black
  | node c _ _ _ => c

/-- Set the root color to black (`x.color = 'black'`); on the sentinel this
is the no-op it is in the source. -/
def blacken : RBN → RBN
  | nil => nil
  | node _ l k r => node Col.black l k r

/-- The BST descent of `RBTree.insert`: returns the path of the empty slot
where the new node goes, or `none` for a duplicate key (the source
`return`s and changes nothing). -/
def insDesc (t : RBN) (k : Int) (path : RPath) : Option RPath :=
  match t with
  | nil => some path
  | node c l k0 r =>
    if k < k0 then insDesc l k (.left c k0 r path)
    else if k0 < k then insDesc r k (.right c l k0 path)
    else none

/-- `RBTree._fix_insert`, on the zipper.  The focus `z` is the red node
being fixed; each loop iteration inspects the parent frame (its color) and
the grandparent frame (to find the uncle).  A red parent sitting at the
root would make the source read `z.parent.parent.left` of `None`
(`AttributeError`): that is `none` here.  Case 1 (red uncle) recolors and
moves the focus up two frames; the black-uncle cases perform the one or
two rotations and terminate on the next iteration. -/
def fixIns (z : RBN) (path : RPath) : Option RBN :=
  match path with
  | .root => some (blacken z)
  | .left Col.black pk psib rest => some (blacken (zipR z (.left Col.black pk psib rest)))
  | .right Col.black psib pk rest => some (blacken (zipR z (.right Col.black psib pk rest)))
  | .left Col.red pk psib rest =>
    match rest with
    | .root => none
    | .left _ gk gsib rest2 =>
      match gsib with
      | node Col.red yl yk yr =>
        -- Case 1: uncle red — recolor parent/uncle black, grandparent red, move up
        fixIns (node Col.red (node Col.black z pk psib) gk (node Col.black yl yk yr)) rest2
      | _ =>
        -- Case 3: z outer (left-left) — parent black, grandparent red,
        -- right-rotate the grandparent
        fixIns z (.left Col.black pk (node Col.red psib gk gsib) rest2)
    | .right _ gsib gk rest2 =>
      match gsib with
      | node Col.red yl yk yr =>
        fixIns (node Col.red (node Col.black yl yk yr) gk (node Col.black z pk psib)) rest2
      | _ =>
        -- Case 2 then 3 (mirror): z inner (right-left) — focus moves to the old
        -- parent, rotate twice
        match z with
        | node _ zl zk zr =>
          fixIns (node Col.red zr pk psib) (.right Col.black (node Col.red gsib gk zl) zk rest2)
        | nil => none
  | .right Col.red psib pk rest =>
    match rest with
    | .root => none
    | .left _ gk gsib rest2 =>
      match gsib with
      | node Col.red yl yk yr =>
        fixIns (node Col.red (node Col.black psib pk z) gk (node Col.black yl yk yr)) rest2
      | _ =>
        -- Case 2 then 3: z inner (left-right)
        match z with
        | node _ zl zk zr =>
          fixIns (node Col.red psib pk zl) (.left Col.black zk (node Col.red zr gk gsib) rest2)
        | nil => none
    | .right _ gsib gk rest2 =>
      match gsib with
      | node Col.red yl yk yr =>
        fixIns (node Col.red (node Col.black yl yk yr) gk (node Col.black psib pk z)) rest2
      | _ =>
        -- Case 3 (mirror): z outer (right-right)
        fixIns z (.right Col.black (node Col.red gsib gk psib) pk rest2)
  termination_by pathLen path
  decreasing_by
    all_goals simp [pathLen]
    all_goals omega

/-- `RBTree.insert`: BST insertion of a red node followed by the fix-up;
duplicates are ignored. -/
def insertR (t : RBN) (k : Int) : Option RBN :=
  match insDesc t k .root with
  | none => some t
  | some path => fixIns (node Col.red nil k nil) path

/-- `RBTree.search`. -/
def searchR (t : RBN) (k : Int) : Bool :=
  match t with
  | nil => false
  | node _ l k0 r =>
    if k = k0 then true else if k < k0 then searchR l k else searchR r k

/-- The search loop of `RBTree.delete`: find the node with key `k` and its
path, or `none` when absent. -/
def delDesc (t : RBN) (k : Int) (path : RPath) :
    Option (Col × RBN × Int × RBN × RPath) :=
  match t with
  | nil => none
  | node c l k0 r =>
    if k = k0 then some (c, l, k0, r, path)
    else if k < k0 then delDesc l k (.left c k0 r path)
    else delDesc r k (.right c l k0 path)

/-- `RBTree._minimum` on the zipper: color, key and right child of the
leftmost node, together with the function prepending the left-spine frames
to a path. -/
def minSpine : RBN → Col × Int × RBN × (RPath → RPath)
  | nil => (Col.black, 0, nil, id)
  | node c nil k r => (c, k, r, id)
  | node c (node lc la lk lb) k r =>
    let m := minSpine (node lc la lk lb)
    (m.1, m.2.1, m.2.2.1, fun p => m.2.2.2 (.left c k r p))

/-- Lexicographic helper for the termination of the deletion fix-up. -/
theorem lexHelp {a1 b1 a2 b2 : Nat}
    (h : a1 < a2 ∨ (a1 = a2 ∧ b1 < b2)) :
    Prod.Lex (fun x y => x < y) (fun x y => x < y) (a1, b1) (a2, b2) := by
  rcases h with h | ⟨h1, h2⟩
  · exact Prod.Lex.left _ _ h
  · subst h1
    exact Prod.Lex.right _ h2

/-- `RBTree._fix_delete`, on the zipper.  The focus `x` carries the
``extra black''; the loop exits when `x` is the root or red, and finally
blackens `x`.  A sentinel sibling would make the source read
`w.left.color` of `None` (`AttributeError`): `none` here. -/
def fixDel (x : RBN) (path : RPath) : Option RBN :=
  match path with
  | .root => some (blacken x)
  | .left pc pk w rest =>
    if rootCol x = Col.red then some (zipR (blacken x) (.left pc pk w rest))
    else
      match w with
      | nil => none
      | node Col.red wl wk wr =>
        -- Case 1: sibling red — recolor, left-rotate the parent, new sibling `wl`
        fixDel x (.left Col.red pk wl (.left Col.black wk wr rest))
      | node Col.black wl wk wr =>
        if rootCol wl = Col.black ∧ rootCol wr = Col.black then
          -- Case 2: sibling and its children black — recolor sibling red, move up
          fixDel (node pc x pk (node Col.red wl wk wr)) rest
        else
          if rootCol wr = Col.black then
            -- Case 3 (sibling's left child red) then Case 4
            match wl with
            | node Col.red wll wlk wlr =>
              some (blacken (zipR
                (node pc (node Col.black x pk wll) wlk (node Col.black wlr wk wr)) rest))
            | _ => none
          else
            -- Case 4: sibling's right child red
            some (blacken (zipR
              (node pc (node Col.black x pk wl) wk (blacken wr)) rest))
  | .right pc w pk rest =>
    if rootCol x = Col.red then some (zipR (blacken x) (.right pc w pk rest))
    else
      match w with
      | nil => none
      | node Col.red wl wk wr =>
        fixDel x (.right Col.red wr pk (.right Col.black wl wk rest))
      | node Col.black wl wk wr =>
        if rootCol wl = Col.black ∧ rootCol wr = Col.black then
          fixDel (node pc (node Col.red wl wk wr) pk x) rest
        else
          if rootCol wl = Col.black then
            -- Case 3 (sibling's right child red) then Case 4, mirrored
            match wr with
            | node Col.red wrl wrk wrr =>
              some (blacken (zipR
                (node pc (node Col.black wl wk wrl) wrk (node Col.black wrr pk x)) rest))
            | _ => none
          else
            -- Case 4 mirrored: sibling's left child red
            some (blacken (zipR
              (node pc (blacken wl) wk (node Col.black wr pk x)) rest))
  termination_by (pathSize path, headSib path)
  decreasing_by
    all_goals simp [pathSize, headSib, sizeR]
    all_goals first
      | (apply lexHelp; omega)
      | omega

/-- `RBTree.delete`: locate `z`; a node with a sentinel child is replaced
by the other child; otherwise the in-order successor `y` (minimum of the
right subtree) is spliced into `z`'s place keeping `z`'s color, and the
replacement `x = y.right` takes `y`'s position.  The fix-up runs exactly
when the unlinked node was black. -/
def deleteR (t : RBN) (k : Int) : Option RBN :=
  match delDesc t k .root with
  | none => some t
  | some (zc, zl, zk, zr, p) =>
    match zl, zr with
    | nil, _ =>
      if zc = Col.black then fixDel zr p else some (zipR zr p)
    | node lc ll lk0 lr, nil =>
      if zc = Col.black then fixDel (node lc ll lk0 lr) p
      else some (zipR (node lc ll lk0 lr) p)
    | node lc ll lk0 lr, node rc rl rk0 rr =>
      let m := minSpine (node rc rl rk0 rr)
      let xpath := m.2.2.2 (.right zc (node lc ll lk0 lr) m.2.1 p)
      if m.1 = Col.black then fixDel m.2.2.1 xpath
      else some (zipR m.2.2.1 xpath)

/-- The depth-first check inside `RBTree.validate_black_height`: black
height counting the sentinel as 1, and 0 for an inconsistency. -/
def bhChk : RBN → Nat
  | nil => 1
  | node c l _ r =>
    let a := bhChk l
    let b := bhChk r
    if a = 0 ∨ b = 0 ∨ a ≠ b then 0
    else a + (if c = Col.black then 1 else 0)

/-- `RBTree.validate_black_height`. -/
def validateBH (t : RBN) : Bool := decide (0 < bhChk t)

/-- No red node has a red child. -/
def noRR : RBN → Prop
  | nil => True
  | node c l _ r =>
    (c = Col.red → rootCol l = Col.black ∧ rootCol r = Col.black) ∧ noRR l ∧ noRR r

/-- In-order key list. -/
def inorderR : RBN → List Int
  | nil => []
  | node _ l k r => inorderR l ++ k :: inorderR r

/-- One public operation (`insert(key)` / `delete(key)`). -/
inductive ROp where
  | ins (k : Int)
  | del (k : Int)
deriving DecidableEq, Repr

/-- One step; a crash (`none`, an `AttributeError` in the source)
propagates. -/
def stepR (ot : Option RBN) (op : ROp) : Option RBN :=
  match ot with
  | none => none
  | some t =>
    match op with
    | .ins k => insertR t k
    | .del k => deleteR t k

/-- Run a sequence of operations on an initially empty tree
(`self.root = self.NIL`). -/
def runR (ops : List ROp) : Option RBN := ops.foldl stepR (some nil)

@[simp] theorem zipR_root (t : RBN) : zipR t .root = t := rfl

@[simp] theorem zipR_left (t : RBN) (c : Col) (k : Int) (sib : RBN) (p : RPath) :
    zipR t (.left c k sib p) = zipR (node c t k sib) p := rfl

@[simp] theorem zipR_right (t : RBN) (c : Col) (k : Int) (sib : RBN) (p : RPath) :
    zipR t (.right c sib k p) = zipR (node c sib k t) p := rfl

@[simp] theorem rootCol_nil : rootCol nil = Col.black := rfl

@[simp] theorem rootCol_node (c : Col) (l : RBN) (k : Int) (r : RBN) :
    rootCol (node c l k r) = c := rfl

@[simp] theorem blacken_nil : blacken nil = nil := rfl

@[simp] theorem blacken_node (c : Col) (l : RBN) (k : Int) (r : RBN) :
    blacken (node c l k r) = node Col.black l k r := rfl

@[simp] theorem inorderR_nil : inorderR nil = [] := rfl

@[simp] theorem inorderR_node (c : Col) (l : RBN) (k : Int) (r : RBN) :
    inorderR (node c l k r) = inorderR l ++ k :: inorderR r := rfl

@[simp] theorem noRR_nil : noRR nil := trivial

@[simp] theorem noRR_node (c : Col) (l : RBN) (k : Int) (r : RBN) :
    noRR (node c l k r) ↔
      (c = Col.red → rootCol l = Col.black ∧ rootCol r = Col.black) ∧ noRR l ∧ noRR r :=
  Iff.rfl

/-- The red-black balance relation: `Bal t c n` says the subtree `t` has
root color `c`, no red node with a red child, and every path from the root
to a sentinel passes through `n` black (non-sentinel) nodes. -/
inductive Bal : RBN → Col → Nat → Prop where
  | nil : Bal RBN.nil Col.black 0
  | red {l r : RBN} {k : Int} {n : Nat} :
      Bal l Col.black n → Bal r Col.black n → Bal (node Col.red l k r) Col.red n
  | black {l r : RBN} {k : Int} {n : Nat} {c1 c2 : Col} :
      Bal l c1 n → Bal r c2 n → Bal (node Col.black l k r) Col.black (n + 1)

/-- Context validity: `PB p c n` says the hole of `p` sits under a node of
color `c` (`black` at the root) and expects a subtree of black-height `n`;
a red tree may be plugged only when `c = black`.  The side conditions
`p ≠ root` on the red constructors record that a red node always has a
real (black) parent, i.e. the tree's root is black. -/
inductive PB : RPath → Col → Nat → Prop where
  | root {n : Nat} : PB RPath.root Col.black n
  | leftB {p : RPath} {k : Int} {sib : RBN} {c2 cs : Col} {n : Nat} :
      PB p c2 (n + 1) → Bal sib cs n → PB (.left Col.black k sib p) Col.black n
  | rightB {p : RPath} {k : Int} {sib : RBN} {c2 cs : Col} {n : Nat} :
      PB p c2 (n + 1) → Bal sib cs n → PB (.right Col.black sib k p) Col.black n
  | leftR {p : RPath} {k : Int} {sib : RBN} {n : Nat} :
      PB p Col.black n → p ≠ RPath.root → Bal sib Col.black n →
      PB (.left Col.red k sib p) Col.red n
  | rightR {p : RPath} {k : Int} {sib : RBN} {n : Nat} :
      PB p Col.black n → p ≠ RPath.root → Bal sib Col.black n →
      PB (.right Col.red sib k p) Col.red n

theorem bal_rootCol {t : RBN} {c : Col} {n : Nat} (h : Bal t c n) : rootCol t = c := by
  cases h <;> rfl

theorem bal_noRR {t : RBN} {c : Col} {n : Nat} (h : Bal t c n) : noRR t := by
  induction h with
  | nil => trivial
  | red hl hr ihl ihr =>
    exact ⟨fun _ => ⟨bal_rootCol hl, bal_rootCol hr⟩, ihl, ihr⟩
  | black hl hr ihl ihr =>
    refine (noRR_node _ _ _ _).mpr ⟨?_, ihl, ihr⟩
    intro h
    cases h

theorem bal_bh {t : RBN} {c : Col} {n : Nat} (h : Bal t c n) : bhChk t = n + 1 := by
  induction h with
  | nil => rfl
  | red hl hr ihl ihr => simp [bhChk, ihl, ihr]
  | black hl hr ihl ihr => simp [bhChk, ihl, ihr]

theorem bal_blacken {t : RBN} {c : Col} {n : Nat} (h : Bal t c n) :
    ∃ m, Bal (blacken t) Col.black m := by
  cases h with
  | nil => exact ⟨0, Bal.nil⟩
  | red hl hr => exact ⟨_, Bal.black hl hr⟩
  | black hl hr => exact ⟨_, Bal.black hl hr⟩

theorem bal_black_zero {t : RBN} (h : Bal t Col.black 0) : t = nil := by
  cases h; rfl

theorem bal_nil_inv {c : Col} {n : Nat} (h : Bal RBN.nil c n) :
    c = Col.black ∧ n = 0 := by
  cases h; exact ⟨rfl, rfl⟩

/-- Plugging a balanced subtree into a valid context yields a balanced
tree whose root is black (the plugged tree itself must be black-rooted
when the context is just the root hole). -/
theorem zip_good_black {p : RPath} {c : Col} {n : Nat} (hp : PB p c n) :
    ∀ {t ct}, Bal t ct n → (c = Col.red → ct = Col.black) →
      (p = RPath.root → ct = Col.black) → ∃ m, Bal (zipR t p) Col.black m := by
  induction hp with
  | root =>
    intro t ct ht _ hroot
    rcases hroot rfl with rfl
    exact ⟨_, ht⟩
  | leftB hrest hsib ih =>
    intro t ct ht _ _
    exact ih (Bal.black ht hsib) (fun _ => rfl) (fun _ => rfl)
  | rightB hrest hsib ih =>
    intro t ct ht _ _
    exact ih (Bal.black hsib ht) (fun _ => rfl) (fun _ => rfl)
  | leftR hrest hnr hsib ih =>
    intro t ct ht hred _
    rcases hred rfl with rfl
    exact ih (Bal.red ht hsib) (fun h => by cases h) (fun h => absurd h hnr)
  | rightR hrest hnr hsib ih =>
    intro t ct ht hred _
    rcases hred rfl with rfl
    exact ih (Bal.red hsib ht) (fun h => by cases h) (fun h => absurd h hnr)

/-- The insertion fix-up never crashes and restores balance: from a red
focus whose subtrees are balanced, in a valid context, it returns a
balanced black-rooted tree. -/
theorem fixIns_good : ∀ (z : RBN) (path : RPath) {c : Col} {n : Nat},
    PB path c n → Bal z Col.red n →
    ∃ t, fixIns z path = some t ∧ ∃ m, Bal t Col.black m := by
  intro z path
  induction z, path using fixIns.induct with
  | case1 z =>
    intro c n hP hB
    have he : fixIns z RPath.root = some (blacken z) := by rw [fixIns.eq_def]
    exact ⟨_, he, bal_blacken hB⟩
  | case2 z pk psib rest =>
    intro c n hP hB
    cases hP with
    | leftB hrest hsib =>
      have he : fixIns z (.left Col.black pk psib rest) =
          some (blacken (zipR z (.left Col.black pk psib rest))) := by
        rw [fixIns.eq_def]
      obtain ⟨m, hm⟩ := zip_good_black (PB.leftB (k := pk) hrest hsib) hB
        (fun h => nomatch h) (fun h => nomatch h)
      exact ⟨_, he, bal_blacken hm⟩
  | case3 z psib pk rest =>
    intro c n hP hB
    cases hP with
    | rightB hrest hsib =>
      have he : fixIns z (.right Col.black psib pk rest) =
          some (blacken (zipR z (.right Col.black psib pk rest))) := by
        rw [fixIns.eq_def]
      obtain ⟨m, hm⟩ := zip_good_black (PB.rightB (k := pk) hrest hsib) hB
        (fun h => nomatch h) (fun h => nomatch h)
      exact ⟨_, he, bal_blacken hm⟩
  | case4 z pk psib =>
    intro c n hP hB
    cases hP with
    | leftR hrest hnr hsib => exact absurd rfl hnr
  | case5 z pk psib gc gk rest yl yk yr ih =>
    intro c n hP hB
    cases hP with
    | leftR hrest hnr hsib =>
      cases hrest with
      | leftB hrest2 hgsib =>
        cases hgsib with
        | red hyl hyr =>
          have he : fixIns z (.left Col.red pk psib
                (.left Col.black gk (node Col.red yl yk yr) rest)) =
              fixIns (node Col.red (node Col.black z pk psib) gk
                (node Col.black yl yk yr)) rest := by
            rw [fixIns.eq_def]
          obtain ⟨t, ht, hm⟩ := ih hrest2
            (Bal.red (Bal.black hB hsib) (Bal.black hyl hyr))
          exact ⟨t, he ▸ ht, hm⟩
  | case6 z pk psib gc gk rest gsib hns ih =>
    intro c n hP hB
    cases hP with
    | leftR hrest hnr hsib =>
      cases hrest with
      | leftB hrest2 hgsib =>
        cases hgsib with
        | nil =>
          have he : fixIns z (.left Col.red pk psib (.left Col.black gk nil rest)) =
              fixIns z (.left Col.black pk (node Col.red psib gk nil) rest) := by
            rw [fixIns.eq_def]
          obtain ⟨t, ht, hm⟩ := ih (PB.leftB hrest2 (Bal.red hsib Bal.nil)) hB
          exact ⟨t, he ▸ ht, hm⟩
        | red hl hr => exact (hns _ _ _ rfl).elim
        | @black l2 r2 k2 n2 cl2 cr2 hl hr =>
          have he : fixIns z (.left Col.red pk psib
                (.left Col.black gk (node Col.black l2 k2 r2) rest)) =
              fixIns z (.left Col.black pk
                (node Col.red psib gk (node Col.black l2 k2 r2)) rest) := by
            rw [fixIns.eq_def]
          obtain ⟨t, ht, hm⟩ := ih
            (PB.leftB hrest2 (Bal.red hsib (Bal.black hl hr))) hB
          exact ⟨t, he ▸ ht, hm⟩
  | case7 z pk psib gc gk rest yl yk yr ih =>
    intro c n hP hB
    cases hP with
    | leftR hrest hnr hsib =>
      cases hrest with
      | rightB hrest2 hgsib =>
        cases hgsib with
        | red hyl hyr =>
          have he : fixIns z (.left Col.red pk psib
                (.right Col.black (node Col.red yl yk yr) gk rest)) =
              fixIns (node Col.red (node Col.black yl yk yr) gk
                (node Col.black z pk psib)) rest := by
            rw [fixIns.eq_def]
          obtain ⟨t, ht, hm⟩ := ih hrest2
            (Bal.red (Bal.black hyl hyr) (Bal.black hB hsib))
          exact ⟨t, he ▸ ht, hm⟩
  | case8 pk psib gc gk rest gsib hns zc zl zk zr ih =>
    intro c n hP hB
    cases hB with
    | red hzl hzr =>
      cases hP with
      | leftR hrest hnr hsib =>
        cases hrest with
        | rightB hrest2 hgsib =>
          cases hgsib with
          | nil =>
            have he : fixIns (node Col.red zl zk zr)
                  (.left Col.red pk psib (.right Col.black nil gk rest)) =
                fixIns (node Col.red zr pk psib)
                  (.right Col.black (node Col.red nil gk zl) zk rest) := by
              rw [fixIns.eq_def]
            obtain ⟨t, ht, hm⟩ := ih
              (PB.rightB hrest2 (Bal.red Bal.nil hzl)) (Bal.red hzr hsib)
            exact ⟨t, he ▸ ht, hm⟩
          | red hl hr => exact (hns _ _ _ rfl).elim
          | @black l2 r2 k2 n2 cl2 cr2 hl hr =>
            have he : fixIns (node Col.red zl zk zr)
                  (.left Col.red pk psib (.right Col.black (node Col.black l2 k2 r2) gk rest)) =
                fixIns (node Col.red zr pk psib)
                  (.right Col.black (node Col.red (node Col.black l2 k2 r2) gk zl) zk rest) := by
              rw [fixIns.eq_def]
            obtain ⟨t, ht, hm⟩ := ih
              (PB.rightB hrest2 (Bal.red (Bal.black hl hr) hzl)) (Bal.red hzr hsib)
            exact ⟨t, he ▸ ht, hm⟩
  | case9 pk psib gc gk rest gsib hns =>
    intro c n hP hB
    cases hB
  | case10 z psib pk =>
    intro c n hP hB
    cases hP with
    | rightR hrest hnr hsib => exact absurd rfl hnr
  | case11 z psib pk gc gk rest yl yk yr ih =>
    intro c n hP hB
    cases hP with
    | rightR hrest hnr hsib =>
      cases hrest with
      | leftB hrest2 hgsib =>
        cases hgsib with
        | red hyl hyr =>
          have he : fixIns z (.right Col.red psib pk
                (.left Col.black gk (node Col.red yl yk yr) rest)) =
              fixIns (node Col.red (node Col.black psib pk z) gk
                (node Col.black yl yk yr)) rest := by
            rw [fixIns.eq_def]
          obtain ⟨t, ht, hm⟩ := ih hrest2
            (Bal.red (Bal.black hsib hB) (Bal.black hyl hyr))
          exact ⟨t, he ▸ ht, hm⟩
  | case12 psib pk gc gk rest gsib hns zc zl zk zr ih =>
    intro c n hP hB
    cases hB with
    | red hzl hzr =>
      cases hP with
      | rightR hrest hnr hsib =>
        cases hrest with
        | leftB hrest2 hgsib =>
          cases hgsib with
          | nil =>
            have he : fixIns (node Col.red zl zk zr)
                  (.right Col.red psib pk (.left Col.black gk nil rest)) =
                fixIns (node Col.red psib pk zl)
                  (.left Col.black zk (node Col.red zr gk nil) rest) := by
              rw [fixIns.eq_def]
            obtain ⟨t, ht, hm⟩ := ih
              (PB.leftB hrest2 (Bal.red hzr Bal.nil)) (Bal.red hsib hzl)
            exact ⟨t, he ▸ ht, hm⟩
          | red hl hr => exact (hns _ _ _ rfl).elim
          | @black l2 r2 k2 n2 cl2 cr2 hl hr =>
            have he : fixIns (node Col.red zl zk zr)
                  (.right Col.red psib pk (.left Col.black gk (node Col.black l2 k2 r2) rest)) =
                fixIns (node Col.red psib pk zl)
                  (.left Col.black zk (node Col.red zr gk (node Col.black l2 k2 r2)) rest) := by
              rw [fixIns.eq_def]
            obtain ⟨t, ht, hm⟩ := ih
              (PB.leftB hrest2 (Bal.red hzr (Bal.black hl hr))) (Bal.red hsib hzl)
            exact ⟨t, he ▸ ht, hm⟩
  | case13 psib pk gc gk rest gsib hns =>
    intro c n hP hB
    cases hB
  | case14 z psib pk gc gk rest yl yk yr ih =>
    intro c n hP hB
    cases hP with
    | rightR hrest hnr hsib =>
      cases hrest with
      | rightB hrest2 hgsib =>
        cases hgsib with
        | red hyl hyr =>
          have he : fixIns z (.right Col.red psib pk
                (.right Col.black (node Col.red yl yk yr) gk rest)) =
              fixIns (node Col.red (node Col.black yl yk yr) gk
                (node Col.black psib pk z)) rest := by
            rw [fixIns.eq_def]
          obtain ⟨t, ht, hm⟩ := ih hrest2
            (Bal.red (Bal.black hyl hyr) (Bal.black hsib hB))
          exact ⟨t, he ▸ ht, hm⟩
  | case15 z psib pk gc gk rest gsib hns ih =>
    intro c n hP hB
    cases hP with
    | rightR hrest hnr hsib =>
      cases hrest with
      | rightB hrest2 hgsib =>
        cases hgsib with
        | nil =>
          have he : fixIns z (.right Col.red psib pk (.right Col.black nil gk rest)) =
              fixIns z (.right Col.black (node Col.red nil gk psib) pk rest) := by
            rw [fixIns.eq_def]
          obtain ⟨t, ht, hm⟩ := ih (PB.rightB hrest2 (Bal.red Bal.nil hsib)) hB
          exact ⟨t, he ▸ ht, hm⟩
        | red hl hr => exact (hns _ _ _ rfl).elim
        | @black l2 r2 k2 n2 cl2 cr2 hl hr =>
          have he : fixIns z (.right Col.red psib pk
                (.right Col.black (node Col.black l2 k2 r2) gk rest)) =
              fixIns z (.right Col.black
                (node Col.red (node Col.black l2 k2 r2) gk psib) pk rest) := by
            rw [fixIns.eq_def]
          obtain ⟨t, ht, hm⟩ := ih
            (PB.rightB hrest2 (Bal.red (Bal.black hl hr) hsib)) hB
          exact ⟨t, he ▸ ht, hm⟩

/-- The BST descent of insertion produces a valid context whose hole has
black-height 0 (a sentinel position). -/
theorem insDesc_pb : ∀ (t : RBN) (k : Int) (path : RPath) {c : Col} {n : Nat} {cp : Col},
    Bal t c n → PB path cp n → (cp = Col.red → c = Col.black) →
    (c = Col.red → path ≠ RPath.root) →
    ∀ {p2 : RPath}, insDesc t k path = some p2 → ∃ c2, PB p2 c2 0 := by
  intro t
  induction t with
  | nil =>
    intro k path c n cp hB hP hc hcr p2 he
    obtain ⟨rfl, rfl⟩ := bal_nil_inv hB
    simp only [insDesc, Option.some.injEq] at he
    exact ⟨cp, he ▸ hP⟩
  | node tc l k0 r ihl ihr =>
    intro k path c n cp hB hP hc hcr p2 he
    simp only [insDesc] at he
    cases hB with
    | red hl hr =>
      have hcp : cp = Col.black := by
        cases cp with
        | red => exact hc rfl
        | black => rfl
      subst hcp
      split_ifs at he with h1 h2
      · exact ihl k _ hl (PB.leftR (k := k0) hP (hcr rfl) hr)
          (fun _ => rfl) (fun _ h => nomatch h) he
      · exact ihr k _ hr (PB.rightR (k := k0) hP (hcr rfl) hl)
          (fun _ => rfl) (fun _ h => nomatch h) he
    | black hl hr =>
      split_ifs at he with h1 h2
      · exact ihl k _ hl (PB.leftB (k := k0) hP hr)
          (fun h => nomatch h) (fun _ h => nomatch h) he
      · exact ihr k _ hr (PB.rightB (k := k0) hP hl)
          (fun h => nomatch h) (fun _ h => nomatch h) he

/-- `RBTree.insert` from a balanced black-rooted tree succeeds and yields
a balanced black-rooted tree. -/
theorem insertR_good (t : RBN) (k : Int) {n : Nat} (hB : Bal t Col.black n) :
    ∃ t2, insertR t k = some t2 ∧ ∃ m, Bal t2 Col.black m := by
  cases he : insDesc t k RPath.root with
  | none =>
    refine ⟨t, ?_, n, hB⟩
    simp [insertR, he]
  | some p2 =>
    obtain ⟨c2, hp2⟩ := insDesc_pb t k RPath.root hB PB.root
      (fun h => nomatch h) (fun h => nomatch h) he
    obtain ⟨t2, ht2, hm⟩ := fixIns_good (node Col.red nil k nil) p2 hp2
      (Bal.red Bal.nil Bal.nil)
    refine ⟨t2, ?_, hm⟩
    simp [insertR, he, ht2]

/-- The deletion search loop: when it finds the key, the located node is
balanced in a valid context. -/
theorem delDesc_spec : ∀ (t : RBN) (k : Int) (path : RPath) {c : Col} {n : Nat} {cp : Col},
    Bal t c n → PB path cp n → (cp = Col.red → c = Col.black) →
    (c = Col.red → path ≠ RPath.root) →
    ∀ {zc : Col} {zl : RBN} {zk : Int} {zr : RBN} {p2 : RPath},
      delDesc t k path = some (zc, zl, zk, zr, p2) →
      ∃ cp2 n2, PB p2 cp2 n2 ∧ Bal (node zc zl zk zr) zc n2 ∧
        (cp2 = Col.red → zc = Col.black) ∧ (zc = Col.red → p2 ≠ RPath.root) := by
  intro t
  induction t with
  | nil =>
    intro k path c n cp hB hP hc hcr zc zl zk zr p2 he
    simp [delDesc] at he
  | node tc l k0 r ihl ihr =>
    intro k path c n cp hB hP hc hcr zc zl zk zr p2 he
    simp only [delDesc] at he
    split_ifs at he with h1 h2
    · simp only [Option.some.injEq, Prod.mk.injEq] at he
      obtain ⟨rfl, rfl, rfl, rfl, rfl⟩ := he
      have hcc : tc = c := by simpa using bal_rootCol hB
      subst hcc
      exact ⟨cp, n, hP, hB, hc, hcr⟩
    · cases hB with
      | red hl hr =>
        have hcp : cp = Col.black := by
          cases cp with
          | red => exact hc rfl
          | black => rfl
        subst hcp
        exact ihl k _ hl (PB.leftR (k := k0) hP (hcr rfl) hr)
          (fun _ => rfl) (fun _ h => nomatch h) he
      | black hl hr =>
        exact ihl k _ hl (PB.leftB (k := k0) hP hr)
          (fun h => nomatch h) (fun _ h => nomatch h) he
    · cases hB with
      | red hl hr =>
        have hcp : cp = Col.black := by
          cases cp with
          | red => exact hc rfl
          | black => rfl
        subst hcp
        exact ihr k _ hr (PB.rightR (k := k0) hP (hcr rfl) hl)
          (fun _ => rfl) (fun _ h => nomatch h) he
      | black hl hr =>
        exact ihr k _ hr (PB.rightB (k := k0) hP hl)
          (fun h => nomatch h) (fun _ h => nomatch h) he

/-- Walking to the minimum of a (nonempty, balanced) right subtree yields
a context for its right child: the hole expects black-height 1 when the
minimum is black (the deficit repaired by the fix-up) and 0 when it is
red. -/
theorem minSpine_spec : ∀ (t : RBN) {c : Col} {n : Nat}, Bal t c n → t ≠ RBN.nil →
    ∀ {P0 : RPath} {cp0 : Col}, PB P0 cp0 n → (cp0 = Col.red → c = Col.black) →
    P0 ≠ RPath.root →
    ∃ cp2 cx, PB ((minSpine t).2.2.2 P0) cp2
        (if (minSpine t).1 = Col.black then 1 else 0) ∧
      Bal (minSpine t).2.2.1 cx 0 ∧
      ((minSpine t).1 = Col.red → cx = Col.black) ∧
      (minSpine t).2.2.2 P0 ≠ RPath.root := by
  intro t
  induction t with
  | nil =>
    intro c n hB hne
    exact absurd rfl hne
  | node tc L k r ihL ihr =>
    intro c n hB hne P0 cp0 hP hc hP0
    cases L with
    | nil =>
      cases hB with
      | red hl hr =>
        obtain ⟨-, rfl⟩ := bal_nil_inv hl
        refine ⟨cp0, Col.black, ?_, ?_, fun _ => rfl, ?_⟩
        · simpa [minSpine] using hP
        · simpa [minSpine] using hr
        · simpa [minSpine] using hP0
      | @black _ _ _ m c1 c2 hl hr =>
        obtain ⟨-, rfl⟩ := bal_nil_inv hl
        refine ⟨cp0, c2, ?_, ?_, ?_, ?_⟩
        · simpa [minSpine] using hP
        · simpa [minSpine] using hr
        · intro h
          simp [minSpine] at h
        · simpa [minSpine] using hP0
    | node lc la lk lb =>
      cases hB with
      | red hl hr =>
        have hcp : cp0 = Col.black := by
          cases cp0 with
          | red => exact hc rfl
          | black => rfl
        subst hcp
        have hres := ihL hl (fun h => nomatch h)
          (PB.leftR (k := k) hP hP0 hr) (fun _ => rfl) (fun h => nomatch h)
        simpa [minSpine] using hres
      | black hl hr =>
        have hres := ihL hl (fun h => nomatch h)
          (PB.leftB (k := k) hP hr) (fun h => nomatch h) (fun h => nomatch h)
        simpa [minSpine] using hres

/-- A red focus exits the deletion fix-up loop immediately: it is
blackened in place. -/
theorem fixDel_red (x : RBN) (path : RPath) (hx : rootCol x = Col.red) :
    fixDel x path = some (zipR (blacken x) path) := by
  cases path with
  | root =>
    rw [fixDel.eq_def]
    cases x with
    | nil => simp at hx
    | node c l k r => rfl
  | left pc pk w rest =>
    rw [fixDel.eq_def]
    simp [hx]
  | right pc w pk rest =>
    rw [fixDel.eq_def]
    simp [hx]

/-- The deletion fix-up never crashes and repairs the one-short black
height: if the focus is balanced at height `n` and the context expects
`n + 1`, the fix-up returns a balanced black-rooted tree. -/
theorem fixDel_spec : ∀ (x : RBN) (path : RPath) {cx : Col} {n : Nat} {cp : Col},
    Bal x cx n → PB path cp (n + 1) →
    ∃ t, fixDel x path = some t ∧ ∃ m, Bal t Col.black m := by
  intro x path
  induction x, path using fixDel.induct with
  | case1 x =>
    intro cx n cp hB hP
    have he : fixDel x RPath.root = some (blacken x) := by rw [fixDel.eq_def]
    exact ⟨_, he, bal_blacken hB⟩
  | case2 x pc pk w rest hx =>
    intro cx n cp hB hP
    cases hB with
    | nil => simp at hx
    | red hl hr =>
      obtain ⟨m, hm⟩ := zip_good_black hP (Bal.black hl hr)
        (fun _ => rfl) (fun h => nomatch h)
      exact ⟨_, fixDel_red _ _ hx, m, hm⟩
    | black hl hr => simp at hx
  | case3 x pc pk rest hxn =>
    intro cx n cp hB hP
    cases hP with
    | leftB hrest hsib => have := (bal_nil_inv hsib).2; omega
    | leftR hrest hnr hsib => have := (bal_nil_inv hsib).2; omega
  | case4 x pc pk rest hxn wl wk wr ih =>
    intro cx n cp hB hP
    cases hP with
    | leftB hrest hsib =>
      cases hsib with
      | red hwl hwr =>
        have he : fixDel x (.left Col.black pk (node Col.red wl wk wr) rest) =
            fixDel x (.left Col.red pk wl (.left Col.black wk wr rest)) := by
          rw [fixDel.eq_def]
          simp [hxn]
        obtain ⟨t, ht, hm⟩ := ih hB
          (PB.leftR (k := pk) (PB.leftB (k := wk) hrest hwr)
            (fun h => nomatch h) hwl)
        exact ⟨t, he ▸ ht, hm⟩
    | leftR hrest hnr hsib => cases hsib
  | case5 x pc pk rest hxn wl wk wr hbb ih =>
    intro cx n cp hB hP
    cases hP with
    | leftB hrest hsib =>
      cases hsib with
      | @black _ _ _ _ cw1 cw2 hwl hwr =>
        have e1 : cw1 = Col.black := (bal_rootCol hwl).symm.trans hbb.1
        have e2 : cw2 = Col.black := (bal_rootCol hwr).symm.trans hbb.2
        subst e1; subst e2
        have he : fixDel x (.left Col.black pk (node Col.black wl wk wr) rest) =
            fixDel (node Col.black x pk (node Col.red wl wk wr)) rest := by
          rw [fixDel.eq_def]
          simp [hxn, hbb]
        obtain ⟨t, ht, hm⟩ := ih (Bal.black hB (Bal.red hwl hwr)) hrest
        exact ⟨t, he ▸ ht, hm⟩
    | leftR hrest hnr hsib =>
      cases hsib with
      | @black _ _ _ _ cw1 cw2 hwl hwr =>
        have e1 : cw1 = Col.black := (bal_rootCol hwl).symm.trans hbb.1
        have e2 : cw2 = Col.black := (bal_rootCol hwr).symm.trans hbb.2
        subst e1; subst e2
        have he : fixDel x (.left Col.red pk (node Col.black wl wk wr) rest) =
            fixDel (node Col.red x pk (node Col.red wl wk wr)) rest := by
          rw [fixDel.eq_def]
          simp [hxn, hbb]
        have he2 := fixDel_red (node Col.red x pk (node Col.red wl wk wr)) rest rfl
        obtain ⟨m, hm⟩ := zip_good_black hrest
          (Bal.black hB (Bal.red hwl hwr)) (fun h => nomatch h)
          (fun h => absurd h hnr)
        exact ⟨_, (he.trans he2), m, hm⟩
  | case6 x pc pk rest hxn wk wr hwrb yl yk yr hnbb =>
    intro cx n cp hB hP
    cases hP with
    | leftB hrest hsib =>
      cases hsib with
      | @black _ _ _ _ cw1 cw2 hwl hwr =>
        cases hwl with
        | red hyl hyr =>
          have he : fixDel x
              (.left Col.black pk (node Col.black (node Col.red yl yk yr) wk wr) rest) =
              some (blacken (zipR
                (node Col.black (node Col.black x pk yl) yk (node Col.black yr wk wr))
                rest)) := by
            rw [fixDel.eq_def]
            simp [hxn, hwrb]
          obtain ⟨m, hm⟩ := zip_good_black hrest
            (Bal.black (Bal.black hB hyl) (Bal.black hyr hwr))
            (fun _ => rfl) (fun _ => rfl)
          obtain ⟨m2, hm2⟩ := bal_blacken hm
          exact ⟨_, he, m2, hm2⟩
    | leftR hrest hnr hsib =>
      cases hsib with
      | @black _ _ _ _ cw1 cw2 hwl hwr =>
        cases hwl with
        | red hyl hyr =>
          have he : fixDel x
              (.left Col.red pk (node Col.black (node Col.red yl yk yr) wk wr) rest) =
              some (blacken (zipR
                (node Col.red (node Col.black x pk yl) yk (node Col.black yr wk wr))
                rest)) := by
            rw [fixDel.eq_def]
            simp [hxn, hwrb]
          obtain ⟨m, hm⟩ := zip_good_black hrest
            (Bal.red (Bal.black hB hyl) (Bal.black hyr hwr))
            (fun h => nomatch h) (fun h => absurd h hnr)
          obtain ⟨m2, hm2⟩ := bal_blacken hm
          exact ⟨_, he, m2, hm2⟩
  | case7 x pc pk rest hxn wl wk wr hnbb hwrb hns =>
    intro cx n cp hB hP
    have hsib : ∃ cs, Bal (node Col.black wl wk wr) cs (n + 1) := by
      cases hP with
      | leftB hrest hsib => exact ⟨_, hsib⟩
      | leftR hrest hnr hsib => exact ⟨_, hsib⟩
    obtain ⟨cs, hs⟩ := hsib
    cases hs with
    | @black _ _ _ _ cw1 cw2 hwl hwr =>
      cases hwl with
      | nil => exact absurd ⟨rfl, hwrb⟩ hnbb
      | red hyl hyr => exact (hns _ _ _ rfl).elim
      | black h1 h2 => exact absurd ⟨rfl, hwrb⟩ hnbb
  | case8 x pc pk rest hxn wl wk wr hnbb hwrn =>
    intro cx n cp hB hP
    cases hP with
    | leftB hrest hsib =>
      cases hsib with
      | @black _ _ _ _ cw1 cw2 hwl hwr =>
        have e2 : cw2 = Col.red := by
          cases cw2 with
          | red => rfl
          | black => exact absurd (bal_rootCol hwr) hwrn
        subst e2
        cases hwr with
        | @red wrl wrr wrk _ hwrl hwrr =>
          have he : fixDel x
              (.left Col.black pk (node Col.black wl wk (node Col.red wrl wrk wrr)) rest) =
              some (blacken (zipR
                (node Col.black (node Col.black x pk wl) wk
                  (node Col.black wrl wrk wrr)) rest)) := by
            rw [fixDel.eq_def]
            simp [hxn]
          obtain ⟨m, hm⟩ := zip_good_black hrest
            (Bal.black (Bal.black hB hwl) (Bal.black hwrl hwrr))
            (fun _ => rfl) (fun _ => rfl)
          obtain ⟨m2, hm2⟩ := bal_blacken hm
          exact ⟨_, he, m2, hm2⟩
    | leftR hrest hnr hsib =>
      cases hsib with
      | @black _ _ _ _ cw1 cw2 hwl hwr =>
        have e2 : cw2 = Col.red := by
          cases cw2 with
          | red => rfl
          | black => exact absurd (bal_rootCol hwr) hwrn
        subst e2
        cases hwr with
        | @red wrl wrr wrk _ hwrl hwrr =>
          have he : fixDel x
              (.left Col.red pk (node Col.black wl wk (node Col.red wrl wrk wrr)) rest) =
              some (blacken (zipR
                (node Col.red (node Col.black x pk wl) wk
                  (node Col.black wrl wrk wrr)) rest)) := by
            rw [fixDel.eq_def]
            simp [hxn]
          obtain ⟨m, hm⟩ := zip_good_black hrest
            (Bal.red (Bal.black hB hwl) (Bal.black hwrl hwrr))
            (fun h => nomatch h) (fun h => absurd h hnr)
          obtain ⟨m2, hm2⟩ := bal_blacken hm
          exact ⟨_, he, m2, hm2⟩
  | case9 x pc w pk rest hx =>
    intro cx n cp hB hP
    cases hB with
    | nil => simp at hx
    | red hl hr =>
      obtain ⟨m, hm⟩ := zip_good_black hP (Bal.black hl hr)
        (fun _ => rfl) (fun h => nomatch h)
      exact ⟨_, fixDel_red _ _ hx, m, hm⟩
    | black hl hr => simp at hx
  | case10 x pc pk rest hxn =>
    intro cx n cp hB hP
    cases hP with
    | rightB hrest hsib => have := (bal_nil_inv hsib).2; omega
    | rightR hrest hnr hsib => have := (bal_nil_inv hsib).2; omega
  | case11 x pc pk rest hxn wl wk wr ih =>
    intro cx n cp hB hP
    cases hP with
    | rightB hrest hsib =>
      cases hsib with
      | red hwl hwr =>
        have he : fixDel x (.right Col.black (node Col.red wl wk wr) pk rest) =
            fixDel x (.right Col.red wr pk (.right Col.black wl wk rest)) := by
          rw [fixDel.eq_def]
          simp [hxn]
        obtain ⟨t, ht, hm⟩ := ih hB
          (PB.rightR (k := pk) (PB.rightB (k := wk) hrest hwl)
            (fun h => nomatch h) hwr)
        exact ⟨t, he ▸ ht, hm⟩
    | rightR hrest hnr hsib => cases hsib
  | case12 x pc pk rest hxn wl wk wr hbb ih =>
    intro cx n cp hB hP
    cases hP with
    | rightB hrest hsib =>
      cases hsib with
      | @black _ _ _ _ cw1 cw2 hwl hwr =>
        have e1 : cw1 = Col.black := (bal_rootCol hwl).symm.trans hbb.1
        have e2 : cw2 = Col.black := (bal_rootCol hwr).symm.trans hbb.2
        subst e1; subst e2
        have he : fixDel x (.right Col.black (node Col.black wl wk wr) pk rest) =
            fixDel (node Col.black (node Col.red wl wk wr) pk x) rest := by
          rw [fixDel.eq_def]
          simp [hxn, hbb]
        obtain ⟨t, ht, hm⟩ := ih (Bal.black (Bal.red hwl hwr) hB) hrest
        exact ⟨t, he ▸ ht, hm⟩
    | rightR hrest hnr hsib =>
      cases hsib with
      | @black _ _ _ _ cw1 cw2 hwl hwr =>
        have e1 : cw1 = Col.black := (bal_rootCol hwl).symm.trans hbb.1
        have e2 : cw2 = Col.black := (bal_rootCol hwr).symm.trans hbb.2
        subst e1; subst e2
        have he : fixDel x (.right Col.red (node Col.black wl wk wr) pk rest) =
            fixDel (node Col.red (node Col.red wl wk wr) pk x) rest := by
          rw [fixDel.eq_def]
          simp [hxn, hbb]
        have he2 := fixDel_red (node Col.red (node Col.red wl wk wr) pk x) rest rfl
        obtain ⟨m, hm⟩ := zip_good_black hrest
          (Bal.black (Bal.red hwl hwr) hB) (fun h => nomatch h)
          (fun h => absurd h hnr)
        exact ⟨_, (he.trans he2), m, hm⟩
  | case13 x pc pk rest hxn wl wk hwlb yl yk yr hnbb =>
    intro cx n cp hB hP
    cases hP with
    | rightB hrest hsib =>
      cases hsib with
      | @black _ _ _ _ cw1 cw2 hwl hwr =>
        cases hwr with
        | red hyl hyr =>
          have he : fixDel x
              (.right Col.black (node Col.black wl wk (node Col.red yl yk yr)) pk rest) =
              some (blacken (zipR
                (node Col.black (node Col.black wl wk yl) yk (node Col.black yr pk x))
                rest)) := by
            rw [fixDel.eq_def]
            simp [hxn, hwlb]
          obtain ⟨m, hm⟩ := zip_good_black hrest
            (Bal.black (Bal.black hwl hyl) (Bal.black hyr hB))
            (fun _ => rfl) (fun _ => rfl)
          obtain ⟨m2, hm2⟩ := bal_blacken hm
          exact ⟨_, he, m2, hm2⟩
    | rightR hrest hnr hsib =>
      cases hsib with
      | @black _ _ _ _ cw1 cw2 hwl hwr =>
        cases hwr with
        | red hyl hyr =>
          have he : fixDel x
              (.right Col.red (node Col.black wl wk (node Col.red yl yk yr)) pk rest) =
              some (blacken (zipR
                (node Col.red (node Col.black wl wk yl) yk (node Col.black yr pk x))
                rest)) := by
            rw [fixDel.eq_def]
            simp [hxn, hwlb]
          obtain ⟨m, hm⟩ := zip_good_black hrest
            (Bal.red (Bal.black hwl hyl) (Bal.black hyr hB))
            (fun h => nomatch h) (fun h => absurd h hnr)
          obtain ⟨m2, hm2⟩ := bal_blacken hm
          exact ⟨_, he, m2, hm2⟩
  | case14 x pc pk rest hxn wl wk wr hnbb hwlb hns =>
    intro cx n cp hB hP
    have hsib : ∃ cs, Bal (node Col.black wl wk wr) cs (n + 1) := by
      cases hP with
      | rightB hrest hsib => exact ⟨_, hsib⟩
      | rightR hrest hnr hsib => exact ⟨_, hsib⟩
    obtain ⟨cs, hs⟩ := hsib
    cases hs with
    | @black _ _ _ _ cw1 cw2 hwl hwr =>
      cases hwr with
      | nil => exact absurd ⟨hwlb, rfl⟩ hnbb
      | red hyl hyr => exact (hns _ _ _ rfl).elim
      | black h1 h2 => exact absurd ⟨hwlb, rfl⟩ hnbb
  | case15 x pc pk rest hxn wl wk wr hnbb hwln =>
    intro cx n cp hB hP
    cases hP with
    | rightB hrest hsib =>
      cases hsib with
      | @black _ _ _ _ cw1 cw2 hwl hwr =>
        have e1 : cw1 = Col.red := by
          cases cw1 with
          | red => rfl
          | black => exact absurd (bal_rootCol hwl) hwln
        subst e1
        cases hwl with
        | @red wll wlr wlk _ hwll hwlr =>
          have he : fixDel x
              (.right Col.black (node Col.black (node Col.red wll wlk wlr) wk wr) pk rest) =
              some (blacken (zipR
                (node Col.black (node Col.black wll wlk wlr) wk
                  (node Col.black wr pk x)) rest)) := by
            rw [fixDel.eq_def]
            simp [hxn]
          obtain ⟨m, hm⟩ := zip_good_black hrest
            (Bal.black (Bal.black hwll hwlr) (Bal.black hwr hB))
            (fun _ => rfl) (fun _ => rfl)
          obtain ⟨m2, hm2⟩ := bal_blacken hm
          exact ⟨_, he, m2, hm2⟩
    | rightR hrest hnr hsib =>
      cases hsib with
      | @black _ _ _ _ cw1 cw2 hwl hwr =>
        have e1 : cw1 = Col.red := by
          cases cw1 with
          | red => rfl
          | black => exact absurd (bal_rootCol hwl) hwln
        subst e1
        cases hwl with
        | @red wll wlr wlk _ hwll hwlr =>
          have he : fixDel x
              (.right Col.red (node Col.black (node Col.red wll wlk wlr) wk wr) pk rest) =
              some (blacken (zipR
                (node Col.red (node Col.black wll wlk wlr) wk
                  (node Col.black wr pk x)) rest)) := by
            rw [fixDel.eq_def]
            simp [hxn]
          obtain ⟨m, hm⟩ := zip_good_black hrest
            (Bal.red (Bal.black hwll hwlr) (Bal.black hwr hB))
            (fun h => nomatch h) (fun h => absurd h hnr)
          obtain ⟨m2, hm2⟩ := bal_blacken hm
          exact ⟨_, he, m2, hm2⟩

/-- `RBTree.delete` from a balanced black-rooted tree succeeds and yields
a balanced black-rooted tree. -/
theorem deleteR_good (t : RBN) (k : Int) {n : Nat} (hB : Bal t Col.black n) :
    ∃ t2, deleteR t k = some t2 ∧ ∃ m, Bal t2 Col.black m := by
  cases he : delDesc t k RPath.root with
  | none =>
    refine ⟨t, ?_, n, hB⟩
    simp [deleteR, he]
  | some q =>
    obtain ⟨zc, zl, zk, zr, p2⟩ := q
    obtain ⟨cp2, n2, hP2, hZ, hc2, hcr2⟩ := delDesc_spec t k RPath.root hB PB.root
      (fun h => nomatch h) (fun h => nomatch h) he
    cases zl with
    | nil =>
      cases hZ with
      | red hl hr =>
        obtain ⟨-, rfl⟩ := bal_nil_inv hl
        obtain ⟨m, hm⟩ := zip_good_black hP2 hr (fun _ => rfl) (fun _ => rfl)
        refine ⟨_, ?_, m, hm⟩
        simp [deleteR, he]
      | black hl hr =>
        obtain ⟨-, rfl⟩ := bal_nil_inv hl
        obtain ⟨t2, ht2, hm⟩ := fixDel_spec zr p2 hr hP2
        refine ⟨t2, ?_, hm⟩
        simp [deleteR, he, ht2]
    | node lc ll lk0 lr =>
      cases zr with
      | nil =>
        cases hZ with
        | red hl hr =>
          obtain ⟨-, rfl⟩ := bal_nil_inv hr
          exact (nomatch bal_black_zero hl)
        | black hl hr =>
          obtain ⟨-, rfl⟩ := bal_nil_inv hr
          obtain ⟨t2, ht2, hm⟩ := fixDel_spec (node lc ll lk0 lr) p2 hl hP2
          refine ⟨t2, ?_, hm⟩
          simp [deleteR, he, ht2]
      | node rc rl rk0 rr =>
        cases hZ with
        | red hl hr =>
          have hcp : cp2 = Col.black := by
            cases cp2 with
            | red => exact hc2 rfl
            | black => rfl
          subst hcp
          obtain ⟨cpf, cx, hPf, hYr, hycRed, hfne⟩ :=
            minSpine_spec (node rc rl rk0 rr) hr (fun h => nomatch h)
              (PB.rightR (k := (minSpine (node rc rl rk0 rr)).2.1)
                hP2 (hcr2 rfl) hl)
              (fun _ => rfl) (fun h => nomatch h)
          cases hyc : (minSpine (node rc rl rk0 rr)).1 with
          | black =>
            rw [hyc] at hPf
            simp only [if_pos rfl] at hPf
            obtain ⟨t2, ht2, hm⟩ := fixDel_spec _ _ hYr hPf
            refine ⟨t2, ?_, hm⟩
            simp [deleteR, he, hyc, ht2]
          | red =>
            rw [hyc] at hPf
            simp only [if_neg (by simp : ¬ Col.red = Col.black)] at hPf
            obtain ⟨m, hm⟩ := zip_good_black hPf hYr
              (fun _ => hycRed hyc) (fun h => absurd h hfne)
            refine ⟨_, ?_, m, hm⟩
            simp [deleteR, he, hyc]
        | black hl hr =>
          obtain ⟨cpf, cx, hPf, hYr, hycRed, hfne⟩ :=
            minSpine_spec (node rc rl rk0 rr) hr (fun h => nomatch h)
              (PB.rightB (k := (minSpine (node rc rl rk0 rr)).2.1)
                hP2 hl)
              (fun h => nomatch h) (fun h => nomatch h)
          cases hyc : (minSpine (node rc rl rk0 rr)).1 with
          | black =>
            rw [hyc] at hPf
            simp only [if_pos rfl] at hPf
            obtain ⟨t2, ht2, hm⟩ := fixDel_spec _ _ hYr hPf
            refine ⟨t2, ?_, hm⟩
            simp [deleteR, he, hyc, ht2]
          | red =>
            rw [hyc] at hPf
            simp only [if_neg (by simp : ¬ Col.red = Col.black)] at hPf
            obtain ⟨m, hm⟩ := zip_good_black hPf hYr
              (fun _ => hycRed hyc) (fun h => absurd h hfne)
            refine ⟨_, ?_, m, hm⟩
            simp [deleteR, he, hyc]

theorem stepR_good {t : RBN} {n : Nat} (hB : Bal t Col.black n) (op : ROp) :
    ∃ t2, stepR (some t) op = some t2 ∧ ∃ m, Bal t2 Col.black m := by
  cases op with
  | ins k =>
    obtain ⟨t2, ht2, hm⟩ := insertR_good t k hB
    exact ⟨t2, by simpa [stepR] using ht2, hm⟩
  | del k =>
    obtain ⟨t2, ht2, hm⟩ := deleteR_good t k hB
    exact ⟨t2, by simpa [stepR] using ht2, hm⟩

theorem foldlR_good : ∀ (ops : List ROp) (t : RBN), (∃ n, Bal t Col.black n) →
    ∃ t2, ops.foldl stepR (some t) = some t2 ∧ ∃ m, Bal t2 Col.black m := by
  intro ops
  induction ops with
  | nil =>
    intro t h
    exact ⟨t, rfl, h⟩
  | cons op rest ih =>
    intro t h
    obtain ⟨n, hB⟩ := h
    obtain ⟨t2, ht2, hm⟩ := stepR_good hB op
    rw [List.foldl_cons, ht2]
    exact ih t2 hm

/-- Every operation sequence from the empty tree runs without crashing and
keeps the tree balanced. -/
theorem runR_good (ops : List ROp) :
    ∃ t, runR ops = some t ∧ ∃ m, Bal t Col.black m :=
  foldlR_good ops nil ⟨0, Bal.nil⟩

/-! ### In-order traversal through the zipper -/

/-- Keys appearing to the left of the hole. -/
def leftC : RPath → List Int
  | .root => []
  | .left _ _ _ p => leftC p
  | .right _ sib k p => leftC p ++ inorderR sib ++ [k]

/-- Keys appearing to the right of the hole. -/
def rightC : RPath → List Int
  | .root => []
  | .left _ k sib p => k :: inorderR sib ++ rightC p
  | .right _ _ _ p => rightC p

@[simp] theorem leftC_root : leftC .root = [] := rfl

@[simp] theorem leftC_left (c : Col) (k : Int) (sib : RBN) (p : RPath) :
    leftC (.left c k sib p) = leftC p := rfl

@[simp] theorem leftC_right (c : Col) (sib : RBN) (k : Int) (p : RPath) :
    leftC (.right c sib k p) = leftC p ++ inorderR sib ++ [k] := rfl

@[simp] theorem rightC_root : rightC .root = [] := rfl

@[simp] theorem rightC_left (c : Col) (k : Int) (sib : RBN) (p : RPath) :
    rightC (.left c k sib p) = k :: inorderR sib ++ rightC p := rfl

@[simp] theorem rightC_right (c : Col) (sib : RBN) (k : Int) (p : RPath) :
    rightC (.right c sib k p) = rightC p := rfl

theorem inorder_zip : ∀ (p : RPath) (t : RBN),
    inorderR (zipR t p) = leftC p ++ inorderR t ++ rightC p := by
  intro p
  induction p with
  | root => intro t; simp
  | left c k sib p ih => intro t; simp [ih]
  | right c sib k p ih => intro t; simp [ih]

@[simp] theorem inorder_blacken (t : RBN) : inorderR (blacken t) = inorderR t := by
  cases t <;> simp

/-- Sorted insertion of a key into a list, matching where the BST descent
puts a new key (duplicates left alone). -/
def kins (k : Int) : List Int → List Int
  | [] => [k]
  | x :: xs => if k < x then k :: x :: xs else if x < k then x :: kins k xs else x :: xs

theorem kins_append_lt {k k0 : Int} (hk : k < k0) :
    ∀ (A B : List Int), kins k (A ++ k0 :: B) = kins k A ++ k0 :: B := by
  intro A B
  induction A with
  | nil => simp [kins, hk]
  | cons a A ih =>
    by_cases h1 : k < a
    · simp [kins, h1]
    · by_cases h2 : a < k
      · simp [kins, h1, h2, ih]
      · simp [kins, h1, h2]

theorem kins_append_ge {k : Int} :
    ∀ (A B : List Int), (∀ a ∈ A, a < k) → kins k (A ++ B) = A ++ kins k B := by
  intro A B hA
  induction A with
  | nil => simp
  | cons a A ih =>
    have ha : a < k := hA a (by simp)
    simp [kins, show ¬ k < a by omega, ha]
    exact ih (fun x hx => hA x (by simp [hx]))

theorem mem_kins (x k : Int) : ∀ (l : List Int), x ∈ kins k l ↔ x = k ∨ x ∈ l := by
  intro l
  induction l with
  | nil => simp [kins]
  | cons a l ih =>
    by_cases h1 : k < a
    · simp [kins, h1] <;> tauto
    · by_cases h2 : a < k
      · simp [kins, h1, h2, ih] <;> tauto
      · have h3 : a = k := by omega
        simp [kins, h1, h2, h3] <;> tauto

theorem kins_sorted {k : Int} :
    ∀ {l : List Int}, l.Sorted (· < ·) → (kins k l).Sorted (· < ·) := by
  intro l
  induction l with
  | nil =>
    intro _
    simp [kins]
  | cons a l ih =>
    intro hs
    rw [List.sorted_cons] at hs
    by_cases h1 : k < a
    · simp only [kins, if_pos h1]
      rw [List.sorted_cons]
      constructor
      · intro b hb
        rcases List.mem_cons.mp hb with rfl | hb
        · exact h1
        · exact lt_trans h1 (hs.1 b hb)
      · rw [List.sorted_cons]
        exact hs
    · by_cases h2 : a < k
      · simp only [kins, if_neg h1, if_pos h2]
        rw [List.sorted_cons]
        refine ⟨?_, ih hs.2⟩
        intro b hb
        rcases (mem_kins b k l).mp hb with rfl | hb
        · exact h2
        · exact hs.1 b hb
      · simp only [kins, if_neg h1, if_neg h2]
        rw [List.sorted_cons]
        exact hs

/-- The insertion fix-up only recolors and rotates: the in-order key
sequence of the whole (zipped) tree is unchanged. -/
theorem fixIns_inorder : ∀ (z : RBN) (path : RPath) {t : RBN},
    fixIns z path = some t →
    inorderR t = leftC path ++ inorderR z ++ rightC path := by
  intro z path
  induction z, path using fixIns.induct with
  | case1 z =>
    intro t he
    have hu : fixIns z RPath.root = some (blacken z) := by rw [fixIns.eq_def]
    rw [hu] at he
    injection he with he
    subst he
    simp
  | case2 z pk psib rest =>
    intro t he
    have hu : fixIns z (.left Col.black pk psib rest) =
        some (blacken (zipR z (.left Col.black pk psib rest))) := by
      rw [fixIns.eq_def]
    rw [hu] at he
    injection he with he
    subst he
    simp [inorder_zip]
  | case3 z psib pk rest =>
    intro t he
    have hu : fixIns z (.right Col.black psib pk rest) =
        some (blacken (zipR z (.right Col.black psib pk rest))) := by
      rw [fixIns.eq_def]
    rw [hu] at he
    injection he with he
    subst he
    simp [inorder_zip]
  | case4 z pk psib =>
    intro t he
    have hu : fixIns z (.left Col.red pk psib RPath.root) = none := by
      rw [fixIns.eq_def]
    rw [hu] at he
    exact (nomatch he)
  | case5 z pk psib gc gk rest yl yk yr ih =>
    intro t he
    have hu : fixIns z (.left Col.red pk psib
          (.left gc gk (node Col.red yl yk yr) rest)) =
        fixIns (node Col.red (node Col.black z pk psib) gk
          (node Col.black yl yk yr)) rest := by
      rw [fixIns.eq_def]
    rw [hu] at he
    rw [ih he]
    simp
  | case6 z pk psib gc gk rest gsib hns ih =>
    intro t he
    cases gsib with
    | nil =>
      have hu : fixIns z (.left Col.red pk psib (.left gc gk nil rest)) =
          fixIns z (.left Col.black pk (node Col.red psib gk nil) rest) := by
        rw [fixIns.eq_def]
      rw [hu] at he
      rw [ih he]
      simp
    | node c2 l2 k2 r2 =>
      cases c2 with
      | red => exact (hns _ _ _ rfl).elim
      | black =>
        have hu : fixIns z (.left Col.red pk psib
              (.left gc gk (node Col.black l2 k2 r2) rest)) =
            fixIns z (.left Col.black pk
              (node Col.red psib gk (node Col.black l2 k2 r2)) rest) := by
          rw [fixIns.eq_def]
        rw [hu] at he
        rw [ih he]
        simp
  | case7 z pk psib gc gk rest yl yk yr ih =>
    intro t he
    have hu : fixIns z (.left Col.red pk psib
          (.right gc (node Col.red yl yk yr) gk rest)) =
        fixIns (node Col.red (node Col.black yl yk yr) gk
          (node Col.black z pk psib)) rest := by
      rw [fixIns.eq_def]
    rw [hu] at he
    rw [ih he]
    simp
  | case8 pk psib gc gk rest gsib hns zc zl zk zr ih =>
    intro t he
    cases gsib with
    | nil =>
      have hu : fixIns (node zc zl zk zr)
            (.left Col.red pk psib (.right gc nil gk rest)) =
          fixIns (node Col.red zr pk psib)
            (.right Col.black (node Col.red nil gk zl) zk rest) := by
        rw [fixIns.eq_def]
      rw [hu] at he
      rw [ih he]
      simp
    | node c2 l2 k2 r2 =>
      cases c2 with
      | red => exact (hns _ _ _ rfl).elim
      | black =>
        have hu : fixIns (node zc zl zk zr)
              (.left Col.red pk psib (.right gc (node Col.black l2 k2 r2) gk rest)) =
            fixIns (node Col.red zr pk psib)
              (.right Col.black (node Col.red (node Col.black l2 k2 r2) gk zl) zk rest) := by
          rw [fixIns.eq_def]
        rw [hu] at he
        rw [ih he]
        simp
  | case9 pk psib gc gk rest gsib hns =>
    intro t he
    cases gsib with
    | nil =>
      have hu : fixIns nil (.left Col.red pk psib (.right gc nil gk rest)) = none := by
        rw [fixIns.eq_def]
      rw [hu] at he
      exact (nomatch he)
    | node c2 l2 k2 r2 =>
      cases c2 with
      | red => exact (hns _ _ _ rfl).elim
      | black =>
        have hu : fixIns nil (.left Col.red pk psib
            (.right gc (node Col.black l2 k2 r2) gk rest)) = none := by
          rw [fixIns.eq_def]
        rw [hu] at he
        exact (nomatch he)
  | case10 z psib pk =>
    intro t he
    have hu : fixIns z (.right Col.red psib pk RPath.root) = none := by
      rw [fixIns.eq_def]
    rw [hu] at he
    exact (nomatch he)
  | case11 z psib pk gc gk rest yl yk yr ih =>
    intro t he
    have hu : fixIns z (.right Col.red psib pk
          (.left gc gk (node Col.red yl yk yr) rest)) =
        fixIns (node Col.red (node Col.black psib pk z) gk
          (node Col.black yl yk yr)) rest := by
      rw [fixIns.eq_def]
    rw [hu] at he
    rw [ih he]
    simp
  | case12 psib pk gc gk rest gsib hns zc zl zk zr ih =>
    intro t he
    cases gsib with
    | nil =>
      have hu : fixIns (node zc zl zk zr)
            (.right Col.red psib pk (.left gc gk nil rest)) =
          fixIns (node Col.red psib pk zl)
            (.left Col.black zk (node Col.red zr gk nil) rest) := by
        rw [fixIns.eq_def]
      rw [hu] at he
      rw [ih he]
      simp
    | node c2 l2 k2 r2 =>
      cases c2 with
      | red => exact (hns _ _ _ rfl).elim
      | black =>
        have hu : fixIns (node zc zl zk zr)
              (.right Col.red psib pk (.left gc gk (node Col.black l2 k2 r2) rest)) =
            fixIns (node Col.red psib pk zl)
              (.left Col.black zk (node Col.red zr gk (node Col.black l2 k2 r2)) rest) := by
          rw [fixIns.eq_def]
        rw [hu] at he
        rw [ih he]
        simp
  | case13 psib pk gc gk rest gsib hns =>
    intro t he
    cases gsib with
    | nil =>
      have hu : fixIns nil (.right Col.red psib pk (.left gc gk nil rest)) = none := by
        rw [fixIns.eq_def]
      rw [hu] at he
      exact (nomatch he)
    | node c2 l2 k2 r2 =>
      cases c2 with
      | red => exact (hns _ _ _ rfl).elim
      | black =>
        have hu : fixIns nil (.right Col.red psib pk
            (.left gc gk (node Col.black l2 k2 r2) rest)) = none := by
          rw [fixIns.eq_def]
        rw [hu] at he
        exact (nomatch he)
  | case14 z psib pk gc gk rest yl yk yr ih =>
    intro t he
    have hu : fixIns z (.right Col.red psib pk
          (.right gc (node Col.red yl yk yr) gk rest)) =
        fixIns (node Col.red (node Col.black yl yk yr) gk
          (node Col.black psib pk z)) rest := by
      rw [fixIns.eq_def]
    rw [hu] at he
    rw [ih he]
    simp
  | case15 z psib pk gc gk rest gsib hns ih =>
    intro t he
    cases gsib with
    | nil =>
      have hu : fixIns z (.right Col.red psib pk (.right gc nil gk rest)) =
          fixIns z (.right Col.black (node Col.red nil gk psib) pk rest) := by
        rw [fixIns.eq_def]
      rw [hu] at he
      rw [ih he]
      simp
    | node c2 l2 k2 r2 =>
      cases c2 with
      | red => exact (hns _ _ _ rfl).elim
      | black =>
        have hu : fixIns z (.right Col.red psib pk
              (.right gc (node Col.black l2 k2 r2) gk rest)) =
            fixIns z (.right Col.black
              (node Col.red (node Col.black l2 k2 r2) gk psib) pk rest) := by
          rw [fixIns.eq_def]
        rw [hu] at he
        rw [ih he]
        simp

/-- The deletion fix-up only recolors and rotates: the in-order key
sequence of the whole (zipped) tree is unchanged. -/
theorem fixDel_inorder : ∀ (x : RBN) (path : RPath) {t : RBN},
    fixDel x path = some t →
    inorderR t = leftC path ++ inorderR x ++ rightC path := by
  intro x path
  induction x, path using fixDel.induct with
  | case1 x =>
    intro t he
    have hu : fixDel x RPath.root = some (blacken x) := by rw [fixDel.eq_def]
    rw [hu] at he
    injection he with he
    subst he
    simp
  | case2 x pc pk w rest hx =>
    intro t he
    rw [fixDel_red x _ hx] at he
    injection he with he
    subst he
    simp [inorder_zip]
  | case3 x pc pk rest hxn =>
    intro t he
    have hu : fixDel x (.left pc pk nil rest) = none := by
      rw [fixDel.eq_def]
      simp [hxn]
    rw [hu] at he
    exact (nomatch he)
  | case4 x pc pk rest hxn wl wk wr ih =>
    intro t he
    have hu : fixDel x (.left pc pk (node Col.red wl wk wr) rest) =
        fixDel x (.left Col.red pk wl (.left Col.black wk wr rest)) := by
      rw [fixDel.eq_def]
      simp [hxn]
    rw [hu] at he
    rw [ih he]
    simp
  | case5 x pc pk rest hxn wl wk wr hbb ih =>
    intro t he
    have hu : fixDel x (.left pc pk (node Col.black wl wk wr) rest) =
        fixDel (node pc x pk (node Col.red wl wk wr)) rest := by
      rw [fixDel.eq_def]
      simp [hxn, hbb]
    rw [hu] at he
    rw [ih he]
    simp
  | case6 x pc pk rest hxn wk wr hwrb yl yk yr hnbb =>
    intro t he
    have hu : fixDel x
        (.left pc pk (node Col.black (node Col.red yl yk yr) wk wr) rest) =
        some (blacken (zipR
          (node pc (node Col.black x pk yl) yk (node Col.black yr wk wr)) rest)) := by
      rw [fixDel.eq_def]
      simp [hxn, hwrb]
    rw [hu] at he
    injection he with he
    subst he
    simp [inorder_zip]
  | case7 x pc pk rest hxn wl wk wr hnbb hwrb hns =>
    intro t he
    cases wl with
    | nil => exact absurd ⟨rfl, hwrb⟩ hnbb
    | node c2 l2 k2 r2 =>
      cases c2 with
      | red => exact (hns _ _ _ rfl).elim
      | black => exact absurd ⟨rfl, hwrb⟩ hnbb
  | case8 x pc pk rest hxn wl wk wr hnbb hwrn =>
    intro t he
    have hu : fixDel x (.left pc pk (node Col.black wl wk wr) rest) =
        some (blacken (zipR
          (node pc (node Col.black x pk wl) wk (blacken wr)) rest)) := by
      rw [fixDel.eq_def]
      simp [hxn, hnbb, hwrn]
    rw [hu] at he
    injection he with he
    subst he
    simp [inorder_zip]
  | case9 x pc w pk rest hx =>
    intro t he
    rw [fixDel_red x _ hx] at he
    injection he with he
    subst he
    simp [inorder_zip]
  | case10 x pc pk rest hxn =>
    intro t he
    have hu : fixDel x (.right pc nil pk rest) = none := by
      rw [fixDel.eq_def]
      simp [hxn]
    rw [hu] at he
    exact (nomatch he)
  | case11 x pc pk rest hxn wl wk wr ih =>
    intro t he
    have hu : fixDel x (.right pc (node Col.red wl wk wr) pk rest) =
        fixDel x (.right Col.red wr pk (.right Col.black wl wk rest)) := by
      rw [fixDel.eq_def]
      simp [hxn]
    rw [hu] at he
    rw [ih he]
    simp
  | case12 x pc pk rest hxn wl wk wr hbb ih =>
    intro t he
    have hu : fixDel x (.right pc (node Col.black wl wk wr) pk rest) =
        fixDel (node pc (node Col.red wl wk wr) pk x) rest := by
      rw [fixDel.eq_def]
      simp [hxn, hbb]
    rw [hu] at he
    rw [ih he]
    simp
  | case13 x pc pk rest hxn wl wk hwlb yl yk yr hnbb =>
    intro t he
    have hu : fixDel x
        (.right pc (node Col.black wl wk (node Col.red yl yk yr)) pk rest) =
        some (blacken (zipR
          (node pc (node Col.black wl wk yl) yk (node Col.black yr pk x)) rest)) := by
      rw [fixDel.eq_def]
      simp [hxn, hwlb]
    rw [hu] at he
    injection he with he
    subst he
    simp [inorder_zip]
  | case14 x pc pk rest hxn wl wk wr hnbb hwlb hns =>
    intro t he
    cases wr with
    | nil => exact absurd ⟨hwlb, rfl⟩ hnbb
    | node c2 l2 k2 r2 =>
      cases c2 with
      | red => exact (hns _ _ _ rfl).elim
      | black => exact absurd ⟨hwlb, rfl⟩ hnbb
  | case15 x pc pk rest hxn wl wk wr hnbb hwln =>
    intro t he
    have hu : fixDel x (.right pc (node Col.black wl wk wr) pk rest) =
        some (blacken (zipR
          (node pc (blacken wl) wk (node Col.black wr pk x)) rest)) := by
      rw [fixDel.eq_def]
      simp [hxn, hnbb, hwln]
    rw [hu] at he
    injection he with he
    subst he
    simp [inorder_zip]

theorem sorted_split_bounds {X Y : List Int} {k : Int}
    (hs : (X ++ k :: Y).Sorted (· < ·)) :
    (∀ a ∈ X, a < k) ∧ (∀ b ∈ Y, k < b) ∧
      (X ++ k :: Y).filter (fun x => !decide (x = k)) = X ++ Y := by
  rw [Treap.sortedAppend] at hs
  obtain ⟨hX, hkY, hcross⟩ := hs
  rw [List.sorted_cons] at hkY
  have h1 : ∀ a ∈ X, a < k := fun a ha => hcross a ha k (by simp)
  have h2 : ∀ b ∈ Y, k < b := hkY.1
  refine ⟨h1, h2, ?_⟩
  rw [List.filter_append, Treap.filter_ne_self (fun a ha => ne_of_lt (h1 a ha)),
    Treap.filter_ne_cons_dup,
    Treap.filter_ne_self (fun b hb => (ne_of_lt (h2 b hb)).symm)]

theorem sorted_node_parts {l r : List Int} {k0 : Int}
    (hs : (l ++ k0 :: r).Sorted (· < ·)) :
    l.Sorted (· < ·) ∧ r.Sorted (· < ·) ∧ (∀ a ∈ l, a < k0) ∧ ∀ b ∈ r, k0 < b := by
  rw [Treap.sortedAppend] at hs
  obtain ⟨hX, hkY, hcross⟩ := hs
  rw [List.sorted_cons] at hkY
  exact ⟨hX, hkY.2, fun a ha => hcross a ha k0 (by simp), hkY.1⟩

/-- The insertion descent splits the zipped key sequence exactly where the
sorted insertion `kins` puts the new key. -/
theorem insDesc_some_inorder : ∀ (t : RBN) (k : Int) (path : RPath),
    (inorderR t).Sorted (· < ·) →
    ∀ {p2 : RPath}, insDesc t k path = some p2 →
    leftC p2 ++ k :: rightC p2 = leftC path ++ kins k (inorderR t) ++ rightC path := by
  intro t
  induction t with
  | nil =>
    intro k path hs p2 he
    simp only [insDesc, Option.some.injEq] at he
    subst he
    simp [kins]
  | node c l k0 r ihl ihr =>
    intro k path hs p2 he
    obtain ⟨hsl, hsr, hbl, hbr⟩ := sorted_node_parts (by simpa using hs)
    simp only [insDesc] at he
    split_ifs at he with h1 h2
    · have hres := ihl k (.left c k0 r path) hsl he
      rw [hres]
      simp only [inorderR_node]
      rw [kins_append_lt h1]
      simp
    · have hres := ihr k (.right c l k0 path) hsr he
      rw [hres]
      simp only [inorderR_node]
      have hlt : ∀ a ∈ inorderR l ++ [k0], a < k := by
        intro a ha
        rcases List.mem_append.mp ha with ha | ha
        · exact lt_trans (hbl a ha) h2
        · simp at ha
          subst ha
          exact h2
      rw [show inorderR l ++ k0 :: inorderR r = (inorderR l ++ [k0]) ++ inorderR r by
        simp]
      rw [kins_append_ge _ _ hlt]
      simp

/-- A duplicate key makes the insertion descent bail out, and conversely. -/
theorem insDesc_none_iff : ∀ (t : RBN) (k : Int) (path : RPath),
    (inorderR t).Sorted (· < ·) →
    (insDesc t k path = none ↔ k ∈ inorderR t) := by
  intro t
  induction t with
  | nil =>
    intro k path hs
    simp [insDesc]
  | node c l k0 r ihl ihr =>
    intro k path hs
    obtain ⟨hsl, hsr, hbl, hbr⟩ := sorted_node_parts (by simpa using hs)
    simp only [insDesc]
    split_ifs with h1 h2
    · rw [ihl k _ hsl]
      simp only [inorderR_node, List.mem_append, List.mem_cons]
      constructor
      · intro h
        exact Or.inl h
      · intro h
        rcases h with h | h | h
        · exact h
        · omega
        · exact absurd (hbr k h) (by omega)
    · rw [ihr k _ hsr]
      simp only [inorderR_node, List.mem_append, List.mem_cons]
      constructor
      · intro h
        exact Or.inr (Or.inr h)
      · intro h
        rcases h with h | h | h
        · exact absurd (hbl k h) (by omega)
        · omega
        · exact h
    · have hk : k = k0 := by omega
      subst hk
      simp

/-- `RBTree.search` decides membership in the in-order key sequence. -/
theorem searchR_iff : ∀ (t : RBN) (k : Int), (inorderR t).Sorted (· < ·) →
    (searchR t k = true ↔ k ∈ inorderR t) := by
  intro t
  induction t with
  | nil =>
    intro k hs
    simp [searchR]
  | node c l k0 r ihl ihr =>
    intro k hs
    obtain ⟨hsl, hsr, hbl, hbr⟩ := sorted_node_parts (by simpa using hs)
    simp only [searchR]
    split_ifs with h1 h2
    · subst h1
      simp
    · rw [ihl k hsl]
      simp only [inorderR_node, List.mem_append, List.mem_cons]
      constructor
      · intro h
        exact Or.inl h
      · intro h
        rcases h with h | h | h
        · exact h
        · omega
        · exact absurd (hbr k h) (by omega)
    · rw [ihr k hsr]
      simp only [inorderR_node, List.mem_append, List.mem_cons]
      constructor
      · intro h
        exact Or.inr (Or.inr h)
      · intro h
        rcases h with h | h | h
        · exact absurd (hbl k h) (by omega)
        · omega
        · exact h

/-- The deletion search finds the key, and the zipped sequence splits
around the located node. -/
theorem delDesc_some_inorder : ∀ (t : RBN) (k : Int) (path : RPath)
    {zc : Col} {zl : RBN} {zk : Int} {zr : RBN} {p2 : RPath},
    delDesc t k path = some (zc, zl, zk, zr, p2) →
    zk = k ∧ leftC p2 ++ inorderR zl ++ zk :: inorderR zr ++ rightC p2 =
      leftC path ++ inorderR t ++ rightC path := by
  intro t
  induction t with
  | nil =>
    intro k path zc zl zk zr p2 he
    simp [delDesc] at he
  | node c l k0 r ihl ihr =>
    intro k path zc zl zk zr p2 he
    simp only [delDesc] at he
    split_ifs at he with h1 h2
    · simp only [Option.some.injEq, Prod.mk.injEq] at he
      obtain ⟨rfl, rfl, rfl, rfl, rfl⟩ := he
      exact ⟨h1.symm, by simp⟩
    · obtain ⟨hzk, hres⟩ := ihl k (.left c k0 r path) he
      refine ⟨hzk, ?_⟩
      rw [hres]
      simp
    · obtain ⟨hzk, hres⟩ := ihr k (.right c l k0 path) he
      refine ⟨hzk, ?_⟩
      rw [hres]
      simp

/-- The deletion search misses exactly the absent keys. -/
theorem delDesc_none_iff : ∀ (t : RBN) (k : Int) (path : RPath),
    (inorderR t).Sorted (· < ·) →
    (delDesc t k path = none ↔ k ∉ inorderR t) := by
  intro t
  induction t with
  | nil =>
    intro k path hs
    simp [delDesc]
  | node c l k0 r ihl ihr =>
    intro k path hs
    obtain ⟨hsl, hsr, hbl, hbr⟩ := sorted_node_parts (by simpa using hs)
    simp only [delDesc]
    split_ifs with h1 h2
    · subst h1
      simp
    · rw [ihl k _ hsl]
      simp only [inorderR_node, List.mem_append, List.mem_cons]
      constructor
      · intro h hmem
        rcases hmem with hm | hm | hm
        · exact h hm
        · omega
        · exact absurd (hbr k hm) (by omega)
      · intro h hmem
        exact h (Or.inl hmem)
    · rw [ihr k _ hsr]
      simp only [inorderR_node, List.mem_append, List.mem_cons]
      constructor
      · intro h hmem
        rcases hmem with hm | hm | hm
        · exact absurd (hbl k hm) (by omega)
        · omega
        · exact h hm
      · intro h hmem
        exact h (Or.inr (Or.inr hmem))

/-- The minimum spine: zipping through it prepends nothing on the left,
appends a fixed suffix on the right, and the subtree's keys are the
minimum, then its right child's keys, then that suffix. -/
theorem minSpine_inorder : ∀ (t : RBN), t ≠ RBN.nil →
    ∃ W, (∀ P0, leftC ((minSpine t).2.2.2 P0) = leftC P0) ∧
      (∀ P0, rightC ((minSpine t).2.2.2 P0) = W ++ rightC P0) ∧
      inorderR t = (minSpine t).2.1 :: (inorderR (minSpine t).2.2.1 ++ W) := by
  intro t
  induction t with
  | nil =>
    intro h
    exact absurd rfl h
  | node c L k r ihL ihr =>
    intro _
    cases L with
    | nil =>
      exact ⟨[], fun P0 => by simp [minSpine], fun P0 => by simp [minSpine],
        by simp [minSpine]⟩
    | node lc la lk lb =>
      obtain ⟨W, h1, h2, h3⟩ := ihL (fun h => nomatch h)
      refine ⟨W ++ k :: inorderR r, ?_, ?_, ?_⟩
      · intro P0
        simp [minSpine, h1]
      · intro P0
        simp [minSpine, h2]
      · have hrfl : inorderR (node c (node lc la lk lb) k r) =
            inorderR (node lc la lk lb) ++ k :: inorderR r := rfl
        rw [hrfl, h3]
        simp [minSpine]

theorem kins_mem_eq {k : Int} :
    ∀ {l : List Int}, l.Sorted (· < ·) → k ∈ l → kins k l = l := by
  intro l
  induction l with
  | nil => intro _ h; simp at h
  | cons a l ih =>
    intro hs hmem
    rw [List.sorted_cons] at hs
    rcases List.mem_cons.mp hmem with rfl | hmem
    · simp [kins]
    · have ha : a < k := hs.1 k hmem
      simp [kins, show ¬ k < a by omega, ha, ih hs.2 hmem]

/-- `RBTree.insert` edits the sorted key sequence by `kins`. -/
theorem insertR_inorder {t t2 : RBN} (k : Int) (hs : (inorderR t).Sorted (· < ·))
    (he : insertR t k = some t2) : inorderR t2 = kins k (inorderR t) := by
  cases hd : insDesc t k RPath.root with
  | none =>
    simp only [insertR, hd] at he
    injection he with he
    subst he
    rw [kins_mem_eq hs ((insDesc_none_iff t k RPath.root hs).mp hd)]
  | some p2 =>
    simp only [insertR, hd] at he
    have h1 := fixIns_inorder _ _ he
    have h2 := insDesc_some_inorder t k RPath.root hs hd
    rw [h1]
    simp only [leftC_root, rightC_root, List.append_nil, List.nil_append] at h2
    simpa using h2

/-- `RBTree.delete` edits the sorted key sequence by removing the key. -/
theorem deleteR_inorder {t t2 : RBN} (k : Int) (hs : (inorderR t).Sorted (· < ·))
    (he : deleteR t k = some t2) :
    inorderR t2 = (inorderR t).filter (fun x => !decide (x = k)) := by
  cases hd : delDesc t k RPath.root with
  | none =>
    simp only [deleteR, hd] at he
    injection he with he
    subst he
    rw [Treap.filter_ne_self]
    intro a ha
    intro hak
    subst hak
    exact (delDesc_none_iff t a RPath.root hs).mp hd ha
  | some q =>
    obtain ⟨zc, zl, zk, zr, p2⟩ := q
    obtain ⟨hzk, hsplit⟩ := delDesc_some_inorder t k RPath.root hd
    subst hzk
    simp only [leftC_root, rightC_root, List.append_nil, List.nil_append] at hsplit
    have hsp : ((leftC p2 ++ inorderR zl) ++ zk :: (inorderR zr ++ rightC p2)).Sorted
        (· < ·) := by
      have : (leftC p2 ++ inorderR zl) ++ zk :: (inorderR zr ++ rightC p2) =
          leftC p2 ++ inorderR zl ++ zk :: inorderR zr ++ rightC p2 := by
        simp
      rw [this, hsplit]
      exact hs
    obtain ⟨hX, hY, hfil⟩ := sorted_split_bounds hsp
    have htarget : (inorderR t).filter (fun x => !decide (x = zk)) =
        (leftC p2 ++ inorderR zl) ++ (inorderR zr ++ rightC p2) := by
      rw [← hsplit]
      rw [show leftC p2 ++ inorderR zl ++ zk :: inorderR zr ++ rightC p2 =
        (leftC p2 ++ inorderR zl) ++ zk :: (inorderR zr ++ rightC p2) by simp]
      exact hfil
    rw [htarget]
    cases zl with
    | nil =>
      simp only [deleteR, hd] at he
      cases zc with
      | black =>
        simp only [reduceIte] at he
        rw [fixDel_inorder _ _ he]
        simp
      | red =>
        rw [if_neg (show ¬ (Col.red = Col.black) by simp)] at he
        injection he with he
        subst he
        rw [inorder_zip]
        simp
    | node lc ll lk0 lr =>
      cases zr with
      | nil =>
        simp only [deleteR, hd] at he
        cases zc with
        | black =>
          simp only [reduceIte] at he
          rw [fixDel_inorder _ _ he]
          simp
        | red =>
          rw [if_neg (show ¬ (Col.red = Col.black) by simp)] at he
          injection he with he
          subst he
          rw [inorder_zip]
          simp
      | node rc rl rk0 rr =>
        obtain ⟨W, hL, hR, hIno⟩ := minSpine_inorder (node rc rl rk0 rr)
          (fun h => nomatch h)
        simp only [deleteR, hd] at he
        have hfin : inorderR t2 =
            leftC ((minSpine (node rc rl rk0 rr)).2.2.2
              (.right zc (node lc ll lk0 lr) (minSpine (node rc rl rk0 rr)).2.1 p2)) ++
            inorderR (minSpine (node rc rl rk0 rr)).2.2.1 ++
            rightC ((minSpine (node rc rl rk0 rr)).2.2.2
              (.right zc (node lc ll lk0 lr) (minSpine (node rc rl rk0 rr)).2.1 p2)) := by
          by_cases hyc : (minSpine (node rc rl rk0 rr)).1 = Col.black
          · rw [if_pos hyc] at he
            exact fixDel_inorder _ _ he
          · rw [if_neg hyc] at he
            injection he with he
            subst he
            rw [inorder_zip]
        rw [hfin, hL, hR]
        simp only [leftC_right, rightC_right]
        rw [hIno]
        simp

/-- The effect of one public operation on the sorted key list. -/
def mstep (l : List Int) : ROp → List Int
  | .ins k => kins k l
  | .del k => l.filter (fun x => !decide (x = k))

/-- The key list an operation sequence builds, starting empty. -/
def modelR (ops : List ROp) : List Int := ops.foldl mstep []

theorem foldlR_model : ∀ (ops : List ROp) (t : RBN),
    (∃ n, Bal t Col.black n) → (inorderR t).Sorted (· < ·) →
    ∃ t2, ops.foldl stepR (some t) = some t2 ∧ (∃ m, Bal t2 Col.black m) ∧
      inorderR t2 = ops.foldl mstep (inorderR t) := by
  intro ops
  induction ops with
  | nil =>
    intro t hB hs
    exact ⟨t, rfl, hB, rfl⟩
  | cons op rest ih =>
    intro t hB hs
    obtain ⟨n, hBn⟩ := hB
    cases op with
    | ins k =>
      obtain ⟨t2, ht2, hm⟩ := insertR_good t k hBn
      have hino : inorderR t2 = kins k (inorderR t) := insertR_inorder k hs ht2
      have hs2 : (inorderR t2).Sorted (· < ·) := by
        rw [hino]
        exact kins_sorted hs
      obtain ⟨t3, ht3, hB3, hino3⟩ := ih t2 hm hs2
      refine ⟨t3, ?_, hB3, ?_⟩
      · rw [List.foldl_cons, show stepR (some t) (.ins k) = some t2 by
          simpa [stepR] using ht2]
        exact ht3
      · rw [List.foldl_cons, show mstep (inorderR t) (.ins k) = inorderR t2 by
          simp [mstep, hino]]
        exact hino3
    | del k =>
      obtain ⟨t2, ht2, hm⟩ := deleteR_good t k hBn
      have hino : inorderR t2 = (inorderR t).filter (fun x => !decide (x = k)) :=
        deleteR_inorder k hs ht2
      have hs2 : (inorderR t2).Sorted (· < ·) := by
        rw [hino]
        exact hs.filter _
      obtain ⟨t3, ht3, hB3, hino3⟩ := ih t2 hm hs2
      refine ⟨t3, ?_, hB3, ?_⟩
      · rw [List.foldl_cons, show stepR (some t) (.del k) = some t2 by
          simpa [stepR] using ht2]
        exact ht3
      · rw [List.foldl_cons, show mstep (inorderR t) (.del k) = inorderR t2 by
          simp [mstep, hino]]
        exact hino3

/-- Running any operation sequence from the empty tree: no crash, balance,
and the in-order keys are the sorted model list. -/
theorem runR_model (ops : List ROp) :
    ∃ t, runR ops = some t ∧ (∃ m, Bal t Col.black m) ∧
      inorderR t = modelR ops := by
  obtain ⟨t, h1, h2, h3⟩ := foldlR_model ops nil ⟨0, Bal.nil⟩ (by simp)
  exact ⟨t, h1, h2, h3⟩

theorem modelR_sorted (ops : List ROp) : (modelR ops).Sorted (· < ·) := by
  suffices h : ∀ (ops : List ROp) (l : List Int), l.Sorted (· < ·) →
      (ops.foldl mstep l).Sorted (· < ·) by
    exact h ops [] (by simp)
  intro ops
  induction ops with
  | nil => intro l hl; exact hl
  | cons op rest ih =>
    intro l hl
    rw [List.foldl_cons]
    cases op with
    | ins k => exact ih _ (kins_sorted hl)
    | del k => exact ih _ (hl.filter _)

theorem rb_track_mem : ∀ (post : List ROp) (l : List Int) (k : Int),
    k ∈ l → ROp.del k ∉ post → k ∈ post.foldl mstep l := by
  intro post
  induction post with
  | nil => intro l k h _; exact h
  | cons op rest ih =>
    intro l k h hnd
    rw [List.foldl_cons]
    have hnd2 : ROp.del k ∉ rest := fun hc => hnd (by simp [hc])
    cases op with
    | ins k2 =>
      exact ih _ k ((mem_kins k k2 l).mpr (Or.inr h)) hnd2
    | del k2 =>
      have hne : k ≠ k2 := fun hc => hnd (by simp [hc])
      refine ih _ k ?_ hnd2
      simp only [mstep]
      rw [List.mem_filter]
      exact ⟨h, by simpa using hne⟩

theorem rb_track_not_mem : ∀ (post : List ROp) (l : List Int) (k : Int),
    k ∉ l → ROp.ins k ∉ post → k ∉ post.foldl mstep l := by
  intro post
  induction post with
  | nil => intro l k h _; exact h
  | cons op rest ih =>
    intro l k h hni
    rw [List.foldl_cons]
    have hni2 : ROp.ins k ∉ rest := fun hc => hni (by simp [hc])
    cases op with
    | ins k2 =>
      have hne : k ≠ k2 := fun hc => hni (by simp [hc])
      refine ih _ k ?_ hni2
      intro hc
      rcases (mem_kins k k2 _).mp hc with hc | hc
      · exact hne hc
      · exact h hc
    | del k2 =>
      refine ih _ k ?_ hni2
      intro hc
      exact h (List.mem_of_mem_filter hc)

end RBN

namespace Treap

theorem track_mem : ∀ (post : List TOp) (t : Treap) (k : Int),
    Heap t ∧ Ordered t → k ∈ keys t → (∀ op ∈ post, op ≠ TOp.del k) →
    k ∈ keys (post.foldl step t) := by
  intro post
  induction post with
  | nil => intro t k _ h _; exact h
  | cons op rest ih =>
    intro t k hinv h hnd
    rw [List.foldl_cons]
    have hnd2 : ∀ op ∈ rest, op ≠ TOp.del k := fun o ho => hnd o (by simp [ho])
    have hinv2 := step_inv op hinv
    cases op with
    | ins k2 p =>
      refine ih _ k hinv2 ?_ hnd2
      simp only [step]
      rw [mem_keys_insert]
      exact Or.inr h
    | del k2 =>
      have hne : k ≠ k2 := by
        intro hc
        exact (hnd (TOp.del k2) (by simp)) (by rw [hc])
      refine ih _ k hinv2 ?_ hnd2
      simp only [step]
      rw [mem_keys_delete hinv.2]
      exact ⟨h, hne⟩

theorem track_not_mem : ∀ (post : List TOp) (t : Treap) (k : Int),
    Heap t ∧ Ordered t → k ∉ keys t → (∀ op ∈ post, ∀ q, op ≠ TOp.ins k q) →
    k ∉ keys (post.foldl step t) := by
  intro post
  induction post with
  | nil => intro t k _ h _; exact h
  | cons op rest ih =>
    intro t k hinv h hni
    rw [List.foldl_cons]
    have hni2 : ∀ op ∈ rest, ∀ q, op ≠ TOp.ins k q := fun o ho => hni o (by simp [ho])
    have hinv2 := step_inv op hinv
    cases op with
    | ins k2 p =>
      have hne : k ≠ k2 := by
        intro hc
        subst hc
        exact (hni (TOp.ins k p) (by simp) p) rfl
      refine ih _ k hinv2 ?_ hni2
      simp only [step]
      rw [mem_keys_insert]
      rintro (hc | hc)
      · exact hne hc
      · exact h hc
    | del k2 =>
      refine ih _ k hinv2 ?_ hni2
      simp only [step]
      rw [mem_keys_delete hinv.2]
      rintro ⟨hc, -⟩
      exact h hc

end Treap

namespace AVL

theorem lfind_not_mem (k : Int) :
    ∀ (L : List (Int × Option Int)), (∀ p ∈ L, p.1 ≠ k) → lfind k L = none := by
  intro L
  induction L with
  | nil => intro _; rfl
  | cons q L ih =>
    intro h
    obtain ⟨k0, v0⟩ := q
    have : k0 ≠ k := h (k0, v0) (by simp)
    simp only [lfind, if_neg this]
    exact ih (fun p hp => h p (by simp [hp]))

theorem lfind_of_mem (k : Int) (w : Option Int) :
    ∀ (L : List (Int × Option Int)), List.Sorted (· < ·) (L.map Prod.fst) →
    (k, w) ∈ L → lfind k L = some w := by
  intro L
  induction L with
  | nil => intro _ h; simp at h
  | cons q L ih =>
    intro hs hmem
    obtain ⟨k0, v0⟩ := q
    simp only [List.map_cons, List.sorted_cons] at hs
    rcases List.mem_cons.mp hmem with h | h
    · injection h with h1 h2
      subst h1; subst h2
      simp [lfind]
    · have hne : k ≠ k0 := by
        have : k0 < k := hs.1 k (by exact List.mem_map.mpr ⟨(k, w), h, rfl⟩)
        omega
      simp only [lfind, if_neg (Ne.symm hne)]
      exact ih hs.2 h

/-- Tracking a key's stored value through a suffix of operations that never
touches the key. -/
theorem track_val : ∀ (post : List AOp) (t : AVL) (k : Int) (x : Option (Option Int)),
    WF t ∧ Ordered t → assoc t k = x →
    (∀ op ∈ post, (∀ w, op ≠ AOp.ins k w) ∧ op ≠ AOp.del k) →
    assoc (post.foldl step t) k = x := by
  intro post
  induction post with
  | nil => intro t k x _ h _; exact h
  | cons op rest ih =>
    intro t k x hinv h hno
    rw [List.foldl_cons]
    have hno2 : ∀ op ∈ rest, (∀ w, op ≠ AOp.ins k w) ∧ op ≠ AOp.del k :=
      fun o ho => hno o (by simp [ho])
    have hinv2 := step_inv_a t op hinv
    cases op with
    | ins k2 w =>
      have hne : k2 ≠ k := by
        intro hc
        subst hc
        exact ((hno (AOp.ins k2 w) (by simp)).1 w) rfl
      refine ih _ k x hinv2 ?_ hno2
      simp only [step]
      rw [assoc_insert_other t k2 k w hinv.2 (Ne.symm hne)]
      exact h
    | del k2 =>
      have hne : k2 ≠ k := by
        intro hc
        subst hc
        exact (hno (AOp.del k2) (by simp)).2 rfl
      refine ih _ k x hinv2 ?_ hno2
      simp only [step]
      rw [assoc_delete_other t k2 k hinv.2 (Ne.symm hne)]
      exact h

/-- Tracking absence of a key through a suffix that never re-inserts it. -/
theorem track_none : ∀ (post : List AOp) (t : AVL) (k : Int),
    WF t ∧ Ordered t → assoc t k = none →
    (∀ op ∈ post, ∀ w, op ≠ AOp.ins k w) →
    assoc (post.foldl step t) k = none := by
  intro post
  induction post with
  | nil => intro t k _ h _; exact h
  | cons op rest ih =>
    intro t k hinv h hno
    rw [List.foldl_cons]
    have hno2 : ∀ op ∈ rest, ∀ w, op ≠ AOp.ins k w := fun o ho => hno o (by simp [ho])
    have hinv2 := step_inv_a t op hinv
    cases op with
    | ins k2 w =>
      have hne : k2 ≠ k := by
        intro hc
        subst hc
        exact (hno (AOp.ins k2 w) (by simp) w) rfl
      refine ih _ k hinv2 ?_ hno2
      simp only [step]
      rw [assoc_insert_other t k2 k w hinv.2 (Ne.symm hne)]
      exact h
    | del k2 =>
      by_cases hk : k2 = k
      · subst hk
        refine ih _ k2 hinv2 ?_ hno2
        simp only [step]
        exact assoc_delete_self t k2 hinv.2
      · refine ih _ k hinv2 ?_ hno2
        simp only [step]
        rw [assoc_delete_other t k2 k hinv.2 (Ne.symm hk)]
        exact h

end AVL

/-! ## The claims -/

/-- C1: For every finite sequence of `AVLTree.insert` and `AVLTree.delete`
operations applied to an initially empty AVL tree, after each operation the
tree is well formed (stored heights correct and every balance factor in
[-1, 1]), `is_balanced()` returns `True`, and the in-order key sequence is
strictly increasing.  (The run of every prefix of a sequence is itself the
run of a sequence, so quantifying over all sequences covers "after each
operation".) -/
theorem avl_invariant_sequences (ops : List AVL.AOp) :
    AVL.WF (AVL.run ops) ∧ AVL.isBalanced (AVL.run ops) = true ∧
      List.Sorted (· < ·) (AVL.keys (AVL.run ops)) :=
  ⟨(AVL.run_inv_a ops).1, AVL.isBalanced_wf (AVL.run_inv_a ops).1,
    AVL.ordered_iff_sorted.mp (AVL.run_inv_a ops).2⟩

/-- C2: For every finite sequence of `RBTree.insert` and `RBTree.delete`
operations applied to an initially empty Red-Black tree, the run completes
(no `AttributeError`), and after each operation the root is black, no red
node has a red child, `validate_black_height()` returns `True`, and the
in-order key sequence is strictly increasing. -/
theorem rb_invariant_sequences (ops : List RBN.ROp) :
    ∃ t, RBN.runR ops = some t ∧ RBN.rootCol t = Col.black ∧ RBN.noRR t ∧
      RBN.validateBH t = true ∧ List.Sorted (· < ·) (RBN.inorderR t) := by
  obtain ⟨t, hrun, ⟨m, hBal⟩, hino⟩ := RBN.runR_model ops
  refine ⟨t, hrun, RBN.bal_rootCol hBal, RBN.bal_noRR hBal, ?_, ?_⟩
  · simp [RBN.validateBH, RBN.bal_bh hBal]
  · rw [hino]
    exact RBN.modelR_sorted ops

/-- C3: For every finite sequence of `Treap.insert_key` and
`Treap.delete_key` operations applied to an initially empty treap, with
arbitrary priorities for the inserts, after each operation every node's
priority is ≥ both children's priorities (the max-heap property `Heap`)
and the in-order key sequence is strictly increasing. -/
theorem treap_invariant_sequences (ops : List Treap.TOp) :
    Treap.Heap (Treap.run ops) ∧ List.Sorted (· < ·) (Treap.keys (Treap.run ops)) :=
  ⟨(Treap.run_inv ops).1, Treap.sorted_keys (Treap.run_inv ops).2⟩

/-- C4: Across all three engines, on any operation sequence from the empty
tree: a key inserted and not touched afterwards is found by `search` (for
the AVL tree with the associated value, falling back to the key when the
insert stored no value); a key deleted and not reinserted afterwards is
reported not-found. -/
theorem search_roundtrip :
    (∀ (pre post : List AVL.AOp) (k : Int) (v : Option Int),
      (∀ op ∈ post, (∀ w, op ≠ AVL.AOp.ins k w) ∧ op ≠ AVL.AOp.del k) →
      AVL.search (AVL.run (pre ++ AVL.AOp.ins k v :: post)) k = some (v.getD k)) ∧
    (∀ (pre post : List AVL.AOp) (k : Int),
      (∀ op ∈ post, ∀ w, op ≠ AVL.AOp.ins k w) →
      AVL.search (AVL.run (pre ++ AVL.AOp.del k :: post)) k = none) ∧
    (∀ (pre post : List RBN.ROp) (k : Int),
      RBN.ROp.del k ∉ post →
      ∃ t, RBN.runR (pre ++ RBN.ROp.ins k :: post) = some t ∧
        RBN.searchR t k = true) ∧
    (∀ (pre post : List RBN.ROp) (k : Int),
      RBN.ROp.ins k ∉ post →
      ∃ t, RBN.runR (pre ++ RBN.ROp.del k :: post) = some t ∧
        RBN.searchR t k = false) ∧
    (∀ (pre post : List Treap.TOp) (k p : Int),
      (∀ op ∈ post, op ≠ Treap.TOp.del k) →
      Treap.search (Treap.run (pre ++ Treap.TOp.ins k p :: post)) k = true) ∧
    (∀ (pre post : List Treap.TOp) (k : Int),
      (∀ op ∈ post, ∀ q, op ≠ Treap.TOp.ins k q) →
      Treap.search (Treap.run (pre ++ Treap.TOp.del k :: post)) k = false) := by
  refine ⟨?_, ?_, ?_, ?_, ?_, ?_⟩
  · intro pre post k v hno
    have hrun : AVL.run (pre ++ AVL.AOp.ins k v :: post) =
        post.foldl AVL.step (AVL.insert (AVL.run pre) k v) := by
      simp [AVL.run, List.foldl_append, AVL.step]
    rw [hrun]
    have hinv := AVL.run_inv_a pre
    have hinv2 : AVL.WF (AVL.insert (AVL.run pre) k v) ∧
        AVL.Ordered (AVL.insert (AVL.run pre) k v) := AVL.step_inv_a _ (.ins k v) hinv
    have hassoc : AVL.assoc (AVL.insert (AVL.run pre) k v) k = some v :=
      AVL.assoc_insert_self _ k v hinv.2
    rw [AVL.search_eq_assoc, AVL.track_val post _ k (some v) hinv2 hassoc hno]
    rfl
  · intro pre post k hno
    have hrun : AVL.run (pre ++ AVL.AOp.del k :: post) =
        post.foldl AVL.step (AVL.delete (AVL.run pre) k) := by
      simp [AVL.run, List.foldl_append, AVL.step]
    rw [hrun]
    have hinv := AVL.run_inv_a pre
    have hinv2 : AVL.WF (AVL.delete (AVL.run pre) k) ∧
        AVL.Ordered (AVL.delete (AVL.run pre) k) := AVL.step_inv_a _ (.del k) hinv
    have hassoc : AVL.assoc (AVL.delete (AVL.run pre) k) k = none :=
      AVL.assoc_delete_self _ k hinv.2
    rw [AVL.search_eq_assoc, AVL.track_none post _ k hinv2 hassoc hno]
    rfl
  · intro pre post k hnd
    obtain ⟨t, hrun, ⟨n, hBal⟩, hino⟩ := RBN.runR_model (pre ++ RBN.ROp.ins k :: post)
    refine ⟨t, hrun, ?_⟩
    have hsorted : (RBN.inorderR t).Sorted (· < ·) := by
      rw [hino]
      exact RBN.modelR_sorted _
    rw [RBN.searchR_iff t k hsorted, hino]
    have hsplit : RBN.modelR (pre ++ RBN.ROp.ins k :: post) =
        post.foldl RBN.mstep (RBN.kins k (RBN.modelR pre)) := by
      simp [RBN.modelR, List.foldl_append, RBN.mstep]
    rw [hsplit]
    exact RBN.rb_track_mem post _ k ((RBN.mem_kins k k _).mpr (Or.inl rfl)) hnd
  · intro pre post k hni
    obtain ⟨t, hrun, ⟨n, hBal⟩, hino⟩ := RBN.runR_model (pre ++ RBN.ROp.del k :: post)
    refine ⟨t, hrun, ?_⟩
    have hsorted : (RBN.inorderR t).Sorted (· < ·) := by
      rw [hino]
      exact RBN.modelR_sorted _
    rw [← Bool.not_eq_true, RBN.searchR_iff t k hsorted, hino]
    have hsplit : RBN.modelR (pre ++ RBN.ROp.del k :: post) =
        post.foldl RBN.mstep
          ((RBN.modelR pre).filter (fun x => !decide (x = k))) := by
      simp [RBN.modelR, List.foldl_append, RBN.mstep]
    rw [hsplit]
    refine RBN.rb_track_not_mem post _ k ?_ hni
    intro hc
    simpa using (List.mem_filter.mp hc).2
  · intro pre post k p hnd
    have hrun : Treap.run (pre ++ Treap.TOp.ins k p :: post) =
        post.foldl Treap.step (Treap.insert (Treap.run pre) k p) := by
      simp [Treap.run, List.foldl_append, Treap.step]
    rw [hrun]
    have hinv := Treap.run_inv pre
    have hinv2 := Treap.step_inv (Treap.TOp.ins k p) hinv
    simp only [Treap.step] at hinv2
    have hmem : k ∈ Treap.keys (Treap.insert (Treap.run pre) k p) := by
      rw [Treap.mem_keys_insert]
      exact Or.inl rfl
    have hfin := Treap.track_mem post _ k hinv2 hmem hnd
    have hinv3 := Treap.foldl_inv post _ hinv2
    rw [Treap.search_iff k hinv3.2]
    exact hfin
  · intro pre post k hni
    have hrun : Treap.run (pre ++ Treap.TOp.del k :: post) =
        post.foldl Treap.step (Treap.delete (Treap.run pre) k) := by
      simp [Treap.run, List.foldl_append, Treap.step]
    rw [hrun]
    have hinv := Treap.run_inv pre
    have hinv2 := Treap.step_inv (Treap.TOp.del k) hinv
    simp only [Treap.step] at hinv2
    have hmem : k ∉ Treap.keys (Treap.delete (Treap.run pre) k) := by
      rw [Treap.mem_keys_delete hinv.2]
      rintro ⟨-, hc⟩
      exact hc rfl
    have hfin := Treap.track_not_mem post _ k hinv2 hmem hni
    have hinv3 := Treap.foldl_inv post _ hinv2
    rw [← Bool.not_eq_true, Treap.search_iff k hinv3.2]
    exact hfin

/-- Witness for C4 on concrete runs: inserting 1 (with value 9 for AVL) then
inserting 2 leaves 1 found; deleting 1 then inserting 2 leaves 1 not found. -/
theorem search_roundtrip_witness :
    AVL.search (AVL.run ([AVL.AOp.ins 5 none] ++ AVL.AOp.ins 1 (some 9) ::
      [AVL.AOp.ins 2 none])) 1 = some ((some 9 : Option Int).getD 1) ∧
    AVL.search (AVL.run ([AVL.AOp.ins 1 none] ++ AVL.AOp.del 1 ::
      [AVL.AOp.ins 2 none])) 1 = none ∧
    (∃ t, RBN.runR ([RBN.ROp.ins 5] ++ RBN.ROp.ins 1 :: [RBN.ROp.ins 2]) = some t ∧
      RBN.searchR t 1 = true) ∧
    (∃ t, RBN.runR ([RBN.ROp.ins 1] ++ RBN.ROp.del 1 :: [RBN.ROp.ins 2]) = some t ∧
      RBN.searchR t 1 = false) ∧
    Treap.search (Treap.run ([Treap.TOp.ins 5 3] ++ Treap.TOp.ins 1 7 ::
      [Treap.TOp.ins 2 4])) 1 = true ∧
    Treap.search (Treap.run ([Treap.TOp.ins 1 7] ++ Treap.TOp.del 1 ::
      [Treap.TOp.ins 2 4])) 1 = false :=
  ⟨search_roundtrip.1 [AVL.AOp.ins 5 none] [AVL.AOp.ins 2 none] 1 (some 9)
      (by
        intro op hop
        simp at hop
        subst hop
        refine ⟨?_, ?_⟩
        · intro w h
          cases h
        · intro h
          cases h),
    search_roundtrip.2.1 [AVL.AOp.ins 1 none] [AVL.AOp.ins 2 none] 1
      (by intro op hop; simp at hop; subst hop; intro w h; cases h),
    search_roundtrip.2.2.1 [RBN.ROp.ins 5] [RBN.ROp.ins 2] 1 (by simp),
    search_roundtrip.2.2.2.1 [RBN.ROp.ins 1] [RBN.ROp.ins 2] 1 (by simp),
    search_roundtrip.2.2.2.2.1 [Treap.TOp.ins 5 3] [Treap.TOp.ins 2 4] 1 7
      (by intro op hop; simp at hop; subst hop; intro h; cases h),
    search_roundtrip.2.2.2.2.2 [Treap.TOp.ins 1 7] [Treap.TOp.ins 2 4] 1
      (by intro op hop; simp at hop; subst hop; intro q h; cases h)⟩

/-- C5: Inserting a key that is already present updates only that node's
stored value in the AVL tree (shape, keys and heights unchanged: the
value-erased trees are equal) and is a complete no-op for the Red-Black
tree and the treap. -/
theorem duplicate_insert_no_structural_change :
    (∀ (t : AVL) (k : Int) (v : Option Int), AVL.WF t → AVL.Ordered t →
      k ∈ AVL.keys t → AVL.strip (AVL.insert t k v) = AVL.strip t) ∧
    (∀ (t : RBN) (k : Int), (RBN.inorderR t).Sorted (· < ·) →
      k ∈ RBN.inorderR t → RBN.insertR t k = some t) ∧
    (∀ (t : Treap) (k p : Int), Treap.Heap t → Treap.Ordered t →
      k ∈ Treap.keys t → Treap.insert t k p = t) := by
  refine ⟨AVL.insert_mem_strip, ?_, Treap.insert_mem_eq⟩
  intro t k hs hmem
  have hd := (RBN.insDesc_none_iff t k RBN.RPath.root hs).mpr hmem
  simp [RBN.insertR, hd]

/-- Witness for C5 on singleton trees containing the inserted key. -/
theorem duplicate_insert_no_structural_change_witness :
    AVL.strip (AVL.insert (AVL.node AVL.nil 1 (some 5) AVL.nil 1) 1 none) =
      AVL.strip (AVL.node AVL.nil 1 (some 5) AVL.nil 1) ∧
    RBN.insertR (RBN.node Col.black RBN.nil 1 RBN.nil) 1 =
      some (RBN.node Col.black RBN.nil 1 RBN.nil) ∧
    Treap.insert (Treap.node 1 5 Treap.nil Treap.nil) 1 3 =
      Treap.node 1 5 Treap.nil Treap.nil :=
  ⟨duplicate_insert_no_structural_change.1 _ 1 none (by simp) (by simp)
      (by simp [AVL.keys]),
    duplicate_insert_no_structural_change.2.1 _ 1 (by simp) (by simp),
    duplicate_insert_no_structural_change.2.2 _ 1 3 (by simp) (by simp)
      (by simp)⟩

/-- C6: Deleting a key that is not in the tree returns the very same tree
(hence the same shape, keys, values and per-node metadata) in all three
engines; for the Red-Black tree the call also does not crash. -/
theorem delete_absent_noop :
    (∀ (t : AVL) (k : Int), AVL.WF t → AVL.Ordered t → k ∉ AVL.keys t →
      AVL.delete t k = t) ∧
    (∀ (t : RBN) (k : Int), (RBN.inorderR t).Sorted (· < ·) →
      k ∉ RBN.inorderR t → RBN.deleteR t k = some t) ∧
    (∀ (t : Treap) (k : Int), k ∉ Treap.keys t → Treap.delete t k = t) := by
  refine ⟨AVL.delete_absent_a, ?_, Treap.delete_absent⟩
  intro t k hs hmem
  have hd := (RBN.delDesc_none_iff t k RBN.RPath.root hs).mpr hmem
  simp [RBN.deleteR, hd]

/-- Witness for C6 on singleton trees missing the deleted key. -/
theorem delete_absent_noop_witness :
    AVL.delete (AVL.node AVL.nil 1 (some 5) AVL.nil 1) 2 =
      AVL.node AVL.nil 1 (some 5) AVL.nil 1 ∧
    RBN.deleteR (RBN.node Col.black RBN.nil 1 RBN.nil) 2 =
      some (RBN.node Col.black RBN.nil 1 RBN.nil) ∧
    Treap.delete (Treap.node 1 5 Treap.nil Treap.nil) 2 =
      Treap.node 1 5 Treap.nil Treap.nil :=
  ⟨delete_absent_noop.1 _ 2 (by simp) (by simp) (by simp [AVL.keys]),
    delete_absent_noop.2.1 _ 2 (by simp) (by simp),
    delete_absent_noop.2.2 _ 2 (by simp)⟩

/-- C7: `search` return values: the AVL tree returns the stored value when
the key is present with a value, the key itself when present with no
stored value, and `None` when absent; the Red-Black tree and the treap
return exactly the boolean presence of the key. -/
theorem search_return_values :
    (∀ (t : AVL) (k v : Int), AVL.Ordered t → (k, some v) ∈ AVL.inorder t →
      AVL.search t k = some v) ∧
    (∀ (t : AVL) (k : Int), AVL.Ordered t → (k, none) ∈ AVL.inorder t →
      AVL.search t k = some k) ∧
    (∀ (t : AVL) (k : Int), AVL.Ordered t → (∀ p ∈ AVL.inorder t, p.1 ≠ k) →
      AVL.search t k = none) ∧
    (∀ (t : RBN) (k : Int), (RBN.inorderR t).Sorted (· < ·) →
      (RBN.searchR t k = true ↔ k ∈ RBN.inorderR t)) ∧
    (∀ (t : Treap) (k : Int), Treap.Ordered t →
      (Treap.search t k = true ↔ k ∈ Treap.keys t)) := by
  refine ⟨?_, ?_, ?_, RBN.searchR_iff, fun t k ho => Treap.search_iff k ho⟩
  · intro t k v ho hmem
    have hsk : List.Sorted (· < ·) ((AVL.inorder t).map Prod.fst) :=
      AVL.ordered_iff_sorted.mp ho
    rw [AVL.search_eq_assoc, AVL.assoc_eq_lfind t k ho,
      AVL.lfind_of_mem k (some v) _ hsk hmem]
    rfl
  · intro t k ho hmem
    have hsk : List.Sorted (· < ·) ((AVL.inorder t).map Prod.fst) :=
      AVL.ordered_iff_sorted.mp ho
    rw [AVL.search_eq_assoc, AVL.assoc_eq_lfind t k ho,
      AVL.lfind_of_mem k none _ hsk hmem]
    rfl
  · intro t k ho habs
    rw [AVL.search_eq_assoc, AVL.assoc_eq_lfind t k ho,
      AVL.lfind_not_mem k _ habs]
    rfl

/-- Witness for C7 on singleton trees. -/
theorem search_return_values_witness :
    AVL.search (AVL.node AVL.nil 1 (some 7) AVL.nil 1) 1 = some 7 ∧
    AVL.search (AVL.node AVL.nil 2 none AVL.nil 1) 2 = some 2 ∧
    AVL.search (AVL.node AVL.nil 1 (some 7) AVL.nil 1) 3 = none ∧
    (RBN.searchR (RBN.node Col.black RBN.nil 1 RBN.nil) 1 = true ↔
      (1 : Int) ∈ RBN.inorderR (RBN.node Col.black RBN.nil 1 RBN.nil)) ∧
    (Treap.search (Treap.node 1 5 Treap.nil Treap.nil) 2 = true ↔
      (2 : Int) ∈ Treap.keys (Treap.node 1 5 Treap.nil Treap.nil)) :=
  ⟨search_return_values.1 _ 1 7 (by simp) (by simp),
    search_return_values.2.1 _ 2 (by simp) (by simp),
    search_return_values.2.2.1 _ 3 (by simp)
      (by
        intro p hp
        simp at hp
        subst hp
        decide),
    search_return_values.2.2.2.1 _ 1 (by simp),
    search_return_values.2.2.2.2 _ 2 (by simp)⟩

/-- C8: Deletion in the treap never grows the tree; in the two-children
case with the left child's priority not smaller (including ties), the
rotate-and-recurse step continues on a strictly smaller subtree, which is
the measure that makes `delete` terminate; and every Red-Black operation
sequence runs to completion. -/
theorem operations_terminate :
    (∀ (t : Treap) (k : Int), Treap.size (Treap.delete t k) ≤ Treap.size t) ∧
    (∀ (k0 p0 lk lp rk rp : Int) (ll lr rl rr : Treap), lp = rp →
      Treap.delete (Treap.node k0 p0 (Treap.node lk lp ll lr)
          (Treap.node rk rp rl rr)) k0 =
        Treap.node lk lp ll
          (Treap.delete (Treap.node k0 p0 lr (Treap.node rk rp rl rr)) k0) ∧
      Treap.size (Treap.node k0 p0 lr (Treap.node rk rp rl rr)) <
        Treap.size (Treap.node k0 p0 (Treap.node lk lp ll lr)
          (Treap.node rk rp rl rr))) ∧
    (∀ (ops : List RBN.ROp), ∃ t, RBN.runR ops = some t) := by
  refine ⟨Treap.size_delete_le, ?_, ?_⟩
  · intro k0 p0 lk lp rk rp ll lr rl rr hpp
    constructor
    · exact Treap.delete_found_rr (k := k0) p0 lk lp rk rp ll lr rl rr
        (by omega) (by omega) (by omega)
    · simp only [Treap.size]
      omega
  · intro ops
    obtain ⟨t, hrun, -⟩ := RBN.runR_model ops
    exact ⟨t, hrun⟩

/-- Witness for C8: the equal-priority rotate step on a concrete treap. -/
theorem operations_terminate_witness :
    (Treap.delete (Treap.node 2 1 (Treap.node 1 5 Treap.nil Treap.nil)
        (Treap.node 3 5 Treap.nil Treap.nil)) 2 =
      Treap.node 1 5 Treap.nil
        (Treap.delete (Treap.node 2 1 Treap.nil
          (Treap.node 3 5 Treap.nil Treap.nil)) 2) ∧
      Treap.size (Treap.node 2 1 Treap.nil (Treap.node 3 5 Treap.nil Treap.nil)) <
        Treap.size (Treap.node 2 1 (Treap.node 1 5 Treap.nil Treap.nil)
          (Treap.node 3 5 Treap.nil Treap.nil))) :=
  operations_terminate.2.1 2 1 1 5 3 5 Treap.nil Treap.nil Treap.nil Treap.nil rfl

/-- C9 counterexample: deleting the root of a treap whose two children
have equal priorities rotates the LEFT child up (a right rotation): from
`node 2 (pri 1)` with children `1 (pri 5)` and `3 (pri 5)`, deletion of 2
yields the tree rooted at 1, not the tree rooted at 3 that a left
rotation (right child up) would produce. -/
theorem treap_tie_break_counterexample :
    Treap.delete (Treap.node 2 1 (Treap.node 1 5 Treap.nil Treap.nil)
        (Treap.node 3 5 Treap.nil Treap.nil)) 2 =
      Treap.node 1 5 Treap.nil (Treap.node 3 5 Treap.nil Treap.nil) ∧
    Treap.delete (Treap.node 2 1 (Treap.node 1 5 Treap.nil Treap.nil)
        (Treap.node 3 5 Treap.nil Treap.nil)) 2 ≠
      Treap.node 3 5 (Treap.node 1 5 Treap.nil Treap.nil) Treap.nil := by
  have h1 := @Treap.delete_found_rr 2 2 1 1 5 3 5 Treap.nil
    Treap.nil Treap.nil Treap.nil (by omega) (by omega) (by omega)
  have h2 := @Treap.delete_found_nl 2 2 1
    (Treap.node 3 5 Treap.nil Treap.nil) (by omega) (by omega)
  rw [h1, h2]
  exact ⟨rfl, by decide⟩

/-- C9 amended: in the two-children case of Treap deletion, equal child
priorities take the `else` branch of `left.priority < right.priority`,
i.e. the tie-break favors `rotate_right` — the LEFT child is rotated into
the deleted node's position — and deletion continues in the new right
child. -/
theorem treap_tie_break_rotates_right (k0 p0 lk lp rk rp : Int)
    (ll lr rl rr : Treap) (hp : lp = rp) :
    Treap.delete (Treap.node k0 p0 (Treap.node lk lp ll lr)
        (Treap.node rk rp rl rr)) k0 =
      Treap.node lk lp ll
        (Treap.delete (Treap.node k0 p0 lr (Treap.node rk rp rl rr)) k0) ∧
    Treap.rotateRight (Treap.node k0 p0 (Treap.node lk lp ll lr)
        (Treap.node rk rp rl rr)) =
      Treap.node lk lp ll (Treap.node k0 p0 lr (Treap.node rk rp rl rr)) :=
  ⟨Treap.delete_found_rr (k := k0) p0 lk lp rk rp ll lr rl rr
      (by omega) (by omega) (by omega), rfl⟩

/-- Witness for the amended C9 on a concrete equal-priority treap. -/
theorem treap_tie_break_rotates_right_witness :
    Treap.delete (Treap.node 4 1 (Treap.node 2 6 Treap.nil Treap.nil)
        (Treap.node 6 6 Treap.nil Treap.nil)) 4 =
      Treap.node 2 6 Treap.nil
        (Treap.delete (Treap.node 4 1 Treap.nil
          (Treap.node 6 6 Treap.nil Treap.nil)) 4) ∧
    Treap.rotateRight (Treap.node 4 1 (Treap.node 2 6 Treap.nil Treap.nil)
        (Treap.node 6 6 Treap.nil Treap.nil)) =
      Treap.node 2 6 Treap.nil
        (Treap.node 4 1 Treap.nil (Treap.node 6 6 Treap.nil Treap.nil)) :=
  treap_tie_break_rotates_right 4 1 2 6 6 6 Treap.nil Treap.nil Treap.nil
    Treap.nil rfl

/-- C10: For an AVL tree containing key K with a stored value, calling
`insert(K)` with no value argument overwrites the stored value with
`None`, so a subsequent `search(K)` returns the key K itself instead of
the previously stored value. -/
theorem insert_none_overwrites (t : AVL) (k v : Int)
    (ho : AVL.Ordered t) (hstored : AVL.assoc t k = some (some v)) :
    AVL.search (AVL.insert t k none) k = some k := by
  rw [AVL.search_eq_assoc, AVL.assoc_insert_self t k none ho]
  rfl

/-- Witness for C10: value 9 stored at key 1 is replaced by the key. -/
theorem insert_none_overwrites_witness :
    AVL.search (AVL.insert (AVL.node AVL.nil 1 (some 9) AVL.nil 1) 1 none) 1 =
      some 1 :=
  insert_none_overwrites (AVL.node AVL.nil 1 (some 9) AVL.nil 1) 1 9
    (by simp) (by simp [AVL.assoc])

end Spec
